import Mathlib

/-!
# Orbito: co-processor link protocol and flash driver

A shallow embedding of `src/core/PortHandler.cpp` (framed request/response
exchange with the ATtiny co-processor over a serial channel) and of
`src/core/FlashHandler.cpp` / `src/core/SPIHandler.cpp` (W25Q16 flash driver on
the shared SPI bus), followed by the properties proved about them.

Conventions of the embedding.

* Bytes (`uint8_t`) are natural numbers; every conversion to `uint8_t` performed
  by the C++ code appears as an explicit `% 256`, every `uint16_t` as `% 65536`
  and every `uint32_t` as `% 4294967296`.
* The serial channel `HardwareSerial` is explicit state: the clock `now` (in the
  milliseconds of `millis()`), the incoming bytes still to be read, each with the
  time at which it becomes available in the receive buffer, and the bytes written
  so far.
* Time: work on bytes that are already available is instantaneous; a poll that
  finds the receive buffer empty is followed by the next clock tick. Busy waiting
  is thereby collapsed to the millisecond granularity at which the code reads the
  clock.
* Loops are defined by structural recursion on a budget of iterations. A loop
  that exhausts its budget yields `none`; the callers supply a budget that the
  loop provably never exhausts (see `readResponse_returns`).
-/

namespace Orbito

/-! ## Serial channel -/

/-- The serial port seen by `PortHandler`: clock, pending input, output so far. -/
structure HardwareSerial where
  /-- Milliseconds since boot. -/
  now : Nat
  /-- Incoming bytes not yet read, oldest first, as `(arrival time, byte)`. -/
  rx : List (Nat × Nat)
  /-- Bytes written to the channel so far, oldest first. -/
  tx : List Nat
deriving DecidableEq, Repr

namespace HardwareSerial

/-- Arduino `millis()`: a 32-bit `unsigned long`. -/
def millis (s : HardwareSerial) : Nat := s.now % 4294967296

/-- `_serial.available()` used as a truth value: the oldest pending byte has arrived. -/
def available (s : HardwareSerial) : Bool :=
  match s.rx with
  | [] => false
  | (t, _) :: _ => decide (t ≤ s.now)

/-- `_serial.read()`: the oldest byte of the receive buffer, or `-1` when it is empty. -/
def read (s : HardwareSerial) : Int × HardwareSerial :=
  match s.rx with
  | [] => (-1, s)
  | (t, b) :: rest =>
    if t ≤ s.now then (Int.ofNat (b % 256), { s with rx := rest }) else (-1, s)

/-- `_serial.write(uint8_t)`. -/
def write (s : HardwareSerial) (b : Nat) : HardwareSerial :=
  { s with tx := s.tx ++ [b % 256] }

/-- `_serial.write(const uint8_t*, size_t)`: the first `len` bytes of `data`. -/
def writeBytes (s : HardwareSerial) (data : List Nat) (len : Nat) : HardwareSerial :=
  { s with tx := s.tx ++ (data.take len).map (· % 256) }

/-- One clock tick passes while the code polls an empty receive buffer. -/
def tick (s : HardwareSerial) : HardwareSerial := { s with now := s.now + 1 }

/-- `delay(ms)`. -/
def delay (s : HardwareSerial) (ms : Nat) : HardwareSerial := { s with now := s.now + ms }

end HardwareSerial

/-! ## PortHandler -/

def TINY_START : Nat := 0xAA
def TINY_CMD_PMODE : Nat := 0x01
def TINY_CMD_DWRITE : Nat := 0x02
def TINY_CMD_DREAD : Nat := 0x03
def TINY_CMD_AWRITE : Nat := 0x04
def TINY_CMD_AREAD : Nat := 0x05
def TINY_CMD_I2C_W : Nat := 0x10
def TINY_CMD_I2C_R : Nat := 0x11
def TINY_CMD_SPI_I : Nat := 0x20
def TINY_CMD_SPI_T : Nat := 0x21
def TINY_CMD_SLEEP_MONITOR : Nat := 0x90
def TINY_CMD_PING : Nat := 0x99

/-- The member `const uint32_t _timeout = 200`. -/
def _timeout : Nat := 200

/-- Conversion of the `int` returned by `read()` to `uint8_t`. -/
def toU8 (x : Int) : Nat := (x % 256).toNat

/-- The `unsigned long` difference `millis() - start`. -/
def elapsed (start : Nat) (s : HardwareSerial) : Nat :=
  (s.millis + 4294967296 - start) % 4294967296

/-- XOR of the bytes of a list, the fold used by both checksums. -/
def xorFold (data : List Nat) : Nat := data.foldl (· ^^^ ·) 0

/-- `PortHandler::_calcCRC`. The pointer `data` is `none` for `NULL`; the loop
`for (i = 0; i < len; i++) crc ^= data[i]` runs over the first `len` bytes. -/
def _calcCRC (cmd : Nat) (data : Option (List Nat)) (len : Nat) : Nat :=
  let crc := (cmd ^^^ len) % 256
  match data with
  | none => crc
  | some d => (d.take len).foldl (fun c b => (c ^^^ b) % 256) crc

/-- `PortHandler::_sendPacket`. -/
def _sendPacket (s : HardwareSerial) (cmd : Nat) (payload : Option (List Nat)) (len : Nat) :
    HardwareSerial :=
  let crc := _calcCRC cmd payload len
  let s := s.write TINY_START
  let s := s.write cmd
  let s := s.write (len % 256)
  let s := if len > 0 then s.writeBytes (payload.getD []) len else s
  s.write crc

/-- The loop `while (millis() - start < _timeout) if (available()) if (read() == TINY_START) break;`. -/
def scanStart (start : Nat) : Nat → HardwareSerial → Option HardwareSerial
  | 0, _ => none
  | fuel + 1, s =>
    if elapsed start s < _timeout then
      if s.available then
        if s.read.1 = Int.ofNat TINY_START then some s.read.2
        else scanStart start fuel s.read.2
      else scanStart start fuel s.tick
    else some s

/-- The loop `while (!available() && (millis() - start < _timeout));`. -/
def awaitByte (start : Nat) : Nat → HardwareSerial → Option HardwareSerial
  | 0, _ => none
  | fuel + 1, s =>
    if !s.available && decide (elapsed start s < _timeout) then awaitByte start fuel s.tick
    else some s

/-- The loop `while (_serial.available()) _serial.read();` of the length check:
every byte that has already arrived is dropped. -/
def drainRx (now : Nat) : List (Nat × Nat) → List (Nat × Nat)
  | [] => []
  | (t, b) :: rest => if t ≤ now then drainRx now rest else (t, b) :: rest

/-- The data loop of `_readResponse`:
`while (count < rx_len && (millis() - start < _timeout)) if (available()) { byte = read(); buffer[count++] = byte; crc_calculated ^= byte; }`.
Returns the channel, the buffer, `count` and `crc_calculated`. -/
def readData (start rx_len : Nat) :
    Nat → HardwareSerial → List Nat → Nat → Nat → Option (HardwareSerial × List Nat × Nat × Nat)
  | 0, _, _, _, _ => none
  | fuel + 1, s, buffer, count, crc =>
    if count < rx_len ∧ elapsed start s < _timeout then
      if s.available then
        let byte := toU8 s.read.1
        readData start rx_len fuel s.read.2 (buffer.set count byte) (count + 1) (crc ^^^ byte)
      else readData start rx_len fuel s.tick buffer count crc
    else some (s, buffer, count, crc)

/-- Iterations granted to each polling loop of one `_readResponse` call: every
iteration either consumes a pending byte or lets one tick of the timeout pass. -/
def pollBudget (s : HardwareSerial) : Nat := s.rx.length + _timeout + 1

/-- `PortHandler::_readResponse`. The result is the returned flag, the channel
afterwards and the caller's buffer afterwards. -/
def _readResponse (s : HardwareSerial) (buffer : List Nat) (expected_len : Nat) :
    Option (Bool × HardwareSerial × List Nat) :=
  let start := s.millis
  let fuel := pollBudget s
  -- Search START byte
  (scanStart start fuel s).bind fun s1 =>
  -- Read the length
  (awaitByte start fuel s1).bind fun s2 =>
  if !s2.available then some (false, s2, buffer) else
  let rx_len := toU8 s2.read.1
  let s3 := s2.read.2
  -- Validate the length
  if rx_len ≠ expected_len then
    some (false, { s3 with rx := drainRx s3.now s3.rx }, buffer)
  else
  -- Read the data and calculate CRC
  (readData start rx_len fuel s3 buffer 0 rx_len).bind fun (s4, buf, count, crc_calculated) =>
  if count ≠ rx_len then some (false, s4, buf) else
  -- Read CRC
  (awaitByte start fuel s4).bind fun s5 =>
  if !s5.available then some (false, s5, buf) else
  let crc_received := toU8 s5.read.1
  if crc_calculated ≠ crc_received then some (false, s5.read.2, buf)
  else some (true, s5.read.2, buf)

def arrive (now : Nat) : List (Nat × Nat) → Nat
  | [] => now
  | x :: l => arrive (max now x.1) l

def storeAt : List Nat → Nat → List Nat → List Nat
  | buffer, _, [] => buffer
  | buffer, i, b :: bs => storeAt (buffer.set i b) (i + 1) bs

/-- The frame `[START, CMD, LEN, payload.., CRC]` written by `_sendPacket`, recast in the shape
of a response `[START, LEN, payload.., CRC']`: the CMD byte is removed and folded out of the
checksum. -/
def asResponse : List Nat → List Nat
  | start :: cmd :: body => start :: (body.dropLast ++ (body.getLast?.map (· ^^^ cmd)).toList)
  | frame => frame

/-- The input flush of `begin`:
`start = millis(); while (millis() - start < 100) while (available()) read();`. -/
def flushInput (start : Nat) : Nat → HardwareSerial → Option HardwareSerial
  | 0, _ => none
  | fuel + 1, s =>
    if elapsed start s < 100 then
      flushInput start fuel ({ s with rx := drainRx s.now s.rx } : HardwareSerial).tick
    else some s

/-- One pass through the body of the handshake loop of `begin`, up to its test:
`_sendPacket(TINY_CMD_PING, NULL, 0); uint8_t response; _readResponse(&response, 1) && response == 0xAA`.
The local `response` is a one-byte buffer. -/
def pingOnce (s : HardwareSerial) : Option (Bool × HardwareSerial) :=
  (_readResponse (_sendPacket s TINY_CMD_PING none 0) [0] 1).map fun r =>
    (r.1 && decide (r.2.2.headD 0 = 0xAA), r.2.1)

/-- The handshake loop of `begin`, `for (int i = 0; i < 3; i++) { ... delay(50); } return false;`,
indexed by the number of attempts still to make. -/
def handshake : Nat → HardwareSerial → Option (Bool × HardwareSerial)
  | 0, s => some (false, s)
  | attempts + 1, s =>
    (pingOnce s).bind fun r =>
      if r.1 then some (true, r.2) else handshake attempts (r.2.delay 50)

/-- `PortHandler::begin`. Opening the port (`_serial.begin`) leaves the modelled channel as it is. -/
def begin (s : HardwareSerial) : Option (Bool × HardwareSerial) :=
  (flushInput s.millis 101 s).bind (handshake 3)

/-- `PortHandler::pinMode`. The local `ack` is a one-byte buffer; the result of
`_readResponse` is ignored. -/
def pinMode (s : HardwareSerial) (pin mode : Nat) : Option HardwareSerial :=
  (_readResponse (_sendPacket s TINY_CMD_PMODE (some [pin, mode]) 2) [0] 1).map (·.2.1)

/-- `PortHandler::digitalWrite`. -/
def digitalWrite (s : HardwareSerial) (pin value : Nat) : Option HardwareSerial :=
  (_readResponse (_sendPacket s TINY_CMD_DWRITE (some [pin, value]) 2) [0] 1).map (·.2.1)

/-- `PortHandler::analogWrite`. -/
def analogWrite (s : HardwareSerial) (pin value : Nat) : Option HardwareSerial :=
  (_readResponse (_sendPacket s TINY_CMD_AWRITE (some [pin, value]) 2) [0] 1).map (·.2.1)

/-- `PortHandler::spiBegin`. -/
def spiBegin (s : HardwareSerial) (mode clock_divider : Nat) : Option HardwareSerial :=
  (_readResponse (_sendPacket s TINY_CMD_SPI_I (some [mode, clock_divider]) 2) [0] 1).map (·.2.1)

/-- `PortHandler::triggerRemoteSleep`. -/
def triggerRemoteSleep (s : HardwareSerial) (pin level : Nat) : Option HardwareSerial :=
  (_readResponse (_sendPacket s TINY_CMD_SLEEP_MONITOR (some [pin, level]) 2) [0] 1).map (·.2.1)

/-- `PortHandler::analogRead`: the returned `int` and the channel afterwards. The value is
`(uint16_t)(((uint16_t)buffer[0] << 8) | (uint16_t)buffer[1])` after a successful exchange
and `-1` otherwise. -/
def analogRead (s : HardwareSerial) (pin : Nat) : Option (Int × HardwareSerial) :=
  let s := _sendPacket s TINY_CMD_AREAD (some [pin]) 1
  let s := s.delay 1
  (_readResponse s [0, 0] 2).map fun r =>
    if r.1 then (Int.ofNat (((r.2.2.getD 0 0 <<< 8) ||| r.2.2.getD 1 0) % 65536), r.2.1)
    else (-1, r.2.1)

/-- `PortHandler::i2cWrite`. The array `payload[len + 1]` holds the address followed by the
first `len` bytes of `data`. -/
def i2cWrite (s : HardwareSerial) (address : Nat) (data : List Nat) (len : Nat) :
    Option (Bool × HardwareSerial) :=
  if len > 32 then some (false, s) else
  let payload := address :: data.take len
  let s := _sendPacket s TINY_CMD_I2C_W (some payload) (len + 1)
  (_readResponse s [0] 1).map fun r => (r.1 && decide (r.2.2.getD 0 0 = 1), r.2.1)

/-- The loop of `PortHandler::spiTransfer(uint8_t* buffer, size_t len)`, on a budget of
iterations. `&buffer[processed]` is the buffer from index `processed` on; what
`_readResponse` leaves there is put back behind the first `processed` bytes. -/
def spiTransferLoop (len : Nat) : Nat → HardwareSerial → List Nat → Nat →
    Option (HardwareSerial × List Nat)
  | 0, s, buffer, processed => if processed < len then none else some (s, buffer)
  | fuel + 1, s, buffer, processed =>
    if processed < len then
      let chunk := if len - processed > 32 then 32 else len - processed
      let s := _sendPacket s TINY_CMD_SPI_T (some (buffer.drop processed)) chunk
      (_readResponse s (buffer.drop processed) chunk).bind fun r =>
        if !r.1 then some (r.2.1, buffer.take processed ++ r.2.2)
        else spiTransferLoop len fuel r.2.1 (buffer.take processed ++ r.2.2) (processed + chunk)
    else some (s, buffer)

/-- `PortHandler::spiTransfer(uint8_t* buffer, size_t len)`: the channel and the buffer
afterwards. Every iteration adds at least one byte to `processed`, so `len` iterations are
never exceeded. -/
def spiTransfer (s : HardwareSerial) (buffer : List Nat) (len : Nat) :
    Option (HardwareSerial × List Nat) :=
  spiTransferLoop len len s buffer 0

/-- The request frame the protocol prescribes for a command and its payload:
`[START, CMD, LEN, payload.., CMD XOR LEN XOR fold(payload)]`. -/
def requestFrame (cmd : Nat) (payload : List Nat) : List Nat :=
  [0xAA, cmd, payload.length] ++ payload ++ [cmd ^^^ payload.length ^^^ xorFold payload]

/-- A buffer cut into consecutive chunks of 32 bytes, the last one possibly shorter. -/
def chunks32 (l : List Nat) : List (List Nat) :=
  if _h : l = [] then [] else l.take 32 :: chunks32 (l.drop 32)
termination_by l.length
decreasing_by
  cases l with
  | nil => contradiction
  | cons a l => simp only [List.length_drop, List.length_cons]; omega

/-- The response frame that carries a payload: `[START, LEN, payload.., LEN XOR fold(payload)]`. -/
def responseFrame (p : List Nat) : List Nat :=
  [0xAA, p.length] ++ p ++ [p.length ^^^ xorFold p]

/-- The request frames of a bulk SPI transfer of `data`: one `0x21` frame per 32-byte chunk. -/
def spiFrames (data : List Nat) : List Nat :=
  ((chunks32 data).map (requestFrame 0x21)).flatten

/-- Every reply arrives in time: each byte of a reply arrives less than `_timeout` after the
exchange it answers has started, an exchange starting when the previous reply has been read. -/
def answered (now : Nat) : List (List (Nat × Nat)) → Prop
  | [] => True
  | f :: fs => (∀ x ∈ f, x.1 < now + _timeout) ∧ answered (arrive now f) fs

/-- A reply `f` (bytes with their arrival times) is a valid response frame carrying payload
`p`, possibly preceded by line noise that contains no START byte. -/
def validReply (f : List (Nat × Nat)) (p : List Nat) : Prop :=
  ∃ noise : List Nat, (∀ b ∈ noise, b < 256 ∧ b ≠ 0xAA) ∧
    f.map (·.2) = noise ++ responseFrame p

/-! ## Shared SPI bus (`SPIHandler`) and flash driver (`FlashHandler`) -/

/-- What happens on the shared SPI bus, in order of occurrence. -/
inductive BusEvent where
  /-- `xSemaphoreTake(_safety_block_spi, portMAX_DELAY)`. -/
  | take
  /-- `_spi->beginTransaction(_settings)`. -/
  | beginTransaction
  /-- `digitalWrite(_cs_pin, LOW)`. -/
  | csLow
  /-- `spiWrite(b)`: `_spi->transfer(b)`, the byte clocked in being ignored. -/
  | write (b : Nat)
  /-- `spiRead()`: `_spi->transfer(0x00)` returning `b`. -/
  | read (b : Nat)
  /-- `digitalWrite(_cs_pin, HIGH)`. -/
  | csHigh
  /-- `_spi->endTransaction()`. -/
  | endTransaction
  /-- `xSemaphoreGive(_safety_block_spi)`. -/
  | give
  /-- `vTaskDelay(1 / portTICK_PERIOD_MS)`. -/
  | yield
deriving DecidableEq, Repr

/-- The bus as one driver instance sees it: the bytes the chip will answer to the successive
`spiRead()` calls (`0xFF`, the idle level of the line, once they are used up), and the trace
of bus events so far. -/
structure SPIBus where
  miso : List Nat
  trace : List BusEvent
deriving DecidableEq, Repr

namespace SPIBus

/-- `SPIHandler::startTransaction`. -/
def startTransaction (s : SPIBus) : SPIBus :=
  { s with trace := s.trace ++ [.take, .beginTransaction, .csLow] }

/-- `SPIHandler::endTransaction`. -/
def endTransaction (s : SPIBus) : SPIBus :=
  { s with trace := s.trace ++ [.csHigh, .endTransaction, .give] }

/-- `SPIHandler::spiWrite(uint8_t data)`. -/
def spiWrite (s : SPIBus) (data : Nat) : SPIBus :=
  { s with trace := s.trace ++ [.write (data % 256)] }

/-- `SPIHandler::spiRead`. -/
def spiRead (s : SPIBus) : Nat × SPIBus :=
  match s.miso with
  | [] => (0xFF, { s with trace := s.trace ++ [.read 0xFF] })
  | b :: rest => (b % 256, { miso := rest, trace := s.trace ++ [.read (b % 256)] })

/-- `vTaskDelay(1 / portTICK_PERIOD_MS)`. -/
def vTaskDelay (s : SPIBus) : SPIBus := { s with trace := s.trace ++ [.yield] }

end SPIBus

def W25Q_CMD_WRITE_ENABLE : Nat := 0x06
def W25Q_CMD_READ_STATUS_1 : Nat := 0x05
def W25Q_CMD_READ_DATA : Nat := 0x03
def W25Q_CMD_PAGE_PROGRAM : Nat := 0x02
def W25Q_CMD_SECTOR_ERASE_4K : Nat := 0x20
def W25Q_CMD_CHIP_ERASE : Nat := 0xC7
def W25Q_CMD_JEDEC_ID : Nat := 0x9F
def W25Q_CMD_POWER_DOWN : Nat := 0xB9
def W25Q_CMD_RELEASE_PD : Nat := 0xAB
def W25Q_PAGE_SIZE : Nat := 256

namespace FlashHandler

/-- `FlashHandler::isBusy`. -/
def isBusy (s : SPIBus) : Bool × SPIBus :=
  let s := s.startTransaction
  let s := s.spiWrite W25Q_CMD_READ_STATUS_1
  let status := s.spiRead.1
  let s := s.spiRead.2
  let s := s.endTransaction
  (decide (status &&& 0x01 ≠ 0), s)

/-- The loop of `FlashHandler::waitForReady`, `while (isBusy()) vTaskDelay(1 / portTICK_PERIOD_MS);`,
on a budget of polls. -/
def waitLoop : Nat → SPIBus → Option SPIBus
  | 0, _ => none
  | fuel + 1, s =>
    if (isBusy s).1 then waitLoop fuel (isBusy s).2.vTaskDelay else some (isBusy s).2

/-- `FlashHandler::waitForReady`. Once the chip's answers are used up every status read gives
`0xFF`, busy, so a wait that is not over after `miso.length + 1` polls never ends: `none`. -/
def waitForReady (s : SPIBus) : Option SPIBus := waitLoop (s.miso.length + 1) s

/-- `FlashHandler::_writeEnable`. -/
def _writeEnable (s : SPIBus) : SPIBus :=
  ((s.startTransaction).spiWrite W25Q_CMD_WRITE_ENABLE).endTransaction

/-- `FlashHandler::_sendAddress(uint32_t addr)`. -/
def _sendAddress (s : SPIBus) (addr : Nat) : SPIBus :=
  ((s.spiWrite ((addr >>> 16) &&& 0xFF)).spiWrite ((addr >>> 8) &&& 0xFF)).spiWrite (addr &&& 0xFF)

/-- The data loop of `FlashHandler::write`,
`for (size_t i = 0; i < bytes_to_write; i++) spiWrite(buffer[data_offset + i]);`,
from index `i` with `todo = bytes_to_write - i` iterations to go. -/
def sendData (buffer : List Nat) (data_offset : Nat) : Nat → Nat → SPIBus → SPIBus
  | 0, _, s => s
  | todo + 1, i, s => sendData buffer data_offset todo (i + 1) (s.spiWrite (buffer.getD (data_offset + i) 0))

/-- The loop of `FlashHandler::write`, on a budget of iterations. -/
def writeLoop (buffer : List Nat) : Nat → SPIBus → Nat → Nat → Nat → Option SPIBus
  | 0, s, _, _, remaining_bytes => if remaining_bytes > 0 then none else some s
  | fuel + 1, s, current_addr, data_offset, remaining_bytes =>
    if remaining_bytes > 0 then
      (waitForReady s).bind fun s =>
      let s := _writeEnable s
      let s := s.startTransaction
      let s := s.spiWrite W25Q_CMD_PAGE_PROGRAM
      let s := _sendAddress s current_addr
      let page_offset := (current_addr % W25Q_PAGE_SIZE) % 65536
      let bytes_available_in_page := (W25Q_PAGE_SIZE - page_offset) % 65536
      let bytes_to_write :=
        (if remaining_bytes < bytes_available_in_page then remaining_bytes
          else bytes_available_in_page) % 65536
      let s := sendData buffer data_offset bytes_to_write 0 s
      let s := s.endTransaction
      writeLoop buffer fuel s ((current_addr + bytes_to_write) % 4294967296)
        (data_offset + bytes_to_write) (remaining_bytes - bytes_to_write)
    else some s

/-- `FlashHandler::write(uint32_t addr, const uint8_t* buffer, size_t len)`. Every iteration
takes at least one byte off `remaining_bytes`, so `len` iterations are never exceeded. -/
def write (s : SPIBus) (addr : Nat) (buffer : List Nat) (len : Nat) : Option SPIBus :=
  writeLoop buffer len s (addr % 4294967296) 0 len

end FlashHandler

/-- The transactions of a trace: for each chip-select window, the transfers made in it. The
second argument is the window being collected, if one is open. -/
def splitTransactions : List BusEvent → Option (List BusEvent) → List (List BusEvent)
  | [], _ => []
  | .csLow :: es, _ => splitTransactions es (some [])
  | .csHigh :: es, some cur => cur :: splitTransactions es none
  | .csHigh :: es, none => splitTransactions es none
  | .write b :: es, some cur => splitTransactions es (some (cur ++ [.write b]))
  | .read b :: es, some cur => splitTransactions es (some (cur ++ [.read b]))
  | _ :: es, cur => splitTransactions es cur

def transactions (trace : List BusEvent) : List (List BusEvent) := splitTransactions trace none

/-- The bytes written in a transaction. -/
def writtenBytes : List BusEvent → List Nat
  | [] => []
  | .write b :: es => b :: writtenBytes es
  | _ :: es => writtenBytes es

/-- A transaction read as a page-program command: opcode `0x02`, three address bytes (most
significant first), then the data bytes. The result is the 24-bit address and the data. -/
def asPageProgram : List BusEvent → Option (Nat × List Nat)
  | .write 0x02 :: .write a2 :: .write a1 :: .write a0 :: data =>
    some (a2 * 65536 + a1 * 256 + a0, writtenBytes data)
  | _ => none

/-- The page-program commands of a trace, in order. -/
def pagePrograms (trace : List BusEvent) : List (Nat × List Nat) :=
  (transactions trace).filterMap asPageProgram

/-- The reference page split, in the words of the specification: starting from `cur = addr` and
`remaining = len`, while `remaining > 0` take `size = min(remaining, 256 - (cur mod 256))`, emit
`(cur, size)`, then `cur += size` and `remaining -= size`. -/
def pageSplit (cur remaining : Nat) : List (Nat × Nat) :=
  if _h : remaining > 0 then
    (cur, min remaining (256 - cur % 256)) ::
      pageSplit (cur + min remaining (256 - cur % 256)) (remaining - min remaining (256 - cur % 256))
  else []
termination_by remaining
decreasing_by omega

/-- Status readings of a chip that report it ready (WIP, bit 0, clear). -/
def readyCount (miso : List Nat) : Nat := (miso.filter (fun r => r % 256 % 2 = 0)).length

/-- A complete transaction making the transfers `evs`. -/
def txn (evs : List BusEvent) : List BusEvent :=
  [.take, .beginTransaction, .csLow] ++ evs ++ [.csHigh, .endTransaction, .give]

/-- The bytes `buffer[data_offset + i], buffer[data_offset + i + 1], ...`, `n` of them, as
`uint8_t` values. -/
def chunkBytes (buffer : List Nat) (data_offset : Nat) : Nat → Nat → List Nat
  | 0, _ => []
  | n + 1, i => (buffer.getD (data_offset + i) 0 % 256) :: chunkBytes buffer data_offset n (i + 1)

/-- The page-program commands that carry out a list of `(address, size)` chunks on the bus:
24-bit addresses, data taken from `buffer` in order starting at `data_offset`. -/
def expectedPrograms (buffer : List Nat) : List (Nat × Nat) → Nat → List (Nat × List Nat)
  | [], _ => []
  | (a, n) :: cs, data_offset =>
    (a % 16777216, chunkBytes buffer data_offset n 0) ::
      expectedPrograms buffer cs (data_offset + n)

/-- The bus trace of status polls that read the busy values `busy`, each followed by a yield. -/
def busyPolls : List Nat → List BusEvent
  | [] => []
  | b :: busy => txn [.write 0x05, .read (b % 256)] ++ [.yield] ++ busyPolls busy

/-- The chunks start at `a` and each chunk starts where the previous one ends. -/
def chained : Nat → List (Nat × List Nat) → Prop
  | _, [] => True
  | a, c :: cs => c.1 = a ∧ chained (a + c.2.length) cs

/-- The bytes `bs` paired with the consecutive addresses `a, a + 1, ...`. -/
def withAddresses : Nat → List Nat → List (Nat × Nat)
  | _, [] => []
  | a, b :: bs => (a, b) :: withAddresses (a + 1) bs

/-- Every `(address, byte)` programmed by a list of page-program commands, in bus order. -/
def programmedBytes (cs : List (Nat × List Nat)) : List (Nat × Nat) :=
  cs.flatMap fun c => withAddresses c.1 c.2


/-- A transaction read as a status poll: opcode `0x05`, then one byte read. -/
def asStatusRead : List BusEvent → Option Nat
  | [.write 0x05, .read r] => some r
  | _ => none

/-- The status-register readings of a trace, in order. -/
def statusReads (trace : List BusEvent) : List Nat :=
  (transactions trace).filterMap asStatusRead

namespace FlashHandler

/-- `FlashHandler::getJEDECID`. -/
def getJEDECID (s : SPIBus) : Nat × SPIBus :=
  let id := 0
  let s := s.startTransaction
  let s := s.spiWrite W25Q_CMD_JEDEC_ID
  let id := (id ||| (s.spiRead.1 <<< 16)) % 4294967296
  let s := s.spiRead.2
  let id := (id ||| (s.spiRead.1 <<< 8)) % 4294967296
  let s := s.spiRead.2
  let id := (id ||| s.spiRead.1) % 4294967296
  let s := s.spiRead.2
  let s := s.endTransaction
  (id, s)

/-- The loop of `FlashHandler::read`, `for (size_t i = 0; i < len; i++) buffer[i] = spiRead();`,
from index `i` with `todo = len - i` iterations to go. -/
def readLoop : Nat → Nat → SPIBus → List Nat → SPIBus × List Nat
  | 0, _, s, buffer => (s, buffer)
  | todo + 1, i, s, buffer => readLoop todo (i + 1) s.spiRead.2 (buffer.set i s.spiRead.1)

/-- `FlashHandler::read(uint32_t addr, uint8_t* buffer, size_t len)`. -/
def read (s : SPIBus) (addr : Nat) (buffer : List Nat) (len : Nat) :
    Option (SPIBus × List Nat) :=
  (waitForReady s).map fun s =>
    let s := s.startTransaction
    let s := s.spiWrite W25Q_CMD_READ_DATA
    let s := _sendAddress s (addr % 4294967296)
    let r := readLoop len 0 s buffer
    (r.1.endTransaction, r.2)

/-- `FlashHandler::eraseSector(uint32_t addr)`. -/
def eraseSector (s : SPIBus) (addr : Nat) : Option SPIBus :=
  (waitForReady s).map fun s =>
    let s := _writeEnable s
    let s := s.startTransaction
    let s := s.spiWrite W25Q_CMD_SECTOR_ERASE_4K
    let s := _sendAddress s (addr % 4294967296)
    s.endTransaction

/-- `FlashHandler::eraseChip`. -/
def eraseChip (s : SPIBus) : Option SPIBus :=
  (waitForReady s).map fun s =>
    let s := _writeEnable s
    let s := s.startTransaction
    let s := s.spiWrite W25Q_CMD_CHIP_ERASE
    s.endTransaction

/-- `FlashHandler::powerDown`. -/
def powerDown (s : SPIBus) : SPIBus :=
  ((s.startTransaction).spiWrite W25Q_CMD_POWER_DOWN).endTransaction

/-- `FlashHandler::wakeUp`. -/
def wakeUp (s : SPIBus) : SPIBus :=
  ((s.startTransaction).spiWrite W25Q_CMD_RELEASE_PD).endTransaction

end FlashHandler

/-- The bytes the bus returns to `n` successive `spiRead()` calls when the chip's answers are
`miso`: the answers in order, as bytes, and `0xFF` once they are used up. -/
def answers : Nat → List Nat → List Nat
  | 0, _ => []
  | n + 1, [] => 0xFF :: answers n []
  | n + 1, b :: rest => b % 256 :: answers n rest

/-- A transfer on the bus: a byte written or a byte read. -/
def BusEvent.isTransfer : BusEvent → Bool
  | .write _ => true
  | .read _ => true
  | _ => false

/-- What a driver holds at a point of its bus trace: the permit (`_safety_block_spi` taken) and
its chip select asserted (`_cs_pin` low). -/
structure Holding where
  permit : Bool
  selected : Bool
deriving DecidableEq, Repr

/-- The effect of one bus event on what the driver holds. -/
def Holding.track (h : Holding) : BusEvent → Holding
  | .take => { h with permit := true }
  | .give => { h with permit := false }
  | .csLow => { h with selected := true }
  | .csHigh => { h with selected := false }
  | _ => h

/-- What the driver holds after the events `evs`. -/
def Holding.after (h : Holding) (evs : List BusEvent) : Holding := evs.foldl Holding.track h

/-- The transaction discipline, event by event: the permit is taken only when it is not held,
the bus is configured, selected, deselected and restored only under the permit, a byte is
transferred only under the permit with the chip select asserted, the permit is given back only
with the chip select deasserted, and the task yields only with the permit released. -/
def Holding.allows (h : Holding) : BusEvent → Bool
  | .take => !h.permit
  | .beginTransaction => h.permit
  | .csLow => h.permit
  | .write _ => h.permit && h.selected
  | .read _ => h.permit && h.selected
  | .csHigh => h.permit
  | .endTransaction => h.permit
  | .give => h.permit && !h.selected
  | .yield => !h.permit

/-- Runs a trace under the transaction discipline: what the driver holds at the end, or `none`
as soon as an event breaks the discipline. -/
def disciplined : Holding → List BusEvent → Option Holding
  | h, [] => some h
  | h, e :: es => if h.allows e then disciplined (h.track e) es else none

/-- The permit free and the chip select high. -/
def Holding.free : Holding := ⟨false, false⟩

/-- The page-program transaction of the command `c = (24-bit address, data)`. -/
def programTransfers (c : Nat × List Nat) : List BusEvent :=
  ([0x02, c.1 / 65536 % 256, c.1 / 256 % 256, c.1 % 256] ++ c.2).map BusEvent.write

/-- The bus trace of writing one chunk: status polls reading the busy values `w.1`, each
followed by a yield, the poll reading the ready value `w.2`, a write-enable transaction, and
the page-program transaction of `c`. -/
def chunkTrace (w : List Nat × Nat) (c : Nat × List Nat) : List BusEvent :=
  busyPolls w.1 ++ txn [.write 0x05, .read (w.2 % 256)] ++ txn [.write 0x06] ++
    txn (programTransfers c)

/-- The bus trace of writing the chunks `cs`, the chip's status readings during the wait before
each chunk being `ws`. -/
def writeTrace : List (List Nat × Nat) → List (Nat × List Nat) → List BusEvent
  | w :: ws, c :: cs => chunkTrace w c ++ writeTrace ws cs
  | _, _ => []

/-- The transactions of writing one chunk, in bus order. -/
def chunkTransactions (w : List Nat × Nat) (c : Nat × List Nat) : List (List BusEvent) :=
  (w.1 ++ [w.2]).map (fun b => [BusEvent.write 0x05, BusEvent.read (b % 256)]) ++
    [[.write 0x06], programTransfers c]

/-- Every page-program transaction (opcode `0x02`) of a list of transactions comes right after
a write-enable transaction `[0x06]`; `prev` is the transaction before the list. -/
def enabledPrograms : Option (List BusEvent) → List (List BusEvent) → Bool
  | _, [] => true
  | prev, t :: ts =>
    (t.head? ≠ some (BusEvent.write 0x02) || prev = some [BusEvent.write 0x06]) &&
      enabledPrograms (some t) ts

/-- A GPIO call made by `SPIHandler::begin`. -/
inductive GpioEvent where
  /-- `pinMode(pin, OUTPUT)`. -/
  | pinModeOutput (pin : Nat)
  /-- `digitalWrite(pin, HIGH)`. -/
  | digitalWriteHigh (pin : Nat)
deriving DecidableEq, Repr

/-- The process-wide state behind `SPIHandler::begin`: the static handle `_safety_block_spi`
(`none` for `NULL`), the results the coming `xSemaphoreCreateMutex()` calls will give (`none`
for `NULL`, no memory for a mutex) and the GPIO calls made so far. -/
structure SPIShared where
  _safety_block_spi : Option Nat
  heap : List (Option Nat)
  gpio : List GpioEvent
deriving DecidableEq, Repr

namespace SPIHandler

/-- `xSemaphoreCreateMutex()`. -/
def xSemaphoreCreateMutex (g : SPIShared) : Option Nat × SPIShared :=
  match g.heap with
  | [] => (none, g)
  | r :: rest => (r, { g with heap := rest })

/-- `SPIHandler::begin` of the driver instance whose chip select is `_cs_pin`. -/
def begin (_cs_pin : Nat) (g : SPIShared) : SPIShared :=
  let g := { g with gpio := g.gpio ++ [.pinModeOutput _cs_pin, .digitalWriteHigh _cs_pin] }
  if g._safety_block_spi = none then
    { (xSemaphoreCreateMutex g).2 with _safety_block_spi := (xSemaphoreCreateMutex g).1 }
  else g

end SPIHandler

namespace DisplayHandler

/-- `DisplayHandler::draw(drawCallback)`: take the permit, run the callback, give the permit
back. The callback is given by the bus events it performs. -/
def draw (s : SPIBus) (drawCallback : List BusEvent) : SPIBus :=
  { s with trace := s.trace ++ [.take] ++ drawCallback ++ [.give] }

end DisplayHandler

/-- A call made by a concurrent user of the shared bus. -/
inductive BusCall where
  /-- The flash driver: `startTransaction(); <transfers>; endTransaction();`. -/
  | transaction (transfers : List BusEvent)
  /-- The display driver: `draw(drawCallback)`, with the bus events of the callback. -/
  | draw (drawCallback : List BusEvent)
  /-- A `vTaskDelay` between two calls. -/
  | pause
deriving DecidableEq, Repr

/-- The bus events of a call, in program order. -/
def BusCall.events : BusCall → List BusEvent
  | .transaction transfers =>
    (SPIBus.endTransaction ⟨[], (SPIBus.startTransaction ⟨[], []⟩).trace ++ transfers⟩).trace
  | .draw drawCallback => (DisplayHandler.draw ⟨[], []⟩ drawCallback).trace
  | .pause => (SPIBus.vTaskDelay ⟨[], []⟩).trace

/-- The call is well formed: a transaction makes transfers only, and a draw callback does not
itself take or give the permit. -/
def BusCall.wellFormed : BusCall → Bool
  | .transaction transfers => transfers.all BusEvent.isTransfer
  | .draw drawCallback => drawCallback.all (fun e => e ≠ .take && e ≠ .give)
  | .pause => true

/-- Concurrent callers sharing the mutex `_safety_block_spi`: the caller that holds it, what
each caller still has to do, and the bus events observed so far, each with its caller. -/
structure Sched where
  owner : Option Nat
  todo : List (List BusEvent)
  log : List (Nat × BusEvent)
deriving DecidableEq, Repr

/-- Caller `i` performs its next event. `xSemaphoreTake(.., portMAX_DELAY)` blocks while the
mutex is taken, and a caller with nothing left to do does nothing: `none`. -/
def Sched.step (σ : Sched) (i : Nat) : Option Sched :=
  match σ.todo[i]? with
  | some (e :: rest) =>
    match e with
    | .take =>
      if σ.owner = none then some ⟨some i, σ.todo.set i rest, σ.log ++ [(i, e)]⟩ else none
    | .give =>
      some ⟨if σ.owner = some i then none else σ.owner, σ.todo.set i rest, σ.log ++ [(i, e)]⟩
    | _ => some ⟨σ.owner, σ.todo.set i rest, σ.log ++ [(i, e)]⟩
  | _ => none

/-- An interleaving: the scheduler lets the callers of `schedule` run in turn, one event each;
choosing a caller that is blocked or has finished changes nothing. -/
def Sched.run (σ : Sched) : List Nat → Sched
  | [] => σ
  | i :: schedule =>
    match σ.step i with
    | some σ' => σ'.run schedule
    | none => σ.run schedule

/-- The callers at the start: the permit free, nothing observed. -/
def Sched.start (programs : List (List BusCall)) : Sched :=
  ⟨none, programs.map (fun p => p.flatMap BusCall.events), []⟩

/-- Reads an observed trace as a sequence of permit sections: the holder after the trace, or
`none` if the permit is taken while held, given back by a caller that does not hold it, or a
bus operation is made by a caller that does not hold it. -/
def holderAfter : Option Nat → List (Nat × BusEvent) → Option (Option Nat)
  | o, [] => some o
  | o, (i, .take) :: l => if o = none then holderAfter (some i) l else none
  | o, (i, .give) :: l => if o = some i then holderAfter none l else none
  | o, (_, .yield) :: l => holderAfter o l
  | o, (i, _) :: l => if o = some i then holderAfter o l else none

/-- No two permit sections of an observed trace interleave. -/
def exclusive (log : List (Nat × BusEvent)) : Bool := (holderAfter none log).isSome

/-- A caller's remaining program keeps to the permit: `inside` tells whether it holds the
permit now. -/
def guarded : Bool → List BusEvent → Bool
  | _, [] => true
  | inside, .take :: es => !inside && guarded true es
  | inside, .give :: es => inside && guarded false es
  | inside, .yield :: es => guarded inside es
  | inside, _ :: es => inside && guarded inside es

/-! ## Properties of the link protocol -/

theorem xor_lt_256 {a b : Nat} (ha : a < 256) (hb : b < 256) : a ^^^ b < 256 :=
  Nat.xor_lt_two_pow (n := 8) ha hb

theorem foldl_xor_init (d : List Nat) (c : Nat) :
    d.foldl (· ^^^ ·) c = c ^^^ xorFold d := by
  unfold xorFold
  induction d generalizing c with
  | nil => simp
  | cons b d ih =>
    simp only [List.foldl_cons, Nat.zero_xor]
    rw [ih (c ^^^ b), ih b, Nat.xor_assoc]

theorem xorFold_cons (b : Nat) (d : List Nat) : xorFold (b :: d) = b ^^^ xorFold d := by
  simp [xorFold, foldl_xor_init d b]
  
theorem xorFold_lt_256 (d : List Nat) (hd : ∀ b ∈ d, b < 256) : xorFold d < 256 := by
  induction d with
  | nil => simp [xorFold]
  | cons b d ih =>
    rw [xorFold_cons]
    exact xor_lt_256 (hd b (by simp)) (ih (fun x hx => hd x (by simp [hx])))

theorem foldl_xor_mod (d : List Nat) (c : Nat) (hc : c < 256) (hd : ∀ b ∈ d, b < 256) :
    d.foldl (fun c b => (c ^^^ b) % 256) c = c ^^^ xorFold d := by
  induction d generalizing c with
  | nil => simp [xorFold]
  | cons b d ih =>
    have hb : b < 256 := hd b (by simp)
    have hcb : c ^^^ b < 256 := xor_lt_256 hc hb
    simp only [List.foldl_cons]
    rw [Nat.mod_eq_of_lt hcb, ih (c ^^^ b) hcb (fun x hx => hd x (by simp [hx])), xorFold_cons,
      Nat.xor_assoc]

theorem map_mod_256 (d : List Nat) (hd : ∀ b ∈ d, b < 256) : d.map (· % 256) = d := by
  induction d with
  | nil => rfl
  | cons b d ih =>
    simp only [List.map_cons]
    rw [Nat.mod_eq_of_lt (hd b (by simp)), ih (fun x hx => hd x (by simp [hx]))]

/-- C1: for a command byte `cmd` and a payload of `len <= 255` bytes, `_sendPacket` appends to the
channel exactly `[0xAA, cmd, len] ++ payload ++ [cmd XOR len XOR fold(payload)]` and changes
nothing else; with `len = 0` (payload pointer `NULL` or not) the frame is `[0xAA, cmd, 0x00, cmd]`. -/
theorem sendPacket_frame (s : HardwareSerial) (cmd : Nat) (payload : List Nat)
    (hcmd : cmd < 256) (hlen : payload.length ≤ 255) (hbytes : ∀ b ∈ payload, b < 256) :
    _sendPacket s cmd (some payload) payload.length =
        { s with tx := s.tx ++ [0xAA, cmd, payload.length] ++ payload ++
            [cmd ^^^ payload.length ^^^ xorFold payload] } ∧
      ∀ p : Option (List Nat),
        _sendPacket s cmd p 0 = { s with tx := s.tx ++ [0xAA, cmd, 0x00, cmd] } := by
  have hl : payload.length < 256 := by omega
  have hcl : cmd ^^^ payload.length < 256 := xor_lt_256 hcmd hl
  constructor
  · simp only [_sendPacket, _calcCRC, HardwareSerial.write, HardwareSerial.writeBytes, TINY_START,
      List.take_length, Option.getD_some]
    rw [Nat.mod_eq_of_lt hcl, foldl_xor_mod payload _ hcl hbytes, map_mod_256 payload hbytes,
      Nat.mod_eq_of_lt hcmd, Nat.mod_mod, Nat.mod_eq_of_lt hl,
      Nat.mod_eq_of_lt (xor_lt_256 hcl (xorFold_lt_256 payload hbytes))]
    by_cases h0 : payload.length > 0
    · simp [h0]
    · have : payload = [] := List.length_eq_zero.mp (by omega)
      subst this
      simp
  · intro p
    cases p <;> simp [_sendPacket, _calcCRC, HardwareSerial.write, TINY_START, Nat.mod_eq_of_lt hcmd]

theorem sendPacket_frame_witness :
    _sendPacket ⟨0, [], []⟩ 0x05 (some [0x03]) [0x03].length =
        { (⟨0, [], []⟩ : HardwareSerial) with tx := [] ++ [0xAA, 0x05, [0x03].length] ++ [0x03] ++
            [0x05 ^^^ [0x03].length ^^^ xorFold [0x03]] } ∧
      ∀ p : Option (List Nat),
        _sendPacket ⟨0, [], []⟩ 0x05 p 0 = { (⟨0, [], []⟩ : HardwareSerial) with tx := [] ++ [0xAA, 0x05, 0x00, 0x05] } :=
  sendPacket_frame ⟨0, [], []⟩ 0x05 [0x03] (by decide) (by decide) (by decide)

theorem elapsed_eq (n0 now : Nat) (rx : List (Nat × Nat)) (tx : List Nat) (h1 : n0 ≤ now)
    (h2 : now - n0 < 4294967296) :
    elapsed (n0 % 4294967296) ⟨now, rx, tx⟩ = now - n0 := by
  simp only [elapsed, HardwareSerial.millis]
  omega

theorem toU8_ofNat (b : Nat) : toU8 (Int.ofNat (b % 256)) = b % 256 := by
  simp only [toU8, Int.ofNat_eq_coe]
  omega

theorem le_arrive (l : List (Nat × Nat)) : ∀ now, now ≤ arrive now l := by
  induction l with
  | nil => intro now; exact Nat.le_refl _
  | cons x l ih =>
    intro now
    exact Nat.le_trans (Nat.le_max_left _ _) (ih _)

theorem arrive_lt (l : List (Nat × Nat)) (d : Nat) (hl : ∀ x ∈ l, x.1 < d) :
    ∀ now, now < d → arrive now l < d := by
  induction l with
  | nil => intro now h; exact h
  | cons x l ih =>
    intro now h
    have hx : x.1 < d := hl x (by simp)
    exact ih (fun y hy => hl y (by simp [hy])) _ (by omega)

theorem arrive_append (l1 l2 : List (Nat × Nat)) :
    ∀ now, arrive now (l1 ++ l2) = arrive (arrive now l1) l2 := by
  induction l1 with
  | nil => intro now; rfl
  | cons x l ih => intro now; exact ih _

theorem scanStart_found (n0 : Nat) (tx : List Nat) (rest : List (Nat × Nat)) (t b : Nat)
    (ht : t < n0 + 200) (hb : b % 256 = 0xAA) :
    ∀ (fuel now : Nat) (noise : List (Nat × Nat)),
      n0 ≤ now → now < n0 + 200 →
      (∀ x ∈ noise, x.1 < n0 + 200 ∧ x.2 % 256 ≠ 0xAA) →
      noise.length + 1 + (n0 + 200 - now) ≤ fuel →
      scanStart (n0 % 4294967296) fuel ⟨now, noise ++ (t, b) :: rest, tx⟩ =
        some ⟨arrive now (noise ++ [(t, b)]), rest, tx⟩ := by
  intro fuel
  induction fuel with
  | zero => intro now noise _ _ _ hf; omega
  | succ fuel ih =>
    intro now noise h1 h2 hn hf
    have hel : elapsed (n0 % 4294967296) ⟨now, noise ++ (t, b) :: rest, tx⟩ < _timeout := by
      rw [elapsed_eq n0 now _ _ h1 (by omega)]; simp only [_timeout]; omega
    rw [scanStart, if_pos hel]
    cases noise with
    | nil =>
      by_cases hav : t ≤ now
      · simp [HardwareSerial.available, HardwareSerial.read, hav, hb, TINY_START, arrive]
      · have := ih (now + 1) [] (by omega) (by omega) (by simp) (by simp; omega)
        simp only [List.nil_append] at this
        simp only [HardwareSerial.available, HardwareSerial.read, hav, HardwareSerial.tick,
          List.nil_append, decide_False, Bool.false_eq_true, if_false, this, arrive]
        congr 2
        omega
    | cons x noise =>
      obtain ⟨hx1, hx2⟩ := hn x (by simp)
      have hn' : ∀ y ∈ noise, y.1 < n0 + 200 ∧ y.2 % 256 ≠ 0xAA :=
        fun y hy => hn y (by simp [hy])
      by_cases hav : x.1 ≤ now
      · have := ih now noise h1 h2 hn' (by simp at hf; omega)
        have hne : ¬ ((x.2 : Int) % 256 = 170) := by omega
        simp [HardwareSerial.available, HardwareSerial.read, hav, TINY_START, arrive, this, hne]
      · have := ih (now + 1) (x :: noise) (by omega) (by omega) hn (by simp at hf ⊢; omega)
        simp only [List.cons_append] at this
        simp only [HardwareSerial.available, HardwareSerial.read, hav, HardwareSerial.tick,
          List.cons_append, decide_False, Bool.false_eq_true, if_false, this, arrive]
        congr 2
        congr 1
        omega
theorem awaitByte_arrives (n0 : Nat) (tx : List Nat) (rest : List (Nat × Nat)) (t b : Nat)
    (ht : t < n0 + 200) :
    ∀ (fuel now : Nat), n0 ≤ now → (t - now) + 1 ≤ fuel →
      awaitByte (n0 % 4294967296) fuel ⟨now, (t, b) :: rest, tx⟩ =
        some ⟨max now t, (t, b) :: rest, tx⟩ := by
  intro fuel
  induction fuel with
  | zero => intro now _ hf; omega
  | succ fuel ih =>
    intro now h1 hf
    rw [awaitByte]
    by_cases hav : t ≤ now
    · simp [HardwareSerial.available, hav]
    · have hel : elapsed (n0 % 4294967296) ⟨now, (t, b) :: rest, tx⟩ < _timeout := by
        rw [elapsed_eq n0 now _ _ h1 (by omega)]; simp only [_timeout]; omega
      have := ih (now + 1) (by omega) (by omega)
      simp only [HardwareSerial.available, hav, decide_False, Bool.not_false, hel, decide_True,
        Bool.and_self, if_true, HardwareSerial.tick, this]
      congr 2
      omega

theorem readData_payload (n0 rx_len : Nat) (tx : List Nat) (rest : List (Nat × Nat)) :
    ∀ (fuel now : Nat) (pl : List (Nat × Nat)) (buffer : List Nat) (count crc : Nat),
      n0 ≤ now → now < n0 + 200 → (∀ x ∈ pl, x.1 < n0 + 200) →
      count + pl.length = rx_len →
      pl.length + 1 + (n0 + 200 - now) ≤ fuel →
      readData (n0 % 4294967296) rx_len fuel ⟨now, pl ++ rest, tx⟩ buffer count crc =
        some (⟨arrive now pl, rest, tx⟩, storeAt buffer count (pl.map (·.2 % 256)), rx_len,
          (pl.map (·.2 % 256)).foldl (· ^^^ ·) crc) := by
  intro fuel
  induction fuel with
  | zero => intro now pl _ _ _ _ _ _ _ hf; omega
  | succ fuel ih =>
    intro now pl buffer count crc h1 h2 hp hc hf
    rw [readData]
    cases pl with
    | nil =>
      have : ¬ (count < rx_len ∧ elapsed (n0 % 4294967296) ⟨now, [] ++ rest, tx⟩ < _timeout) := by
        simp at hc; omega
      rw [if_neg this]
      simp [arrive, storeAt, ← hc]
    | cons x pl =>
      have hel : elapsed (n0 % 4294967296) ⟨now, x :: pl ++ rest, tx⟩ < _timeout := by
        rw [elapsed_eq n0 now _ _ h1 (by omega)]; simp only [_timeout]; omega
      have hx1 : x.1 < n0 + 200 := hp x (by simp)
      have hcond : count < rx_len ∧
          elapsed (n0 % 4294967296) ⟨now, x :: pl ++ rest, tx⟩ < _timeout :=
        ⟨by simp at hc; omega, hel⟩
      rw [if_pos hcond]
      by_cases hav : x.1 ≤ now
      · have := ih now pl (buffer.set count (x.2 % 256)) (count + 1) (crc ^^^ (x.2 % 256)) h1 h2
          (fun y hy => hp y (by simp [hy])) (by simp at hc; omega) (by simp at hf; omega)
        simp only [HardwareSerial.available, HardwareSerial.read, hav, decide_True, if_true,
          toU8_ofNat, List.cons_append, this, arrive, List.map_cons, storeAt, List.foldl_cons,
          Nat.max_eq_left hav]
      · have := ih (now + 1) (x :: pl) buffer count crc (by omega) (by omega) hp hc
          (by simp at hf ⊢; omega)
        simp only [List.cons_append] at this
        simp only [HardwareSerial.available, HardwareSerial.read, hav, HardwareSerial.tick,
          List.cons_append, decide_False, Bool.false_eq_true, if_false, this, arrive]
        congr 3
        congr 1
        omega

theorem storeAt_append (bs : List Nat) :
    ∀ (pre mid post : List Nat), mid.length = bs.length →
      storeAt (pre ++ mid ++ post) pre.length bs = pre ++ bs ++ post := by
  induction bs with
  | nil =>
    intro pre mid post h
    have : mid = [] := List.length_eq_zero.mp h
    simp [storeAt, this]
  | cons b bs ih =>
    intro pre mid post h
    cases mid with
    | nil => simp at h
    | cons m mid =>
      have hset : (pre ++ (m :: mid) ++ post).set pre.length b = (pre ++ [b]) ++ mid ++ post := by
        rw [List.append_assoc, List.set_append_right _ _ (Nat.le_refl _)]
        simp
      have := ih (pre ++ [b]) mid post (by simpa using h)
      rw [storeAt, hset]
      simpa using this

theorem storeAt_eq (bs buffer : List Nat) (i : Nat) (h : i + bs.length ≤ buffer.length) :
    storeAt buffer i bs = buffer.take i ++ bs ++ buffer.drop (i + bs.length) := by
  have hsplit : buffer = buffer.take i ++ (buffer.drop i).take bs.length ++
      buffer.drop (i + bs.length) := by
    rw [List.append_assoc, ← List.drop_drop, List.take_append_drop, List.take_append_drop]
  have hlen : (buffer.take i).length = i := by simp; omega
  have := storeAt_append bs (buffer.take i) ((buffer.drop i).take bs.length)
    (buffer.drop (i + bs.length)) (by simp; omega)
  rw [hlen, ← hsplit] at this
  exact this
theorem toU8_of_lt {b : Nat} (h : b < 256) : toU8 (Int.ofNat b) = b := by
  simp only [toU8, Int.ofNat_eq_coe]
  omega

theorem map_snd_mod (pl : List (Nat × Nat)) (h : ∀ x ∈ pl, x.2 < 256) :
    pl.map (·.2 % 256) = pl.map (·.2) := by
  induction pl with
  | nil => rfl
  | cons x pl ih =>
    simp only [List.map_cons]
    rw [Nat.mod_eq_of_lt (h x (by simp)), ih (fun y hy => h y (by simp [hy]))]

theorem readResponse_frame_crc (now : Nat) (tx : List Nat) (noise pl rest : List (Nat × Nat))
    (t1 t2 t3 c : Nat) (buffer : List Nat)
    (hnoise : ∀ x ∈ noise, x.1 < now + 200 ∧ x.2 % 256 ≠ 0xAA)
    (hpl : ∀ x ∈ pl, x.1 < now + 200 ∧ x.2 < 256)
    (ht1 : t1 < now + 200) (ht2 : t2 < now + 200) (ht3 : t3 < now + 200)
    (hlen : pl.length ≤ 255) (hc : c < 256) :
    _readResponse ⟨now, noise ++ (t1, 0xAA) :: (t2, pl.length) ::
        (pl ++ (t3, c) :: rest), tx⟩ buffer pl.length =
      some (decide (pl.length ^^^ xorFold (pl.map (·.2)) = c),
        ⟨arrive now (noise ++ (t1, 0xAA) :: (t2, pl.length) ::
          (pl ++ [(t3, c)])), rest, tx⟩,
        storeAt buffer 0 (pl.map (·.2))) := by
  have hplt : ∀ x ∈ pl, x.1 < now + 200 := fun x hx => (hpl x hx).1
  have hplb : ∀ x ∈ pl, x.2 < 256 := fun x hx => (hpl x hx).2
  have hfold : xorFold (pl.map (·.2)) < 256 :=
    xorFold_lt_256 _ (by
      intro b hb
      obtain ⟨x, hx, rfl⟩ := List.mem_map.mp hb
      exact hplb x hx)
  have hn : pl.length < 256 := by omega
  -- the clock after each stage
  have h1a := le_arrive (noise ++ [(t1, 0xAA)]) now
  have h1b : arrive now (noise ++ [(t1, 0xAA)]) < now + 200 :=
    arrive_lt _ _ (by
      intro x hx
      rcases List.mem_append.mp hx with h | h
      · exact (hnoise x h).1
      · simp at h; subst h; exact ht1) now (by omega)
  have h3a := le_arrive pl (max (arrive now (noise ++ [(t1, 0xAA)])) t2)
  have h3b : arrive (max (arrive now (noise ++ [(t1, 0xAA)])) t2) pl < now + 200 :=
    arrive_lt _ _ hplt _ (by omega)
  have hav2 : HardwareSerial.available
      ⟨max (arrive now (noise ++ [(t1, 0xAA)])) t2, (t2, pl.length) ::
        (pl ++ (t3, c) :: rest), tx⟩ = true := by
    simp [HardwareSerial.available]
  have hrd2 : HardwareSerial.read
      ⟨max (arrive now (noise ++ [(t1, 0xAA)])) t2, (t2, pl.length) ::
        (pl ++ (t3, c) :: rest), tx⟩ =
      (Int.ofNat (pl.length % 256), ⟨max (arrive now (noise ++ [(t1, 0xAA)])) t2,
        pl ++ (t3, c) :: rest, tx⟩) := by
    simp [HardwareSerial.read]
  have hav5 : HardwareSerial.available
      ⟨max (arrive (max (arrive now (noise ++ [(t1, 0xAA)])) t2) pl) t3,
        (t3, c) :: rest, tx⟩ = true := by
    simp [HardwareSerial.available]
  have hrd5 : HardwareSerial.read
      ⟨max (arrive (max (arrive now (noise ++ [(t1, 0xAA)])) t2) pl) t3,
        (t3, c) :: rest, tx⟩ =
      (Int.ofNat (c % 256),
        ⟨max (arrive (max (arrive now (noise ++ [(t1, 0xAA)])) t2) pl) t3, rest, tx⟩) := by
    simp [HardwareSerial.read]
  unfold _readResponse
  simp only [pollBudget, HardwareSerial.millis, _timeout]
  rw [scanStart_found now tx _ t1 0xAA ht1 (by decide) _ now noise (Nat.le_refl _) (by omega)
    hnoise (by simp)]
  simp only [Option.bind]
  rw [awaitByte_arrives now tx _ t2 _ ht2 _ _ h1a (by simp; omega)]
  simp only [Option.bind, hav2, hrd2, Nat.mod_eq_of_lt hn, toU8_of_lt hn, Bool.not_true,
    Bool.false_eq_true, if_false, ne_eq, not_true_eq_false]
  rw [readData_payload now pl.length tx _ _ _ pl buffer 0 pl.length (by omega) (by omega) hplt
    (by simp) (by simp; omega)]
  simp only [Option.bind, ne_eq, not_true_eq_false, if_false]
  rw [awaitByte_arrives now tx _ t3 _ ht3 _ _ (by omega) (by simp; omega)]
  simp only [Option.bind, hav5, hrd5, Nat.mod_eq_of_lt hc, toU8_of_lt hc, Bool.not_true,
    Bool.false_eq_true, if_false, ne_eq, map_snd_mod pl hplb, foldl_xor_init]
  by_cases hcrc : pl.length ^^^ xorFold (pl.map (·.2)) = c
  · simp [hcrc, arrive_append, arrive]
  · simp [hcrc, arrive_append, arrive]

theorem readResponse_frame (now : Nat) (tx : List Nat) (noise pl rest : List (Nat × Nat))
    (t1 t2 t3 : Nat) (buffer : List Nat)
    (hnoise : ∀ x ∈ noise, x.1 < now + 200 ∧ x.2 % 256 ≠ 0xAA)
    (hpl : ∀ x ∈ pl, x.1 < now + 200 ∧ x.2 < 256)
    (ht1 : t1 < now + 200) (ht2 : t2 < now + 200) (ht3 : t3 < now + 200)
    (hlen : pl.length ≤ 255) :
    _readResponse ⟨now, noise ++ (t1, 0xAA) :: (t2, pl.length) ::
        (pl ++ (t3, pl.length ^^^ xorFold (pl.map (·.2))) :: rest), tx⟩ buffer pl.length =
      some (true,
        ⟨arrive now (noise ++ (t1, 0xAA) :: (t2, pl.length) ::
          (pl ++ [(t3, pl.length ^^^ xorFold (pl.map (·.2)))])), rest, tx⟩,
        storeAt buffer 0 (pl.map (·.2))) := by
  have hfold : xorFold (pl.map (·.2)) < 256 :=
    xorFold_lt_256 _ (by
      intro b hb
      obtain ⟨x, hx, rfl⟩ := List.mem_map.mp hb
      exact (hpl x hx).2)
  have := readResponse_frame_crc now tx noise pl rest t1 t2 t3
    (pl.length ^^^ xorFold (pl.map (·.2))) buffer hnoise hpl ht1 ht2 ht3 hlen
    (xor_lt_256 (by omega) hfold)
  simpa using this

/-- Decoding of a well-formed response frame given by its bytes and arrival times. -/
theorem readResponse_accepts (s : HardwareSerial) (frame rest : List (Nat × Nat))
    (noise p buffer : List Nat)
    (hrx : s.rx = frame ++ rest)
    (hbytes : frame.map (·.2) = noise ++ [0xAA, p.length] ++ p ++ [p.length ^^^ xorFold p])
    (htime : ∀ x ∈ frame, x.1 < s.now + _timeout)
    (hnoise : ∀ b ∈ noise, b < 256 ∧ b ≠ 0xAA)
    (hp : ∀ b ∈ p, b < 256) (hlen : p.length ≤ 255) (hbuf : p.length ≤ buffer.length) :
    ∃ s' buffer', _readResponse s buffer p.length = some (true, s', buffer') ∧
      buffer'.take p.length = p ∧ buffer'.drop p.length = buffer.drop p.length ∧
      s'.rx = rest ∧ s'.tx = s.tx ∧ s.now ≤ s'.now ∧ s'.now < s.now + _timeout := by
  obtain ⟨now, rx, tx⟩ := s
  simp only at hrx htime ⊢
  subst hrx
  obtain ⟨fa, fc, rfl, hfa, hfc⟩ := List.map_eq_append_iff.mp hbytes
  obtain ⟨fb, fp, rfl, hfb, hfp⟩ := List.map_eq_append_iff.mp hfa
  obtain ⟨fn, fh, rfl, hfn, hfh⟩ := List.map_eq_append_iff.mp hfb
  subst hfp hfn
  match fh, hfh with
  | [(t1, _), (t2, _)], hfh =>
  match fc, hfc with
  | [(t3, _)], hfc =>
  simp only [List.map_cons, List.map_nil, List.cons.injEq, and_true] at hfh hfc
  obtain ⟨rfl, hl⟩ := hfh
  subst hl hfc
  simp only [List.length_map, _timeout] at *
  have hshape : (fn ++ [(t1, 0xAA), (t2, fp.length)] ++ fp ++
        [(t3, fp.length ^^^ xorFold (fp.map (·.2)))]) ++ rest =
      fn ++ (t1, 0xAA) :: (t2, fp.length) ::
        (fp ++ (t3, fp.length ^^^ xorFold (fp.map (·.2))) :: rest) := by simp
  have hall : ∀ x ∈ fn ++ (t1, 0xAA) :: (t2, fp.length) ::
      (fp ++ [(t3, fp.length ^^^ xorFold (fp.map (·.2)))]), x.1 < now + 200 := by
    intro x hx
    exact htime x (by simpa using hx)
  have := readResponse_frame now tx fn fp rest t1 t2 t3 buffer
    (fun x hx => ⟨hall x (by simp [hx]), by
      have := hnoise x.2 (List.mem_map.mpr ⟨x, hx, rfl⟩)
      omega⟩)
    (fun x hx => ⟨hall x (by simp [hx]), hp x.2 (List.mem_map.mpr ⟨x, hx, rfl⟩)⟩)
    (hall (t1, 0xAA) (by simp)) (hall (t2, fp.length) (by simp))
    (hall (t3, fp.length ^^^ xorFold (fp.map (·.2))) (by simp)) hlen
  rw [hshape, this]
  refine ⟨_, _, rfl, ?_, ?_, rfl, rfl, le_arrive _ _, arrive_lt _ _ hall _ (by omega)⟩
  · rw [storeAt_eq _ _ _ (by simpa using hbuf)]
    simp
  · rw [storeAt_eq _ _ _ (by simpa using hbuf)]
    simp

/-- C2: a valid response frame, possibly preceded by noise bytes other than `0xAA`, whose
bytes all arrive before the deadline `now + _timeout`, makes `_readResponse(buffer, n)` return
`true` with the payload stored in `buffer[0..n)`; the bytes after the frame stay in the
channel and the rest of the buffer is untouched. -/
theorem readResponse_valid_frame (s : HardwareSerial) (frame rest : List (Nat × Nat))
    (noise p buffer : List Nat)
    (hrx : s.rx = frame ++ rest)
    (hbytes : frame.map (·.2) = noise ++ [0xAA, p.length] ++ p ++ [p.length ^^^ xorFold p])
    (htime : ∀ x ∈ frame, x.1 < s.now + _timeout)
    (hnoise : ∀ b ∈ noise, b < 256 ∧ b ≠ 0xAA)
    (hp : ∀ b ∈ p, b < 256) (hlen : p.length ≤ 255) (hbuf : p.length ≤ buffer.length) :
    ∃ s' buffer', _readResponse s buffer p.length = some (true, s', buffer') ∧
      buffer'.take p.length = p ∧ buffer'.drop p.length = buffer.drop p.length ∧
      s'.rx = rest ∧ s'.tx = s.tx ∧ s.now ≤ s'.now ∧ s'.now < s.now + _timeout :=
  readResponse_accepts s frame rest noise p buffer hrx hbytes htime hnoise hp hlen hbuf

theorem readResponse_valid_frame_witness :
    ∃ s' buffer', _readResponse ⟨1000, [(1000, 0x00), (1001, 0xAA), (1001, 2), (1002, 7),
        (1003, 9), (1003, 12), (1500, 0x55)], []⟩ [0, 0, 0] [7, 9].length =
          some (true, s', buffer') ∧
      buffer'.take [7, 9].length = [7, 9] ∧
      buffer'.drop [7, 9].length = [0, 0, 0].drop [7, 9].length ∧
      s'.rx = [(1500, 0x55)] ∧ s'.tx = [] ∧ 1000 ≤ s'.now ∧ s'.now < 1000 + _timeout :=
  readResponse_valid_frame ⟨1000, [(1000, 0x00), (1001, 0xAA), (1001, 2), (1002, 7),
      (1003, 9), (1003, 12), (1500, 0x55)], []⟩
    [(1000, 0x00), (1001, 0xAA), (1001, 2), (1002, 7), (1003, 9), (1003, 12)] [(1500, 0x55)]
    [0x00] [7, 9] [0, 0, 0] rfl (by decide) (by decide) (by decide) (by decide) (by decide)
    (by decide)

theorem elapsed_eq' (n0 : Nat) (s : HardwareSerial) (h1 : n0 ≤ s.now)
    (h2 : s.now - n0 < 4294967296) :
    elapsed (n0 % 4294967296) s = s.now - n0 := by
  simp only [elapsed, HardwareSerial.millis]
  omega

theorem read_props (s : HardwareSerial) :
    s.read.2.tx = s.tx ∧ s.read.2.now = s.now ∧ s.read.2.rx.length ≤ s.rx.length ∧
      (s.available = true → s.read.2.rx.length + 1 = s.rx.length) := by
  obtain ⟨now, rx, tx⟩ := s
  cases rx with
  | nil => simp [HardwareSerial.read, HardwareSerial.available]
  | cons x rx =>
    by_cases h : x.1 ≤ now <;> simp [HardwareSerial.read, HardwareSerial.available, h]

theorem scanStart_total (n0 : Nat) :
    ∀ (fuel : Nat) (s : HardwareSerial), n0 ≤ s.now → s.now ≤ n0 + 200 →
      s.rx.length + (n0 + 200 - s.now) + 1 ≤ fuel →
      ∃ s', scanStart (n0 % 4294967296) fuel s = some s' ∧ s'.tx = s.tx ∧ s.now ≤ s'.now ∧
        s'.now ≤ n0 + 200 ∧ s'.rx.length ≤ s.rx.length := by
  intro fuel
  induction fuel with
  | zero => intro s _ _ hf; omega
  | succ fuel ih =>
    intro s h1 h2 hf
    rw [scanStart]
    by_cases hel : elapsed (n0 % 4294967296) s < _timeout
    · rw [if_pos hel]
      rw [elapsed_eq' n0 s h1 (by omega)] at hel
      simp only [_timeout] at hel
      obtain ⟨hr1, hr2, hr3, hr4⟩ := read_props s
      by_cases hav : s.available = true
      · rw [if_pos hav]
        by_cases hst : s.read.1 = Int.ofNat TINY_START
        · rw [if_pos hst]
          exact ⟨_, rfl, hr1, by omega, by omega, hr3⟩
        · rw [if_neg hst]
          obtain ⟨s', e, p1, p2, p3, p4⟩ := ih s.read.2 (by omega) (by omega)
            (by have := hr4 hav; omega)
          exact ⟨s', e, by rw [p1, hr1], by omega, p3, by omega⟩
      · rw [if_neg hav]
        obtain ⟨s', e, p1, p2, p3, p4⟩ := ih s.tick (by simp [HardwareSerial.tick]; omega)
          (by simp [HardwareSerial.tick]; omega) (by simp [HardwareSerial.tick]; omega)
        simp only [HardwareSerial.tick] at p1 p2 p4
        exact ⟨s', e, p1, by omega, p3, p4⟩
    · rw [if_neg hel]
      exact ⟨s, rfl, rfl, Nat.le_refl _, h2, Nat.le_refl _⟩

theorem awaitByte_total (n0 : Nat) :
    ∀ (fuel : Nat) (s : HardwareSerial), n0 ≤ s.now → s.now ≤ n0 + 200 →
      (n0 + 200 - s.now) + 1 ≤ fuel →
      ∃ s', awaitByte (n0 % 4294967296) fuel s = some s' ∧ s'.tx = s.tx ∧ s.now ≤ s'.now ∧
        s'.now ≤ n0 + 200 ∧ s'.rx = s.rx ∧ (s'.available = false → s'.now = n0 + 200) := by
  intro fuel
  induction fuel with
  | zero => intro s _ _ hf; omega
  | succ fuel ih =>
    intro s h1 h2 hf
    rw [awaitByte]
    by_cases hc : (!s.available && decide (elapsed (n0 % 4294967296) s < _timeout)) = true
    · rw [if_pos hc]
      simp only [Bool.and_eq_true, Bool.not_eq_true', decide_eq_true_eq] at hc
      obtain ⟨_, hel⟩ := hc
      rw [elapsed_eq' n0 s h1 (by omega)] at hel
      simp only [_timeout] at hel
      obtain ⟨s', e, p1, p2, p3, p4, p5⟩ := ih s.tick (by simp [HardwareSerial.tick]; omega)
        (by simp [HardwareSerial.tick]; omega) (by simp [HardwareSerial.tick]; omega)
      simp only [HardwareSerial.tick] at p1 p2 p4
      exact ⟨s', e, p1, by omega, p3, p4, p5⟩
    · rw [if_neg hc]
      refine ⟨s, rfl, rfl, Nat.le_refl _, h2, rfl, ?_⟩
      intro hav
      simp only [hav, Bool.not_false, Bool.true_and, decide_eq_true_eq] at hc
      rw [elapsed_eq' n0 s h1 (by omega)] at hc
      simp only [_timeout] at hc
      omega

theorem readData_total (n0 rx_len : Nat) :
    ∀ (fuel : Nat) (s : HardwareSerial) (buffer : List Nat) (count crc : Nat),
      n0 ≤ s.now → s.now ≤ n0 + 200 → s.rx.length + (n0 + 200 - s.now) + 1 ≤ fuel →
      ∃ s' buf' count' crc', readData (n0 % 4294967296) rx_len fuel s buffer count crc =
          some (s', buf', count', crc') ∧ s'.tx = s.tx ∧ s.now ≤ s'.now ∧
        s'.now ≤ n0 + 200 ∧ s'.rx.length ≤ s.rx.length ∧ buf'.length = buffer.length := by
  intro fuel
  induction fuel with
  | zero => intro s _ _ _ _ _ hf; omega
  | succ fuel ih =>
    intro s buffer count crc h1 h2 hf
    rw [readData]
    by_cases hc : count < rx_len ∧ elapsed (n0 % 4294967296) s < _timeout
    · rw [if_pos hc]
      obtain ⟨_, hel⟩ := hc
      rw [elapsed_eq' n0 s h1 (by omega)] at hel
      simp only [_timeout] at hel
      obtain ⟨hr1, hr2, hr3, hr4⟩ := read_props s
      by_cases hav : s.available = true
      · rw [if_pos hav]
        obtain ⟨s', b', c', k', e, p1, p2, p3, p4, p5⟩ := ih s.read.2
          (buffer.set count (toU8 s.read.1)) (count + 1) (crc ^^^ toU8 s.read.1) (by omega)
          (by omega) (by have := hr4 hav; omega)
        exact ⟨s', b', c', k', e, by rw [p1, hr1], by omega, p3, by omega, by simpa using p5⟩
      · rw [if_neg hav]
        obtain ⟨s', b', c', k', e, p1, p2, p3, p4, p5⟩ := ih s.tick buffer count crc
          (by simp [HardwareSerial.tick]; omega) (by simp [HardwareSerial.tick]; omega)
          (by simp [HardwareSerial.tick]; omega)
        simp only [HardwareSerial.tick] at p1 p2 p4
        exact ⟨s', b', c', k', e, p1, by omega, p3, p4, p5⟩
    · rw [if_neg hc]
      exact ⟨s, buffer, count, crc, rfl, rfl, Nat.le_refl _, h2, Nat.le_refl _, rfl⟩

theorem drainRx_length_le (now : Nat) (rx : List (Nat × Nat)) :
    (drainRx now rx).length ≤ rx.length := by
  induction rx with
  | nil => simp [drainRx]
  | cons x rx ih =>
    obtain ⟨t, b⟩ := x
    by_cases h : t ≤ now <;> simp [drainRx, h]
    omega

/-- Every call of `_readResponse` returns: no polling loop exhausts its budget. It returns no
later than `_timeout` ticks after the call, leaves the output side of the channel alone, only
consumes input, and keeps the length of the caller's buffer. -/
theorem readResponse_returns (s : HardwareSerial) (buffer : List Nat) (expected_len : Nat) :
    ∃ ok s' buf', _readResponse s buffer expected_len = some (ok, s', buf') ∧ s'.tx = s.tx ∧
      s.now ≤ s'.now ∧ s'.now ≤ s.now + _timeout ∧ s'.rx.length ≤ s.rx.length ∧
      buf'.length = buffer.length := by
  unfold _readResponse
  simp only [pollBudget, HardwareSerial.millis, _timeout]
  obtain ⟨s1, e1, a1, b1, c1, d1⟩ := scanStart_total s.now (s.rx.length + 200 + 1) s
    (Nat.le_refl _) (by omega) (by omega)
  rw [e1]
  obtain ⟨s2, e2, a2, b2, c2, d2, _⟩ := awaitByte_total s.now (s.rx.length + 200 + 1) s1 (by omega)
    c1 (by omega)
  simp only [Option.bind]
  rw [e2]
  simp only [Option.bind]
  obtain ⟨hr1, hr2, hr3, _⟩ := read_props s2
  by_cases hav2 : s2.available = true
  · simp only [hav2, Bool.not_true, Bool.false_eq_true, if_false]
    by_cases hlen : toU8 s2.read.1 = expected_len
    · simp only [hlen, ne_eq, not_true_eq_false, if_false]
      obtain ⟨s4, buf, cnt, crc, e4, a4, b4, c4, d4, f4⟩ := readData_total s.now expected_len
        (s.rx.length + 200 + 1) s2.read.2 buffer 0 expected_len (by omega) (by omega)
        (by rw [d2] at hr3; omega)
      rw [e4]
      simp only [Option.bind]
      by_cases hcnt : cnt = expected_len
      · simp only [hcnt, not_true_eq_false, if_false]
        obtain ⟨s5, e5, a5, b5, c5, d5, _⟩ := awaitByte_total s.now (s.rx.length + 200 + 1) s4
          (by omega) c4 (by omega)
        rw [e5]
        simp only [Option.bind]
        obtain ⟨hq1, hq2, hq3, _⟩ := read_props s5
        have htx : s5.tx = s.tx := by rw [a5, a4, hr1, a2, a1]
        have hrxl : s5.rx.length ≤ s.rx.length := by rw [d5]; rw [d2] at hr3; omega
        by_cases hav5 : s5.available = true
        · simp only [hav5, Bool.not_true, Bool.false_eq_true, if_false]
          by_cases hcrc : crc = toU8 s5.read.1
          · simp only [hcrc, ne_eq, not_true_eq_false, if_false]
            exact ⟨true, _, _, rfl, by rw [hq1, htx], by omega, by omega, by omega, f4⟩
          · simp only [hcrc, ne_eq, not_false_eq_true, if_true]
            exact ⟨false, _, _, rfl, by rw [hq1, htx], by omega, by omega, by omega, f4⟩
        · simp only [hav5, Bool.not_false, if_true]
          exact ⟨false, _, _, rfl, htx, by omega, by omega, hrxl, f4⟩
      · simp only [hcnt, not_false_eq_true, if_true]
        exact ⟨false, _, _, rfl, by rw [a4, hr1, a2, a1], by omega, by omega,
          by rw [d2] at hr3; omega, f4⟩
    · simp only [hlen, ne_eq, not_false_eq_true, if_true]
      refine ⟨false, _, _, rfl, by simp only; rw [hr1, a2, a1], by simp only; omega,
        by simp only; omega, ?_, rfl⟩
      have := drainRx_length_le s2.read.2.now s2.read.2.rx
      rw [d2] at hr3
      simp only
      omega
  · simp only [hav2, Bool.not_false, if_true]
    exact ⟨false, _, _, rfl, by rw [a2, a1], by omega, by omega, by rw [d2]; exact d1, rfl⟩

theorem drainRx_eq_dropWhile (now : Nat) (rx : List (Nat × Nat)) :
    drainRx now rx = rx.dropWhile (fun x => decide (x.1 ≤ now)) := by
  induction rx with
  | nil => rfl
  | cons x rx ih =>
    obtain ⟨t, b⟩ := x
    by_cases h : t ≤ now <;> simp [drainRx, List.dropWhile, h, ih]

theorem drainRx_arrived (now : Nat) (gone later : List (Nat × Nat))
    (hgone : ∀ x ∈ gone, x.1 ≤ now) (hlater : ∀ x ∈ later.head?, now < x.1) :
    drainRx now (gone ++ later) = later := by
  induction gone with
  | nil =>
    cases later with
    | nil => rfl
    | cons x later =>
      obtain ⟨t, b⟩ := x
      have : ¬ t ≤ now := by
        have := hlater (t, b) (by simp)
        simp only at this
        omega
      simp [drainRx, this]
  | cons x gone ih =>
    obtain ⟨t, b⟩ := x
    have : t ≤ now := hgone (t, b) (by simp)
    simp only [List.cons_append, drainRx, this, if_true]
    exact ih (fun y hy => hgone y (by simp [hy]))

theorem readResponse_len_mismatch (now : Nat) (tx : List Nat) (noise rest : List (Nat × Nat))
    (t1 t2 len expected_len : Nat) (buffer : List Nat)
    (hnoise : ∀ x ∈ noise, x.1 < now + 200 ∧ x.2 % 256 ≠ 0xAA)
    (ht1 : t1 < now + 200) (ht2 : t2 < now + 200) (hlen : len < 256)
    (hne : len ≠ expected_len) :
    _readResponse ⟨now, noise ++ (t1, 0xAA) :: (t2, len) :: rest, tx⟩ buffer expected_len =
      some (false,
        ⟨arrive now (noise ++ [(t1, 0xAA), (t2, len)]),
          drainRx (arrive now (noise ++ [(t1, 0xAA), (t2, len)])) rest, tx⟩, buffer) := by
  have h1a := le_arrive (noise ++ [(t1, 0xAA)]) now
  have hav2 : HardwareSerial.available
      ⟨max (arrive now (noise ++ [(t1, 0xAA)])) t2, (t2, len) :: rest, tx⟩ = true := by
    simp [HardwareSerial.available]
  have hrd2 : HardwareSerial.read
      ⟨max (arrive now (noise ++ [(t1, 0xAA)])) t2, (t2, len) :: rest, tx⟩ =
      (Int.ofNat (len % 256), ⟨max (arrive now (noise ++ [(t1, 0xAA)])) t2, rest, tx⟩) := by
    simp [HardwareSerial.read]
  unfold _readResponse
  simp only [pollBudget, HardwareSerial.millis, _timeout]
  rw [scanStart_found now tx _ t1 0xAA ht1 (by decide) _ now noise (Nat.le_refl _) (by omega)
    hnoise (by simp)]
  simp only [Option.bind]
  rw [awaitByte_arrives now tx _ t2 _ ht2 _ _ h1a (by simp; omega)]
  simp only [Option.bind, hav2, hrd2, Nat.mod_eq_of_lt hlen, toU8_of_lt hlen, Bool.not_true,
    Bool.false_eq_true, if_false, ne_eq, hne, not_false_eq_true, if_true]
  simp [arrive_append, arrive]

set_option maxRecDepth 100000 in
/-- C8 (refuted as stated): with the rejected frame `[0xAA, 0x02, 0x01, 0x02, 0x01]` (LEN = 2,
expected 1) and the valid frame `[0xAA, 0x01, 0x07, 0x06]` both already received, the call
discards all seven remaining bytes instead of LEN + 1 = 3, and the next call times out although
the frame that followed decodes to `[7]` when it is still there. With the rest of the rejected
frame `[0xAA, 0x02, 0xAA, 0x01, 0xA9]` arriving later, the call discards none of its LEN + 1
bytes, and the next call takes the stale `0xAA, 0x01` for a frame header and rejects the
valid frame `[0xAA, 0x01, 0x07, 0x06]` that follows. -/
theorem readResponse_mismatch_not_len_plus_one :
    _readResponse ⟨0, [(0, 0xAA), (0, 2), (0, 1), (0, 2), (0, 1),
        (0, 0xAA), (0, 1), (0, 7), (0, 6)], []⟩ [0] 1 = some (false, ⟨0, [], []⟩, [0]) ∧
      _readResponse ⟨0, [], []⟩ [0] 1 = some (false, ⟨200, [], []⟩, [0]) ∧
      _readResponse ⟨0, [(0, 0xAA), (0, 1), (0, 7), (0, 6)], []⟩ [0] 1 =
        some (true, ⟨0, [], []⟩, [7]) ∧
      _readResponse ⟨0, [(0, 0xAA), (0, 2), (3, 0xAA), (3, 1), (3, 0xA9),
        (3, 0xAA), (3, 1), (3, 7), (3, 6)], []⟩ [0] 1 =
        some (false, ⟨0, [(3, 0xAA), (3, 1), (3, 0xA9), (3, 0xAA), (3, 1), (3, 7), (3, 6)], []⟩,
          [0]) ∧
      _readResponse ⟨0, [(3, 0xAA), (3, 1), (3, 0xA9), (3, 0xAA), (3, 1), (3, 7), (3, 6)], []⟩
        [0] 1 = some (false, ⟨3, [(3, 1), (3, 7), (3, 6)], []⟩, [0xA9]) := by
  refine ⟨?_, ?_, ?_, ?_, ?_⟩ <;> decide

set_option maxRecDepth 100000 in
/-- C3 (evaluation at the failing input): `_readResponse(buffer, 0)` is called at time 1000 on
an idle channel; no byte arrives during the 200 ms of the START search, then the two bytes
`0x00 0x00` are in the receive buffer when the search gives up. No START byte was ever read,
yet the first `0x00` is taken for LEN, the second for the CRC, and the call returns `true`. -/
theorem readResponse_true_without_start :
    _readResponse ⟨1000, [(1200, 0x00), (1200, 0x00)], []⟩ [] 0 =
      some (true, ⟨1200, [], []⟩, []) := by
  decide

set_option maxRecDepth 100000 in
/-- C9 (evaluation at the failing input): the stream `0x55 0x55 0x55 0x55 0x00 0x00` never
contains the START byte `0xAA`; its last two bytes arrive as the 200 ms of the START search
run out. `_readResponse(buffer, 0)` returns at the deadline, but with `true`. With any
expected length the call does return at the deadline on this stream: for `expected_len = 1`
the same stream gives `false`. -/
theorem readResponse_no_start_returns_true :
    (0xAA ∉ [0x55, 0x55, 0x55, 0x55, 0x00, 0x00]) ∧
      _readResponse ⟨0, [(0, 0x55), (50, 0x55), (100, 0x55), (150, 0x55), (200, 0x00),
        (200, 0x00)], []⟩ [] 0 = some (true, ⟨200, [], []⟩, []) ∧
      _readResponse ⟨0, [(0, 0x55), (50, 0x55), (100, 0x55), (150, 0x55), (200, 0x00),
        (200, 0x00)], []⟩ [0] 1 = some (false, ⟨200, [], []⟩, [0]) := by
  refine ⟨?_, ?_, ?_⟩ <;> decide
/-- C8 (amended): when the declared LEN differs from `expected_len`, `_readResponse` returns
`false` after discarding every byte that has already arrived in the receive buffer at that
moment, whatever LEN says, and no byte that arrives later. When exactly the LEN + 1 remaining
bytes of the rejected frame have arrived by then and the following valid frame arrives
afterwards, within the deadline of the next call, exactly those LEN + 1 bytes are discarded
and the next `_readResponse` call decodes the following frame. -/
theorem readResponse_mismatch_drains (s : HardwareSerial) (head rest : List (Nat × Nat))
    (noise : List Nat) (len expected_len : Nat) (buffer : List Nat)
    (hrx : s.rx = head ++ rest)
    (hbytes : head.map (·.2) = noise ++ [0xAA, len])
    (htime : ∀ x ∈ head, x.1 < s.now + _timeout)
    (hnoise : ∀ b ∈ noise, b < 256 ∧ b ≠ 0xAA)
    (hlen : len < 256) (hne : len ≠ expected_len) :
    ∃ s', _readResponse s buffer expected_len = some (false, s', buffer) ∧ s'.tx = s.tx ∧
      s'.now = arrive s.now head ∧
      s'.rx = rest.dropWhile (fun x => decide (x.1 ≤ s'.now)) ∧
      ∀ (stale frame rest2 : List (Nat × Nat)) (p buffer2 : List Nat),
        rest = stale ++ frame ++ rest2 → stale.length = len + 1 →
        (∀ x ∈ stale, x.1 ≤ s'.now) →
        frame.map (·.2) = [0xAA, p.length] ++ p ++ [p.length ^^^ xorFold p] →
        (∀ x ∈ frame, s'.now < x.1 ∧ x.1 < s'.now + _timeout) →
        (∀ b ∈ p, b < 256) → p.length ≤ 255 → p.length ≤ buffer2.length →
        s'.rx = frame ++ rest2 ∧
          ∃ s'' buffer2', _readResponse s' buffer2 p.length = some (true, s'', buffer2') ∧
            buffer2'.take p.length = p ∧ s''.rx = rest2 := by
  obtain ⟨now, rx, tx⟩ := s
  simp only at hrx htime ⊢
  subst hrx
  obtain ⟨fn, fh, rfl, hfn, hfh⟩ := List.map_eq_append_iff.mp hbytes
  subst hfn
  match fh, hfh with
  | [(t1, b1), (t2, b2)], hfh =>
  simp only [List.map_cons, List.map_nil, List.cons.injEq, and_true] at hfh
  obtain ⟨rfl, rfl⟩ := hfh
  simp only [_timeout] at htime
  have hshape : (fn ++ [(t1, 0xAA), (t2, b2)]) ++ rest =
      fn ++ (t1, 0xAA) :: (t2, b2) :: rest := by simp
  have := readResponse_len_mismatch now tx fn rest t1 t2 b2 expected_len buffer
    (fun x hx => ⟨htime x (by simp [hx]), by
      have := hnoise x.2 (List.mem_map.mpr ⟨x, hx, rfl⟩)
      omega⟩)
    (htime (t1, 0xAA) (by simp)) (htime (t2, b2) (by simp)) hlen hne
  rw [hshape, this]
  refine ⟨_, rfl, rfl, rfl, drainRx_eq_dropWhile _ _, ?_⟩
  intro stale frame rest2 p buffer2 hrest hstale harr hframe hft hp hpl hb2
  have hdrain : drainRx (arrive now (fn ++ [(t1, 0xAA), (t2, b2)])) rest = frame ++ rest2 := by
    rw [hrest, List.append_assoc]
    apply drainRx_arrived _ _ _ harr
    cases frame with
    | nil => simp at hframe
    | cons x frame =>
      intro y hy
      simp only [List.cons_append, List.head?_cons, Option.mem_def, Option.some.injEq] at hy
      subst hy
      exact (hft x (by simp)).1
  simp only at harr hft ⊢
  rw [hdrain]
  refine ⟨rfl, ?_⟩
  obtain ⟨s'', b'', e, h1, _, h3, _⟩ := readResponse_accepts
    ⟨arrive now (fn ++ [(t1, 0xAA), (t2, b2)]), frame ++ rest2, tx⟩ frame rest2 [] p buffer2 rfl
    (by simpa using hframe) (fun x hx => (hft x hx).2) (by simp) hp hpl hb2
  exact ⟨s'', b'', e, h1, h3⟩
theorem readResponse_mismatch_drains_witness :
    ∃ s', _readResponse ⟨0, [(0, 0xAA), (0, 2), (0, 1), (0, 2), (0, 1),
          (5, 0xAA), (5, 1), (5, 7), (5, 6)], []⟩ [0] 1 = some (false, s', [0]) ∧
      s'.rx = [(5, 0xAA), (5, 1), (5, 7), (5, 6)] ∧
      ∃ s'' buffer2', _readResponse s' [0] [7].length = some (true, s'', buffer2') ∧
        buffer2'.take [7].length = [7] ∧ s''.rx = [] := by
  obtain ⟨s', h1, _, h3, _, h5⟩ :=
    readResponse_mismatch_drains ⟨0, [(0, 0xAA), (0, 2), (0, 1), (0, 2), (0, 1),
        (5, 0xAA), (5, 1), (5, 7), (5, 6)], []⟩ [(0, 0xAA), (0, 2)]
      [(0, 1), (0, 2), (0, 1), (5, 0xAA), (5, 1), (5, 7), (5, 6)] [] 2 1 [0] rfl (by decide)
      (by decide) (by decide) (by decide) (by decide)
  have hnow : s'.now = 0 := by rw [h3]; rfl
  obtain ⟨h6, s'', b, h7, h8, h9⟩ := h5 [(0, 1), (0, 2), (0, 1)]
    [(5, 0xAA), (5, 1), (5, 7), (5, 6)] [] [7] [0] rfl rfl (by rw [hnow]; decide) (by decide)
    (by rw [hnow]; decide) (by decide) (by decide) (by decide)
  exact ⟨s', h1, h6, s'', b, h7, h8, h9⟩

theorem sendPacket_tx (now : Nat) (cmd : Nat) (payload : List Nat)
    (hcmd : cmd < 256) (hlen : payload.length ≤ 255) (hbytes : ∀ b ∈ payload, b < 256) :
    (_sendPacket ⟨now, [], []⟩ cmd (some payload) payload.length).tx =
      0xAA :: cmd :: payload.length :: (payload ++ [cmd ^^^ payload.length ^^^ xorFold payload]) := by
  have hl : payload.length < 256 := by omega
  have hcl : cmd ^^^ payload.length < 256 := xor_lt_256 hcmd hl
  simp only [_sendPacket, _calcCRC, HardwareSerial.write, HardwareSerial.writeBytes, TINY_START,
    List.take_length, Option.getD_some]
  rw [Nat.mod_eq_of_lt hcl, foldl_xor_mod payload _ hcl hbytes, map_mod_256 payload hbytes,
    Nat.mod_eq_of_lt hcmd, Nat.mod_mod, Nat.mod_eq_of_lt hl,
    Nat.mod_eq_of_lt (xor_lt_256 hcl (xorFold_lt_256 payload hbytes))]
  by_cases h0 : payload.length > 0
  · simp [h0]
  · have : payload = [] := List.length_eq_zero.mp (by omega)
    subst this
    simp

theorem xor_cancel_cmd (cmd len f : Nat) : (cmd ^^^ len ^^^ f) ^^^ cmd = len ^^^ f := by
  rw [Nat.xor_assoc cmd len f, Nat.xor_comm cmd (len ^^^ f), Nat.xor_assoc, Nat.xor_self,
    Nat.xor_zero]

set_option maxRecDepth 100000 in
/-- C10 (refuted as stated): the bytes written by `_sendPacket(0x05, {0x03}, 1)` are
`[0xAA, 0x05, 0x01, 0x03, 0x07]`; fed back, `_readResponse(buffer, 1)` takes the CMD byte
`0x05` for LEN, rejects the frame and leaves the buffer untouched. -/
theorem loopback_request_rejected :
    (_sendPacket ⟨0, [], []⟩ 0x05 (some [0x03]) 1).tx = [0xAA, 0x05, 0x01, 0x03, 0x07] ∧
      _readResponse ⟨0, (_sendPacket ⟨0, [], []⟩ 0x05 (some [0x03]) 1).tx.map (fun b => (0, b)), []⟩
        [0] 1 = some (false, ⟨0, [], []⟩, [0]) := by
  constructor <;> decide

/-- C10 (amended): a request frame carries a CMD byte that a response frame lacks, so the bytes
written by `_sendPacket(cmd, payload, len)` fed back unchanged are rejected by
`_readResponse(buffer, len)` whenever `cmd` differs from `len`; with the CMD byte removed and
folded out of the checksum (the response shape `[0xAA, len, payload.., len XOR fold(payload)]`)
they are accepted, the checksum validates and the buffer holds exactly the payload. -/
theorem loopback_response_shape (now : Nat) (cmd : Nat) (payload buffer : List Nat)
    (request response : List (Nat × Nat))
    (hcmd : cmd < 256) (hlen : payload.length ≤ 255) (hpay : ∀ b ∈ payload, b < 256)
    (hbuf : payload.length ≤ buffer.length)
    (hreq : request.map (·.2) =
      (_sendPacket ⟨now, [], []⟩ cmd (some payload) payload.length).tx)
    (hresp : response.map (·.2) =
      asResponse (_sendPacket ⟨now, [], []⟩ cmd (some payload) payload.length).tx)
    (htreq : ∀ x ∈ request, x.1 < now + _timeout)
    (htresp : ∀ x ∈ response, x.1 < now + _timeout) :
    (cmd ≠ payload.length →
        ∃ s', _readResponse ⟨now, request, []⟩ buffer payload.length =
          some (false, s', buffer)) ∧
      ∃ s' buffer', _readResponse ⟨now, response, []⟩ buffer payload.length =
          some (true, s', buffer') ∧ buffer'.take payload.length = payload ∧ s'.rx = [] := by
  rw [sendPacket_tx now cmd payload hcmd hlen hpay] at hreq hresp
  constructor
  · intro hne
    match request, hreq with
    | (t1, b1) :: (t2, b2) :: rest, hreq =>
    simp only [List.map_cons, List.cons.injEq] at hreq
    obtain ⟨rfl, rfl, _⟩ := hreq
    simp only [_timeout] at htreq
    have := readResponse_len_mismatch now [] [] rest t1 t2 b2 payload.length buffer (by simp)
      (htreq (t1, 0xAA) (by simp)) (htreq (t2, b2) (by simp)) hcmd hne
    simp only [List.nil_append] at this
    exact ⟨_, this⟩
  · have hshape : asResponse (0xAA :: cmd :: payload.length ::
        (payload ++ [cmd ^^^ payload.length ^^^ xorFold payload])) =
        [] ++ [0xAA, payload.length] ++ payload ++ [payload.length ^^^ xorFold payload] := by
      have h1 : (payload.length :: (payload ++ [cmd ^^^ payload.length ^^^ xorFold payload])) =
          (payload.length :: payload) ++ [cmd ^^^ payload.length ^^^ xorFold payload] := by simp
      simp only [asResponse]
      rw [h1, List.dropLast_concat, List.getLast?_concat]
      simp [xor_cancel_cmd]
    rw [hshape] at hresp
    obtain ⟨s', b', e, h1, _, h3, _⟩ := readResponse_accepts ⟨now, response, []⟩ response [] []
      payload buffer (by simp) hresp htresp (by simp) hpay hlen hbuf
    exact ⟨s', b', e, h1, h3⟩

theorem loopback_response_shape_witness :
    (0x05 ≠ [0x03].length →
        ∃ s', _readResponse ⟨0, [(0, 0xAA), (0, 0x05), (0, 0x01), (0, 0x03), (0, 0x07)], []⟩ [0]
          [0x03].length = some (false, s', [0])) ∧
      ∃ s' buffer', _readResponse ⟨0, [(0, 0xAA), (0, 0x01), (0, 0x03), (0, 0x02)], []⟩ [0]
          [0x03].length = some (true, s', buffer') ∧
        buffer'.take [0x03].length = [0x03] ∧ s'.rx = [] :=
  loopback_response_shape 0 0x05 [0x03] [0]
    [(0, 0xAA), (0, 0x05), (0, 0x01), (0, 0x03), (0, 0x07)]
    [(0, 0xAA), (0, 0x01), (0, 0x03), (0, 0x02)]
    (by decide) (by decide) (by decide) (by decide) (by decide) (by decide) (by decide)
    (by decide)

theorem sendPacket_take (s : HardwareSerial) (cmd : Nat) (l : List Nat) (n : Nat)
    (hcmd : cmd < 256) (hn : n ≤ l.length) (hn255 : n ≤ 255) (hb : ∀ b ∈ l, b < 256) :
    _sendPacket s cmd (some l) n = { s with tx := s.tx ++ requestFrame cmd (l.take n) } := by
  have hl : (l.take n).length = n := by simp; omega
  have hbt : ∀ b ∈ l.take n, b < 256 := fun b h => hb b (List.mem_of_mem_take h)
  have hn' : n < 256 := by omega
  have hcl : cmd ^^^ n < 256 := xor_lt_256 hcmd hn'
  simp only [_sendPacket, _calcCRC, HardwareSerial.write, HardwareSerial.writeBytes, TINY_START,
    Option.getD_some, requestFrame, hl]
  rw [Nat.mod_eq_of_lt hcl, foldl_xor_mod _ _ hcl hbt, map_mod_256 _ hbt,
    Nat.mod_eq_of_lt hcmd, Nat.mod_mod, Nat.mod_eq_of_lt hn',
    Nat.mod_eq_of_lt (xor_lt_256 hcl (xorFold_lt_256 _ hbt))]
  by_cases h0 : n > 0
  · simp [h0]
  · have h00 : n = 0 := by omega
    subst h00
    simp

theorem sendPacket_some (s : HardwareSerial) (cmd : Nat) (payload : List Nat)
    (hcmd : cmd < 256) (hlen : payload.length ≤ 255) (hb : ∀ b ∈ payload, b < 256) :
    _sendPacket s cmd (some payload) payload.length =
      { s with tx := s.tx ++ requestFrame cmd payload } := by
  have := sendPacket_take s cmd payload payload.length hcmd (Nat.le_refl _) hlen hb
  simpa using this

/-- A two-byte command (`pinMode`, `digitalWrite`, ...): one frame, whatever is answered. -/
theorem twoByteCommand_tx (s : HardwareSerial) (op a b : Nat) (hop : op < 256) (ha : a < 256)
    (hb : b < 256) :
    ∃ s', (_readResponse (_sendPacket s op (some [a, b]) 2) [0] 1).map (·.2.1) = some s' ∧
      s'.tx = s.tx ++ [0xAA, op, 0x02, a, b, op ^^^ 0x02 ^^^ a ^^^ b] := by
  obtain ⟨ok, s', buf, e, htx, _⟩ := readResponse_returns (_sendPacket s op (some [a, b]) 2) [0] 1
  refine ⟨s', by simp [e], ?_⟩
  rw [htx]
  have := sendPacket_some s op [a, b] hop (by simp) (by
    intro x hx
    simp at hx
    rcases hx with rfl | rfl <;> assumption)
  simp only [List.length_cons, List.length_nil] at this
  rw [this]
  simp [requestFrame, xorFold, Nat.xor_assoc]

/-- C19: each of `pinMode(a, b)`, `digitalWrite(a, b)`, `analogWrite(a, b)`, `spiBegin(a, b)`
and `triggerRemoteSleep(a, b)` returns, whatever the channel delivers (acknowledgement,
corrupt bytes or nothing), having written exactly the one frame
`[0xAA, op, 0x02, a, b, op XOR 0x02 XOR a XOR b]` with `op = 0x01, 0x02, 0x04, 0x20, 0x90`. -/
theorem twoByteCommands_one_frame (s : HardwareSerial) (a b : Nat) (ha : a < 256)
    (hb : b < 256) :
    (∃ s', pinMode s a b = some s' ∧
        s'.tx = s.tx ++ [0xAA, 0x01, 0x02, a, b, 0x01 ^^^ 0x02 ^^^ a ^^^ b]) ∧
      (∃ s', digitalWrite s a b = some s' ∧
        s'.tx = s.tx ++ [0xAA, 0x02, 0x02, a, b, 0x02 ^^^ 0x02 ^^^ a ^^^ b]) ∧
      (∃ s', analogWrite s a b = some s' ∧
        s'.tx = s.tx ++ [0xAA, 0x04, 0x02, a, b, 0x04 ^^^ 0x02 ^^^ a ^^^ b]) ∧
      (∃ s', spiBegin s a b = some s' ∧
        s'.tx = s.tx ++ [0xAA, 0x20, 0x02, a, b, 0x20 ^^^ 0x02 ^^^ a ^^^ b]) ∧
      (∃ s', triggerRemoteSleep s a b = some s' ∧
        s'.tx = s.tx ++ [0xAA, 0x90, 0x02, a, b, 0x90 ^^^ 0x02 ^^^ a ^^^ b]) :=
  ⟨twoByteCommand_tx s 0x01 a b (by decide) ha hb,
    twoByteCommand_tx s 0x02 a b (by decide) ha hb,
    twoByteCommand_tx s 0x04 a b (by decide) ha hb,
    twoByteCommand_tx s 0x20 a b (by decide) ha hb,
    twoByteCommand_tx s 0x90 a b (by decide) ha hb⟩

theorem twoByteCommands_one_frame_witness :
    (∃ s', pinMode ⟨0, [(3, 0xAA), (3, 1), (3, 0x55), (3, 0x00)], []⟩ 4 1 = some s' ∧
        s'.tx = [] ++ [0xAA, 0x01, 0x02, 4, 1, 0x01 ^^^ 0x02 ^^^ 4 ^^^ 1]) ∧
      (∃ s', digitalWrite ⟨0, [(3, 0xAA), (3, 1), (3, 0x55), (3, 0x00)], []⟩ 4 1 = some s' ∧
        s'.tx = [] ++ [0xAA, 0x02, 0x02, 4, 1, 0x02 ^^^ 0x02 ^^^ 4 ^^^ 1]) ∧
      (∃ s', analogWrite ⟨0, [(3, 0xAA), (3, 1), (3, 0x55), (3, 0x00)], []⟩ 4 1 = some s' ∧
        s'.tx = [] ++ [0xAA, 0x04, 0x02, 4, 1, 0x04 ^^^ 0x02 ^^^ 4 ^^^ 1]) ∧
      (∃ s', spiBegin ⟨0, [(3, 0xAA), (3, 1), (3, 0x55), (3, 0x00)], []⟩ 4 1 = some s' ∧
        s'.tx = [] ++ [0xAA, 0x20, 0x02, 4, 1, 0x20 ^^^ 0x02 ^^^ 4 ^^^ 1]) ∧
      (∃ s', triggerRemoteSleep ⟨0, [(3, 0xAA), (3, 1), (3, 0x55), (3, 0x00)], []⟩ 4 1 =
          some s' ∧
        s'.tx = [] ++ [0xAA, 0x90, 0x02, 4, 1, 0x90 ^^^ 0x02 ^^^ 4 ^^^ 1]) :=
  twoByteCommands_one_frame ⟨0, [(3, 0xAA), (3, 1), (3, 0x55), (3, 0x00)], []⟩ 4 1 (by decide)
    (by decide)
theorem sendPacket_rx_now (s : HardwareSerial) (cmd : Nat) (payload : Option (List Nat))
    (len : Nat) :
    (_sendPacket s cmd payload len).rx = s.rx ∧ (_sendPacket s cmd payload len).now = s.now := by
  unfold _sendPacket
  by_cases h : len > 0 <;> simp [h, HardwareSerial.write, HardwareSerial.writeBytes]

theorem be16 (hi lo : Nat) (hhi : hi < 256) (hlo : lo < 256) :
    ((hi <<< 8) ||| lo) % 65536 = 256 * hi + lo := by
  have h := Nat.mul_add_lt_is_or (i := 8) (b := lo) (by simpa using hlo) hi
  rw [Nat.shiftLeft_eq, Nat.mul_comm, ← h]
  have : (2 : Nat) ^ 8 = 256 := by norm_num
  rw [this]
  omega

theorem analogRead_returns (s : HardwareSerial) (pin : Nat) :
    ∃ ok s' buf,
      _readResponse ((_sendPacket s TINY_CMD_AREAD (some [pin]) 1).delay 1) [0, 0] 2 =
        some (ok, s', buf) ∧
      analogRead s pin =
        some (if ok then Int.ofNat (((buf.getD 0 0 <<< 8) ||| buf.getD 1 0) % 65536) else -1,
          s') := by
  obtain ⟨ok, s', buf, e, _⟩ :=
    readResponse_returns ((_sendPacket s TINY_CMD_AREAD (some [pin]) 1).delay 1) [0, 0] 2
  refine ⟨ok, s', buf, e, ?_⟩
  simp only [analogRead, e, Option.map]
  cases ok <;> simp

theorem analogRead_tx (s : HardwareSerial) (pin : Nat) (hpin : pin < 256) :
    ∃ ok s' buf,
      _readResponse ((_sendPacket s TINY_CMD_AREAD (some [pin]) 1).delay 1) [0, 0] 2 =
        some (ok, s', buf) ∧
      analogRead s pin =
        some (if ok then Int.ofNat (((buf.getD 0 0 <<< 8) ||| buf.getD 1 0) % 65536) else -1,
          s') ∧
      s'.tx = s.tx ++ [0xAA, 0x05, 0x01, pin, 0x05 ^^^ 0x01 ^^^ pin] := by
  obtain ⟨ok, s', buf, e, htx, _⟩ :=
    readResponse_returns ((_sendPacket s TINY_CMD_AREAD (some [pin]) 1).delay 1) [0, 0] 2
  refine ⟨ok, s', buf, e, ?_, ?_⟩
  · simp only [analogRead, e, Option.map]
    cases ok <;> simp
  · rw [htx]
    have := sendPacket_some s TINY_CMD_AREAD [pin] (by decide) (by simp) (by
      intro x hx
      simp at hx
      subst hx
      exact hpin)
    simp only [List.length_cons, List.length_nil] at this
    simp only [HardwareSerial.delay, Nat.zero_add]
    rw [this]
    simp [requestFrame, xorFold, TINY_CMD_AREAD]

theorem analogRead_valid (s : HardwareSerial) (pin : Nat) (frame rest : List (Nat × Nat))
    (noise : List Nat) (hi lo : Nat)
    (hrx : s.rx = frame ++ rest)
    (hbytes : frame.map (·.2) = noise ++ [0xAA, 0x02, hi, lo, 0x02 ^^^ hi ^^^ lo])
    (htime : ∀ x ∈ frame, x.1 < s.now + 1 + _timeout)
    (hnoise : ∀ b ∈ noise, b < 256 ∧ b ≠ 0xAA) (hhi : hi < 256) (hlo : lo < 256) :
    ∃ s', analogRead s pin = some (Int.ofNat (256 * hi + lo), s') ∧ s'.rx = rest := by
  obtain ⟨hrx0, hnow0⟩ := sendPacket_rx_now s TINY_CMD_AREAD (some [pin]) 1
  obtain ⟨s', buf, e, hb, hd, hrest, _⟩ := readResponse_accepts
    ((_sendPacket s TINY_CMD_AREAD (some [pin]) 1).delay 1) frame rest noise [hi, lo] [0, 0]
    (by simp only [HardwareSerial.delay]; rw [hrx0, hrx])
    (by rw [hbytes]; simp [xorFold, Nat.xor_assoc])
    (by
      intro x hx
      simp only [HardwareSerial.delay]
      rw [hnow0]
      exact htime x hx)
    hnoise (by
      intro b hb
      simp at hb
      rcases hb with rfl | rfl <;> assumption) (by simp) (by simp)
  simp only [List.length_cons, List.length_nil, Nat.zero_add, Nat.reduceAdd] at e hb hd
  have hbuf : buf = [hi, lo] := by
    have := List.take_append_drop 2 buf
    rw [hb, hd] at this
    simpa using this.symm
  refine ⟨s', ?_, hrest⟩
  simp only [analogRead, e, Option.map, if_true, hbuf]
  simp [be16 hi lo hhi hlo]
set_option maxRecDepth 100000 in
/-- C11 (refuted as stated): `analogRead(3)` on an idle channel writes the five bytes
`[0xAA, 0x05, 0x01, 0x03, 0x07]`; the last byte, `0x05 XOR 0x01 XOR 0x03`, is `0x07`, not
`0x06`. -/
theorem analogRead_pin3_checksum_not_06 :
    (analogRead ⟨0, [], []⟩ 3).map (·.2.tx) = some [0xAA, 0x05, 0x01, 0x03, 0x07] ∧
      (analogRead ⟨0, [], []⟩ 3).map (·.2.tx) ≠ some [0xAA, 0x05, 0x01, 0x03, 0x06] := by
  constructor <;> decide

/-- C11 (amended): `analogRead(3)` returns, whatever the channel delivers, having written to
the serial channel exactly the five bytes `[0xAA, 0x05, 0x01, 0x03, 0x07]`. -/
theorem analogRead_pin3_frame (s : HardwareSerial) :
    ∃ v s', analogRead s 3 = some (v, s') ∧
      s'.tx = s.tx ++ [0xAA, 0x05, 0x01, 0x03, 0x07] := by
  obtain ⟨ok, s', buf, _, h, htx⟩ := analogRead_tx s 3 (by decide)
  exact ⟨_, s', h, by simpa using htx⟩

/-- C12: when the response to `analogRead(pin)` is a valid two-byte frame with data bytes
`hi, lo` (arriving before the deadline, possibly after noise without `0xAA`), `analogRead`
returns `256 * hi + lo`; `analogRead` always returns, and whenever its exchange fails it
returns `-1`. -/
theorem analogRead_decodes (s sf : HardwareSerial) (pin : Nat) (frame rest : List (Nat × Nat))
    (noise : List Nat) (hi lo : Nat)
    (hrx : s.rx = frame ++ rest)
    (hbytes : frame.map (·.2) = noise ++ [0xAA, 0x02, hi, lo, 0x02 ^^^ hi ^^^ lo])
    (htime : ∀ x ∈ frame, x.1 < s.now + 1 + _timeout)
    (hnoise : ∀ b ∈ noise, b < 256 ∧ b ≠ 0xAA) (hhi : hi < 256) (hlo : lo < 256) :
    (∃ s', analogRead s pin = some (Int.ofNat (256 * hi + lo), s') ∧ s'.rx = rest) ∧
      (∃ v s', analogRead sf pin = some (v, s')) ∧
      ∀ s2 buf,
        _readResponse ((_sendPacket sf TINY_CMD_AREAD (some [pin]) 1).delay 1) [0, 0] 2 =
          some (false, s2, buf) →
        analogRead sf pin = some (-1, s2) := by
  refine ⟨analogRead_valid s pin frame rest noise hi lo hrx hbytes htime hnoise hhi hlo, ?_, ?_⟩
  · obtain ⟨ok, s', buf, _, h⟩ := analogRead_returns sf pin
    exact ⟨_, _, h⟩
  · intro s2 buf e
    simp [analogRead, e]

set_option maxRecDepth 100000 in
theorem analogRead_decodes_witness :
    (∃ s', analogRead ⟨0, [(2, 0xAA), (2, 0x02), (3, 0x0F), (3, 0xA0), (3, 0xAD), (9, 0x00)], []⟩
        3 = some (4000, s') ∧ s'.rx = [(9, 0x00)]) ∧
      analogRead ⟨0, [(2, 0xAA), (2, 0x02), (3, 0x0F), (3, 0xA0), (3, 0xAC)], []⟩ 3 =
        some (-1, ⟨3, [], [0xAA, 0x05, 0x01, 0x03, 0x07]⟩) := by
  obtain ⟨h1, _, h3⟩ := analogRead_decodes
    ⟨0, [(2, 0xAA), (2, 0x02), (3, 0x0F), (3, 0xA0), (3, 0xAD), (9, 0x00)], []⟩
    ⟨0, [(2, 0xAA), (2, 0x02), (3, 0x0F), (3, 0xA0), (3, 0xAC)], []⟩ 3
    [(2, 0xAA), (2, 0x02), (3, 0x0F), (3, 0xA0), (3, 0xAD)] [(9, 0x00)] [] 0x0F 0xA0 rfl
    (by decide) (by decide) (by decide) (by decide) (by decide)
  exact ⟨h1, h3 ⟨3, [], [0xAA, 0x05, 0x01, 0x03, 0x07]⟩ [0x0F, 0xA0] (by decide)⟩

set_option maxRecDepth 100000 in
/-- C13 (evaluation at the failing inputs): the value returned by `analogRead` is not always
an integer from 0 to 4095: with no answer from the co-processor `analogRead(3)` returns `-1`,
and with the valid answer `{0xFF, 0xFF}` it returns 65535. -/
theorem analogRead_outside_0_4095 :
    (analogRead ⟨0, [], []⟩ 3).map (·.1) = some (-1) ∧
      (analogRead ⟨0, [(5, 0xAA), (5, 0x02), (5, 0xFF), (5, 0xFF), (5, 0x02)], []⟩ 3).map (·.1) =
        some 65535 := by
  constructor <;> decide

/-- The range of `analogRead`: it always returns, and the value returned is `-1` (the exchange
failed) or an integer from 0 to 65535 (the 16-bit big-endian value of the two response bytes);
it is an integer from 0 to 4095 whenever the response is a valid frame whose first data byte is
at most `0x0F`, a 12-bit reading. -/
theorem analogRead_range (s : HardwareSerial) (pin : Nat) :
    ∃ v s', analogRead s pin = some (v, s') ∧
      (v = -1 ∨ (0 ≤ v ∧ v ≤ 65535)) ∧
      ∀ (frame rest : List (Nat × Nat)) (noise : List Nat) (hi lo : Nat),
        s.rx = frame ++ rest →
        frame.map (·.2) = noise ++ [0xAA, 0x02, hi, lo, 0x02 ^^^ hi ^^^ lo] →
        (∀ x ∈ frame, x.1 < s.now + 1 + _timeout) →
        (∀ b ∈ noise, b < 256 ∧ b ≠ 0xAA) → hi ≤ 0x0F → lo < 256 →
        0 ≤ v ∧ v ≤ 4095 := by
  obtain ⟨ok, s', buf, e, h⟩ := analogRead_returns s pin
  refine ⟨_, _, h, ?_, ?_⟩
  · cases ok with
    | false => left; simp
    | true =>
      right
      simp only [if_true]
      have : ((buf.getD 0 0 <<< 8) ||| buf.getD 1 0) % 65536 < 65536 := Nat.mod_lt _ (by decide)
      constructor
      · exact Int.ofNat_nonneg _
      · simp only [Int.ofNat_eq_coe]
        omega
  · intro frame rest noise hi lo hrx hbytes htime hnoise hhi hlo
    obtain ⟨s2, h2, _⟩ := analogRead_valid s pin frame rest noise hi lo hrx hbytes htime hnoise
      (by omega) hlo
    rw [h] at h2
    simp only [Option.some.injEq, Prod.mk.injEq] at h2
    obtain ⟨hv, _⟩ := h2
    rw [hv]
    simp only [Int.ofNat_eq_coe]
    omega

theorem analogRead_range_witness :
    ∃ v s', analogRead ⟨0, [(2, 0xAA), (2, 0x02), (3, 0x0F), (3, 0xA0), (3, 0xAD)], []⟩ 3 =
        some (v, s') ∧ (v = -1 ∨ (0 ≤ v ∧ v ≤ 65535)) ∧ 0 ≤ v ∧ v ≤ 4095 := by
  obtain ⟨v, s', h1, h2, h3⟩ :=
    analogRead_range ⟨0, [(2, 0xAA), (2, 0x02), (3, 0x0F), (3, 0xA0), (3, 0xAD)], []⟩ 3
  exact ⟨v, s', h1, h2, h3 [(2, 0xAA), (2, 0x02), (3, 0x0F), (3, 0xA0), (3, 0xAD)] [] [] 0x0F
    0xA0 rfl (by decide) (by decide) (by decide) (by decide) (by decide)⟩
set_option maxRecDepth 100000 in
/-- C16 (refuted as stated): called with 33 data bytes, with acknowledgements of status 1
waiting in the receive buffer, `i2cWrite` sends no frame, reads nothing and returns `false`. -/
theorem i2cWrite_33_bytes_not_chunked :
    i2cWrite ⟨0, [(0, 0xAA), (0, 0x01), (0, 0x01), (0, 0x00), (0, 0xAA), (0, 0x01), (0, 0x01),
        (0, 0x00)], []⟩ 0x3C (List.replicate 33 0x07) 33 =
      some (false, ⟨0, [(0, 0xAA), (0, 0x01), (0, 0x01), (0, 0x00), (0, 0xAA), (0, 0x01),
        (0, 0x01), (0, 0x00)], []⟩) := by
  decide

/-- C16 (amended): called with more than 32 data bytes, `i2cWrite` returns `false` at once:
no frame is written, nothing is read, the data is not split into chunks. -/
theorem i2cWrite_over_limit (s : HardwareSerial) (address : Nat) (data : List Nat) (len : Nat)
    (hlen : len > 32) : i2cWrite s address data len = some (false, s) := by
  simp [i2cWrite, hlen]

theorem i2cWrite_over_limit_witness :
    i2cWrite ⟨0, [(0, 0xAA), (0, 0x01), (0, 0x01), (0, 0x00)], []⟩ 0x3C (List.replicate 40 0x07)
        40 =
      some (false, ⟨0, [(0, 0xAA), (0, 0x01), (0, 0x01), (0, 0x00)], []⟩) :=
  i2cWrite_over_limit ⟨0, [(0, 0xAA), (0, 0x01), (0, 0x01), (0, 0x00)], []⟩ 0x3C
    (List.replicate 40 0x07) 40 (by decide)

set_option maxRecDepth 100000 in
/-- C17 (refuted as stated): `i2cWrite` accepts 32 data bytes and then writes
one frame whose LEN byte is 33 and which carries 33 payload bytes (the address and the 32
data bytes), 37 bytes in all. -/
theorem i2cWrite_32_bytes_payload_33 :
    (i2cWrite ⟨0, [], []⟩ 0x3C (List.replicate 32 0x07) 32).map (fun r => r.2.tx) =
      some ([0xAA, 0x10, 33, 0x3C] ++ List.replicate 32 0x07 ++ [0x0D]) := by
  decide

theorem i2cWrite_spec (s : HardwareSerial) (address : Nat) (data : List Nat)
    (hlen : data.length ≤ 32) (haddr : address < 256) (hdata : ∀ b ∈ data, b < 256) :
    ∃ ok s2 buf,
      _readResponse (_sendPacket s TINY_CMD_I2C_W (some (address :: data)) (data.length + 1))
        [0] 1 = some (ok, s2, buf) ∧
      i2cWrite s address data data.length = some (ok && decide (buf.getD 0 0 = 1), s2) ∧
      s2.tx = s.tx ++ [0xAA, 0x10, data.length + 1, address] ++ data ++
        [0x10 ^^^ (data.length + 1) ^^^ xorFold (address :: data)] := by
  obtain ⟨ok, s2, buf, e, htx, _⟩ := readResponse_returns
    (_sendPacket s TINY_CMD_I2C_W (some (address :: data)) (data.length + 1)) [0] 1
  refine ⟨ok, s2, buf, e, ?_, ?_⟩
  · have : ¬ data.length > 32 := by omega
    simp only [i2cWrite, this, if_false, List.take_length, e, Option.map]
  · rw [htx]
    have := sendPacket_some s TINY_CMD_I2C_W (address :: data) (by decide)
      (by simp; omega) (by
        intro x hx
        rcases List.mem_cons.mp hx with rfl | h
        · exact haddr
        · exact hdata x h)
    simp only [List.length_cons] at this
    rw [this]
    simp [requestFrame, TINY_CMD_I2C_W]

/-- C18: for `len <= 32` data bytes `i2cWrite` returns, having written exactly the one frame
`[0xAA, 0x10, len + 1, address, data.., crc]`; it returns `true` exactly when its
`_readResponse(&status, 1)` succeeds and the status byte stored is 1, so every failed exchange
gives `false`; a valid one-byte response frame with status `st` arriving before the deadline
gives `true` for `st = 1` and `false` for every other status. -/
theorem i2cWrite_exchange (s : HardwareSerial) (address : Nat) (data : List Nat)
    (hlen : data.length ≤ 32) (haddr : address < 256) (hdata : ∀ b ∈ data, b < 256) :
    ∃ ok s2 buf,
      _readResponse (_sendPacket s TINY_CMD_I2C_W (some (address :: data)) (data.length + 1))
        [0] 1 = some (ok, s2, buf) ∧
      i2cWrite s address data data.length = some (ok && decide (buf.getD 0 0 = 1), s2) ∧
      s2.tx = s.tx ++ [0xAA, 0x10, data.length + 1, address] ++ data ++
        [0x10 ^^^ (data.length + 1) ^^^ xorFold (address :: data)] ∧
      ∀ (frame rest : List (Nat × Nat)) (noise : List Nat) (st : Nat),
        s.rx = frame ++ rest →
        frame.map (·.2) = noise ++ [0xAA, 0x01, st, 0x01 ^^^ st] →
        (∀ x ∈ frame, x.1 < s.now + _timeout) →
        (∀ b ∈ noise, b < 256 ∧ b ≠ 0xAA) → st < 256 →
        ok = true ∧ buf.getD 0 0 = st ∧ s2.rx = rest := by
  obtain ⟨ok, s2, buf, e, h, htx⟩ := i2cWrite_spec s address data hlen haddr hdata
  refine ⟨ok, s2, buf, e, h, htx, ?_⟩
  intro frame rest noise st hrx hbytes htime hnoise hst
  obtain ⟨hrx0, hnow0⟩ := sendPacket_rx_now s TINY_CMD_I2C_W (some (address :: data))
    (data.length + 1)
  obtain ⟨s', b', e', hb, hd, hrest, _⟩ := readResponse_accepts
    (_sendPacket s TINY_CMD_I2C_W (some (address :: data)) (data.length + 1)) frame rest noise
    [st] [0] (by rw [hrx0, hrx]) (by rw [hbytes]; simp [xorFold])
    (by intro x hx; rw [hnow0]; exact htime x hx) hnoise (by simpa using hst) (by simp)
    (by simp)
  simp only [List.length_cons, List.length_nil, Nat.zero_add] at e' hb hd
  rw [e] at e'
  simp only [Option.some.injEq, Prod.mk.injEq] at e'
  obtain ⟨rfl, rfl, rfl⟩ := e'
  refine ⟨rfl, ?_, hrest⟩
  cases buf with
  | nil => simp at hb
  | cons b buf =>
    simp only [List.take_succ_cons, List.take_zero, List.cons.injEq, and_true] at hb
    simp [hb]

theorem i2cWrite_exchange_witness :
    ∃ ok s2 buf,
      _readResponse (_sendPacket ⟨0, [(4, 0xAA), (4, 0x01), (4, 0x01), (4, 0x00)], []⟩
        TINY_CMD_I2C_W (some (0x3C :: [0x00, 0xAF])) ([0x00, 0xAF].length + 1)) [0] 1 =
          some (ok, s2, buf) ∧
      i2cWrite ⟨0, [(4, 0xAA), (4, 0x01), (4, 0x01), (4, 0x00)], []⟩ 0x3C [0x00, 0xAF]
        [0x00, 0xAF].length = some (ok && decide (buf.getD 0 0 = 1), s2) ∧
      s2.tx = [] ++ [0xAA, 0x10, [0x00, 0xAF].length + 1, 0x3C] ++ [0x00, 0xAF] ++
        [0x10 ^^^ ([0x00, 0xAF].length + 1) ^^^ xorFold (0x3C :: [0x00, 0xAF])] ∧
      ok = true ∧ buf.getD 0 0 = 1 ∧ s2.rx = [] := by
  obtain ⟨ok, s2, buf, h1, h2, h3, h4⟩ :=
    i2cWrite_exchange ⟨0, [(4, 0xAA), (4, 0x01), (4, 0x01), (4, 0x00)], []⟩ 0x3C [0x00, 0xAF]
      (by decide) (by decide) (by decide)
  exact ⟨ok, s2, buf, h1, h2, h3,
    h4 [(4, 0xAA), (4, 0x01), (4, 0x01), (4, 0x00)] [] [] 1 rfl (by decide) (by decide)
      (by decide) (by decide)⟩

/-- The exact outcome of decoding a well-formed response frame. -/
theorem readResponse_accepts_at (s : HardwareSerial) (frame rest : List (Nat × Nat))
    (noise p buffer : List Nat)
    (hrx : s.rx = frame ++ rest)
    (hbytes : frame.map (·.2) = noise ++ [0xAA, p.length] ++ p ++ [p.length ^^^ xorFold p])
    (htime : ∀ x ∈ frame, x.1 < s.now + _timeout)
    (hnoise : ∀ b ∈ noise, b < 256 ∧ b ≠ 0xAA)
    (hp : ∀ b ∈ p, b < 256) (hlen : p.length ≤ 255) (hbuf : p.length ≤ buffer.length) :
    _readResponse s buffer p.length =
      some (true, ⟨arrive s.now frame, rest, s.tx⟩, p ++ buffer.drop p.length) := by
  obtain ⟨now, rx, tx⟩ := s
  simp only at hrx htime ⊢
  subst hrx
  obtain ⟨fa, fc, rfl, hfa, hfc⟩ := List.map_eq_append_iff.mp hbytes
  obtain ⟨fb, fp, rfl, hfb, hfp⟩ := List.map_eq_append_iff.mp hfa
  obtain ⟨fn, fh, rfl, hfn, hfh⟩ := List.map_eq_append_iff.mp hfb
  subst hfp hfn
  match fh, hfh with
  | [(t1, _), (t2, _)], hfh =>
  match fc, hfc with
  | [(t3, _)], hfc =>
  simp only [List.map_cons, List.map_nil, List.cons.injEq, and_true] at hfh hfc
  obtain ⟨rfl, hl⟩ := hfh
  subst hl hfc
  simp only [List.length_map, _timeout] at *
  have hshape : (fn ++ [(t1, 0xAA), (t2, fp.length)] ++ fp ++
        [(t3, fp.length ^^^ xorFold (fp.map (·.2)))]) ++ rest =
      fn ++ (t1, 0xAA) :: (t2, fp.length) ::
        (fp ++ (t3, fp.length ^^^ xorFold (fp.map (·.2))) :: rest) := by simp
  have hall : ∀ x ∈ fn ++ (t1, 0xAA) :: (t2, fp.length) ::
      (fp ++ [(t3, fp.length ^^^ xorFold (fp.map (·.2)))]), x.1 < now + 200 := by
    intro x hx
    exact htime x (by simpa using hx)
  have := readResponse_frame now tx fn fp rest t1 t2 t3 buffer
    (fun x hx => ⟨hall x (by simp [hx]), by
      have := hnoise x.2 (List.mem_map.mpr ⟨x, hx, rfl⟩)
      omega⟩)
    (fun x hx => ⟨hall x (by simp [hx]), hp x.2 (List.mem_map.mpr ⟨x, hx, rfl⟩)⟩)
    (hall (t1, 0xAA) (by simp)) (hall (t2, fp.length) (by simp))
    (hall (t3, fp.length ^^^ xorFold (fp.map (·.2))) (by simp)) hlen
  rw [hshape, this]
  rw [storeAt_eq _ _ _ (by simpa using hbuf)]
  simp

theorem readData_tail (start rx_len : Nat) :
    ∀ (fuel : Nat) (s : HardwareSerial) (buffer : List Nat) (count crc : Nat)
      (r : HardwareSerial × List Nat × Nat × Nat),
      readData start rx_len fuel s buffer count crc = some r →
      r.2.1.drop rx_len = buffer.drop rx_len ∧ r.2.1.length = buffer.length := by
  intro fuel
  induction fuel with
  | zero => intro s buffer count crc r h; simp [readData] at h
  | succ fuel ih =>
    intro s buffer count crc r h
    rw [readData] at h
    by_cases hc : count < rx_len ∧ elapsed start s < _timeout
    · rw [if_pos hc] at h
      by_cases hav : s.available = true
      · rw [if_pos hav] at h
        obtain ⟨h1, h2⟩ := ih _ _ _ _ r h
        rw [h1, h2]
        exact ⟨List.drop_set_of_lt _ _ hc.1, by simp⟩
      · rw [if_neg hav] at h
        exact ih _ _ _ _ r h
    · rw [if_neg hc] at h
      simp only [Option.some.injEq] at h
      subst h
      exact ⟨rfl, rfl⟩

/-- Whatever its outcome, `_readResponse(buffer, n)` leaves `buffer[n..]` as it was. -/
theorem readResponse_tail (s : HardwareSerial) (buffer : List Nat) (expected_len : Nat)
    (r : Bool × HardwareSerial × List Nat)
    (h : _readResponse s buffer expected_len = some r) :
    r.2.2.drop expected_len = buffer.drop expected_len ∧ r.2.2.length = buffer.length := by
  unfold _readResponse at h
  cases h1 : scanStart s.millis (pollBudget s) s with
  | none => simp [h1] at h
  | some s1 =>
    simp only [h1, Option.bind] at h
    cases h2 : awaitByte s.millis (pollBudget s) s1 with
    | none => simp [h2] at h
    | some s2 =>
      simp only [h2] at h
      by_cases hav : (!s2.available) = true
      · rw [if_pos hav] at h
        simp only [Option.some.injEq] at h
        subst h
        exact ⟨rfl, rfl⟩
      · rw [if_neg hav] at h
        by_cases hl : toU8 s2.read.1 ≠ expected_len
        · rw [if_pos hl] at h
          simp only [Option.some.injEq] at h
          subst h
          exact ⟨rfl, rfl⟩
        · rw [if_neg hl] at h
          have hl' : toU8 s2.read.1 = expected_len := by
            by_contra hne
            exact hl hne
          cases h3 : readData s.millis (toU8 s2.read.1) (pollBudget s) s2.read.2 buffer 0
              (toU8 s2.read.1) with
          | none => simp [h3] at h
          | some d =>
            obtain ⟨t1, t2⟩ := readData_tail _ _ _ _ _ _ _ d h3
            rw [hl'] at t1
            simp only [h3] at h
            by_cases hcnt : d.2.2.1 ≠ toU8 s2.read.1
            · rw [if_pos hcnt] at h
              simp only [Option.some.injEq] at h
              subst h
              exact ⟨t1, t2⟩
            · rw [if_neg hcnt] at h
              cases h4 : awaitByte s.millis (pollBudget s) d.1 with
              | none => simp [h4] at h
              | some s5 =>
                simp only [h4] at h
                by_cases hav5 : (!s5.available) = true
                · rw [if_pos hav5] at h
                  simp only [Option.some.injEq] at h
                  subst h
                  exact ⟨t1, t2⟩
                · rw [if_neg hav5] at h
                  by_cases hcrc : d.2.2.2 ≠ toU8 s5.read.1
                  · rw [if_pos hcrc] at h
                    simp only [Option.some.injEq] at h
                    subst h
                    exact ⟨t1, t2⟩
                  · rw [if_neg hcrc] at h
                    simp only [Option.some.injEq] at h
                    subst h
                    exact ⟨t1, t2⟩

theorem chunks32_nil : chunks32 [] = [] := by
  rw [chunks32]; simp

theorem chunks32_cons (l : List Nat) (h : l ≠ []) :
    chunks32 l = l.take 32 :: chunks32 (l.drop 32) := by
  rw [chunks32, dif_neg h]

theorem spiFrames_nil : spiFrames [] = [] := by
  simp [spiFrames, chunks32_nil]

theorem spiFrames_cons (l : List Nat) (h : l ≠ []) :
    spiFrames l = requestFrame 0x21 (l.take 32) ++ spiFrames (l.drop 32) := by
  simp [spiFrames, chunks32_cons l h]

theorem spiLoop_done (len fuel : Nat) (s : HardwareSerial) (buffer : List Nat)
    (processed : Nat) (h : ¬ processed < len) :
    spiTransferLoop len fuel s buffer processed = some (s, buffer) := by
  cases fuel <;> simp [spiTransferLoop, h]

theorem spiLoop_step (len fuel : Nat) (s : HardwareSerial) (done todo : List Nat)
    (hlen : len = done.length + todo.length) (hne : todo ≠ []) :
    spiTransferLoop len (fuel + 1) s (done ++ todo) done.length =
      (_readResponse (_sendPacket s TINY_CMD_SPI_T (some todo) (todo.take 32).length) todo
          (todo.take 32).length).bind fun r =>
        if !r.1 then some (r.2.1, done ++ r.2.2)
        else spiTransferLoop len fuel r.2.1 (done ++ r.2.2)
          (done.length + (todo.take 32).length) := by
  have hpos : 0 < todo.length := List.length_pos.mpr hne
  have hlt : done.length < len := by omega
  have hchunk : (if len - done.length > 32 then 32 else len - done.length) =
      (todo.take 32).length := by
    rw [List.length_take]
    split <;> omega
  rw [spiTransferLoop, if_pos hlt]
  simp only [hchunk, List.drop_left, List.take_left]

theorem sendPacket_spi (s : HardwareSerial) (todo : List Nat) (hb : ∀ b ∈ todo, b < 256) :
    _sendPacket s TINY_CMD_SPI_T (some todo) (todo.take 32).length =
      { s with tx := s.tx ++ requestFrame 0x21 (todo.take 32) } := by
  have h1 : (todo.take 32).length ≤ todo.length := by simp
  have h2 : (todo.take 32).length ≤ 255 := by
    rw [List.length_take]
    omega
  have := sendPacket_take s TINY_CMD_SPI_T todo (todo.take 32).length (by decide) h1 h2 hb
  rw [this]
  have h3 : todo.take (todo.take 32).length = todo.take 32 := by
    rw [List.length_take, ← List.take_take]
    rw [List.take_length]
  rw [h3]
  rfl

theorem spiLoop_answered (rest : List (Nat × Nat)) (len : Nat) :
    ∀ (fuel : Nat) (s : HardwareSerial) (done todo : List Nat)
      (replies : List (List (Nat × Nat))) (payloads : List (List Nat)),
      len = done.length + todo.length → todo.length ≤ fuel →
      s.rx = replies.flatten ++ rest →
      List.Forall₂ validReply replies payloads →
      payloads.map List.length = (chunks32 todo).map List.length →
      answered s.now replies →
      (∀ p ∈ payloads, ∀ b ∈ p, b < 256) → (∀ b ∈ todo, b < 256) →
      spiTransferLoop len fuel s (done ++ todo) done.length =
        some (⟨arrive s.now replies.flatten, rest, s.tx ++ spiFrames todo⟩,
          done ++ payloads.flatten) := by
  intro fuel
  induction fuel with
  | zero =>
    intro s done todo replies payloads hlen hf hrx hshape hsizes _ _ _
    have ht : todo = [] := List.length_eq_zero.mp (by omega)
    subst ht
    rw [chunks32_nil] at hsizes
    have hp : payloads = [] := by simpa using hsizes
    subst hp
    cases hshape
    rw [spiLoop_done _ _ _ _ _ (by simp at hlen; omega)]
    obtain ⟨now, rx, tx⟩ := s
    simp only [List.flatten_nil, List.nil_append] at hrx
    simp [arrive, spiFrames_nil, hrx]
  | succ fuel ih =>
    intro s done todo replies payloads hlen hf hrx hshape hsizes htime hpay hbuf
    by_cases ht : todo = []
    · subst ht
      rw [chunks32_nil] at hsizes
      have hp : payloads = [] := by simpa using hsizes
      subst hp
      cases hshape
      rw [spiLoop_done _ _ _ _ _ (by simp at hlen; omega)]
      obtain ⟨now, rx, tx⟩ := s
      simp only [List.flatten_nil, List.nil_append] at hrx
      simp [arrive, spiFrames_nil, hrx]
    · rw [chunks32_cons todo ht] at hsizes
      match payloads, hsizes with
      | p :: ps, hsizes =>
      match replies, hshape with
      | f :: fs, .cons ⟨noise, hnoise, hf0⟩ hfs =>
      simp only [List.map_cons, List.cons.injEq] at hsizes
      obtain ⟨hpl, hps⟩ := hsizes
      obtain ⟨ht0, hts⟩ := htime
      have hpos : 0 < todo.length := List.length_pos.mpr ht
      have hp32 : p.length ≤ 32 := by
        rw [hpl, List.length_take]
        omega
      rw [spiLoop_step len fuel s done todo hlen ht, sendPacket_spi s todo hbuf, ← hpl]
      have hacc := readResponse_accepts_at
        ({ s with tx := s.tx ++ requestFrame 0x21 (todo.take 32) } : HardwareSerial) f
        (fs.flatten ++ rest) noise p todo
        (by simp only [hrx, List.flatten_cons, List.append_assoc])
        (by rw [hf0]; simp [responseFrame])
        ht0 hnoise (hpay p (by simp)) (by omega)
        (by rw [hpl]; simp)
      rw [hacc]
      simp only [Option.bind, Bool.not_true, Bool.false_eq_true, if_false]
      have hdrop : todo.drop p.length = todo.drop 32 := by
        rw [hpl, List.length_take]
        by_cases h32 : 32 ≤ todo.length
        · rw [Nat.min_eq_left h32]
        · rw [Nat.min_eq_right (by omega), List.drop_length,
            List.drop_eq_nil_of_le (by omega)]
      have hih := ih ⟨arrive s.now f, fs.flatten ++ rest, s.tx ++ requestFrame 0x21 (todo.take 32)⟩
        (done ++ p) (todo.drop 32) fs ps
        (by
          simp only [List.length_append, List.length_drop]
          rw [hpl, List.length_take] at *
          omega)
        (by simp only [List.length_drop]; omega)
        rfl hfs hps hts
        (fun q hq => hpay q (by simp [hq]))
        (fun b hb => hbuf b (List.mem_of_mem_drop hb))
      rw [hdrop]
      have e1 : done ++ (p ++ todo.drop 32) = (done ++ p) ++ todo.drop 32 := by simp
      have e2 : done.length + p.length = (done ++ p).length := by simp
      rw [e1, e2, hih]
      simp [arrive_append, spiFrames_cons todo ht]

theorem chunks32_facts :
    ∀ (n : Nat) (l : List Nat), l.length = n →
      (chunks32 l).flatten = l ∧ (∀ c ∈ chunks32 l, 1 ≤ c.length ∧ c.length ≤ 32) ∧
      (chunks32 l).length = (l.length + 31) / 32 ∧
      ∀ i, 32 * i < l.length → (chunks32 l)[i]? = some ((l.drop (32 * i)).take 32) := by
  intro n
  induction n using Nat.strong_induction_on with
  | _ n ih =>
    intro l hl
    by_cases hne : l = []
    · subst hne
      simp [chunks32_nil]
    · have hpos : 0 < l.length := List.length_pos.mpr hne
      obtain ⟨h1, h2, h3, h4⟩ := ih (l.drop 32).length
        (by simp only [List.length_drop]; omega) (l.drop 32) rfl
      rw [chunks32_cons l hne]
      refine ⟨?_, ?_, ?_, ?_⟩
      · rw [List.flatten_cons, h1, List.take_append_drop]
      · intro c hc
        rcases List.mem_cons.mp hc with rfl | hc
        · rw [List.length_take]
          omega
        · exact h2 c hc
      · simp only [List.length_cons, h3, List.length_drop]
        omega
      · intro i hi
        cases i with
        | zero => simp
        | succ i =>
          have := h4 i (by simp only [List.length_drop]; omega)
          rw [List.getElem?_cons_succ, this, List.drop_drop]
          congr 3
          omega

/-- C14: when the co-processor answers every chunk with a valid response frame of the
chunk's length, each reply arriving in time, `spiTransfer(buffer, len)` returns having sent
exactly one `0x21` frame per chunk, `ceil(len / 32)` frames, the `i`-th carrying the original
bytes `[32 i, min(32 i + 32, len))`, and the buffer afterwards is the concatenation, in order,
of the response payloads; for `len = 0` nothing is sent. -/
theorem spiTransfer_answered (s : HardwareSerial) (buffer : List Nat)
    (replies : List (List (Nat × Nat))) (payloads : List (List Nat)) (rest : List (Nat × Nat))
    (hrx : s.rx = replies.flatten ++ rest)
    (hshape : List.Forall₂ validReply replies payloads)
    (hsizes : payloads.map List.length = (chunks32 buffer).map List.length)
    (htime : answered s.now replies)
    (hpay : ∀ p ∈ payloads, ∀ b ∈ p, b < 256) (hbuf : ∀ b ∈ buffer, b < 256) :
    (∃ s', spiTransfer s buffer buffer.length = some (s', payloads.flatten) ∧
        s'.tx = s.tx ++ ((chunks32 buffer).map (requestFrame 0x21)).flatten ∧ s'.rx = rest) ∧
      (chunks32 buffer).length = (buffer.length + 31) / 32 ∧
      (∀ i, 32 * i < buffer.length →
        (chunks32 buffer)[i]? = some ((buffer.drop (32 * i)).take 32)) ∧
      (chunks32 buffer).flatten = buffer ∧
      (∀ c ∈ chunks32 buffer, 1 ≤ c.length ∧ c.length ≤ 32) ∧
      ∀ s0 : HardwareSerial, spiTransfer s0 [] 0 = some (s0, []) := by
  obtain ⟨h1, h2, h3, h4⟩ := chunks32_facts buffer.length buffer rfl
  have := spiLoop_answered rest buffer.length buffer.length s [] buffer replies payloads
    (by simp) (Nat.le_refl _) hrx hshape hsizes htime hpay hbuf
  simp only [List.nil_append, List.length_nil] at this
  refine ⟨⟨_, this, rfl, rfl⟩, h3, h4, h1, h2, ?_⟩
  intro s0
  simp [spiTransfer, spiTransferLoop]

set_option maxRecDepth 100000 in
theorem spiTransfer_answered_witness :
    ∃ s', spiTransfer ⟨10, ([0xAA, 32] ++ List.replicate 32 0x05 ++ [32] ++
          [0xAA, 1, 0x77, 0x76]).map (fun b => (12, b)), []⟩ (List.replicate 33 0x01) 33 =
          some (s', List.replicate 32 0x05 ++ [0x77]) ∧
      s'.tx = requestFrame 0x21 (List.replicate 32 0x01) ++ requestFrame 0x21 [0x01] ∧
      s'.rx = [] := by
  have h := (spiTransfer_answered ⟨10, ([0xAA, 32] ++ List.replicate 32 0x05 ++ [32] ++
      [0xAA, 1, 0x77, 0x76]).map (fun b => (12, b)), []⟩ (List.replicate 33 0x01)
    [([0xAA, 32] ++ List.replicate 32 0x05 ++ [32]).map (fun b => (12, b)),
      [0xAA, 1, 0x77, 0x76].map (fun b => (12, b))]
    [List.replicate 32 0x05, [0x77]] [] (by decide)
    (.cons ⟨[], by simp, by decide⟩ (.cons ⟨[], by simp, by decide⟩ .nil))
    (by simp [chunks32]) ⟨by decide, by decide, trivial⟩ (by decide) (by decide)).1
  obtain ⟨s', h1, h2, h3⟩ := h
  refine ⟨s', ?_, ?_, h3⟩
  · simpa using h1
  · rw [h2]
    simp [chunks32]

theorem spiLoop_fail_step (len fuel : Nat) (s : HardwareSerial) (done todo : List Nat)
    (hlen : len = done.length + todo.length) (hne : todo ≠ [])
    (hb : ∀ b ∈ todo, b < 256)
    (hfail : (_readResponse ⟨s.now, s.rx, s.tx ++ requestFrame 0x21 (todo.take 32)⟩ todo
      (todo.take 32).length).map (·.1) = some false) :
    ∃ s' buffer', spiTransferLoop len (fuel + 1) s (done ++ todo) done.length =
        some (s', buffer') ∧
      s'.tx = s.tx ++ requestFrame 0x21 (todo.take 32) ∧
      buffer'.take done.length = done ∧
      buffer'.drop (done.length + 32) = todo.drop 32 ∧ buffer'.length = len := by
  rw [spiLoop_step len fuel s done todo hlen hne, sendPacket_spi s todo hb]
  obtain ⟨ok, s2, buf2, he, htx, -, -, -, hl⟩ := readResponse_returns
    ⟨s.now, s.rx, s.tx ++ requestFrame 0x21 (todo.take 32)⟩ todo (todo.take 32).length
  obtain ⟨htail, -⟩ := readResponse_tail _ _ _ _ he
  rw [he] at hfail
  simp only [Option.map_some', Option.some.injEq] at hfail
  subst hfail
  rw [he]
  simp only at htail hl htx
  refine ⟨s2, done ++ buf2, by simp, htx, by simp, ?_, by simp [hl, hlen]⟩
  rw [List.drop_append_eq_append_drop]
  simp only [List.drop_eq_nil_of_le (Nat.le_add_right _ _), List.nil_append,
    Nat.add_sub_cancel_left]
  by_cases h32 : 32 ≤ todo.length
  · rw [List.length_take, Nat.min_eq_left h32] at htail
    exact htail
  · rw [List.drop_eq_nil_of_le (by omega), List.drop_eq_nil_of_le (by omega)]

theorem spiLoop_fails (rest : List (Nat × Nat)) (len : Nat) :
    ∀ (payloads : List (List Nat)) (fuel : Nat) (s : HardwareSerial) (done todo : List Nat)
      (replies : List (List (Nat × Nat))),
      len = done.length + todo.length → todo.length ≤ fuel →
      s.rx = replies.flatten ++ rest →
      List.Forall₂ validReply replies payloads →
      (∀ p ∈ payloads, p.length = 32) → 32 * payloads.length < todo.length →
      answered s.now replies →
      (∀ p ∈ payloads, ∀ b ∈ p, b < 256) → (∀ b ∈ todo, b < 256) →
      (_readResponse ⟨arrive s.now replies.flatten, rest,
          s.tx ++ spiFrames (todo.take (32 * (payloads.length + 1)))⟩
        (todo.drop (32 * payloads.length))
        ((todo.drop (32 * payloads.length)).take 32).length).map (·.1) = some false →
      ∃ s' buffer', spiTransferLoop len fuel s (done ++ todo) done.length =
          some (s', buffer') ∧
        s'.tx = s.tx ++ spiFrames (todo.take (32 * (payloads.length + 1))) ∧
        buffer'.take (done.length + 32 * payloads.length) = done ++ payloads.flatten ∧
        buffer'.drop (done.length + 32 * (payloads.length + 1)) =
          todo.drop (32 * (payloads.length + 1)) ∧
        buffer'.length = len := by
  intro payloads
  induction payloads with
  | nil =>
    intro fuel s done todo replies hlen hf hrx hshape _ hk _ _ hbuf hfail
    cases hshape
    simp only [List.length_nil, Nat.mul_zero] at hk
    have hne : todo ≠ [] := List.length_pos.mp hk
    have hne32 : todo.take 32 ≠ [] := by
      intro h
      have := congrArg List.length h
      rw [List.length_take, List.length_nil] at this
      omega
    have hsf : spiFrames (todo.take 32) = requestFrame 0x21 (todo.take 32) := by
      rw [spiFrames_cons _ hne32, List.take_take, List.drop_take]
      simp [spiFrames_nil]
    simp only [List.flatten_nil, List.nil_append, List.length_nil, Nat.mul_zero, Nat.zero_add,
      Nat.mul_one, List.drop_zero, arrive, hsf, Nat.add_zero, List.append_nil] at hfail hrx ⊢
    cases fuel with
    | zero => omega
    | succ fuel =>
      rw [← hrx] at hfail
      exact spiLoop_fail_step len fuel s done todo hlen hne hbuf hfail
  | cons p ps ih =>
    intro fuel s done todo replies hlen hf hrx hshape h32 hk htime hpay hbuf hfail
    match replies, hshape with
    | f :: fs, .cons ⟨noise, hnoise, hf0⟩ hfs =>
    obtain ⟨ht0, hts⟩ := htime
    have hpl : p.length = 32 := h32 p (by simp)
    simp only [List.length_cons] at hk hfail ⊢
    have hne : todo ≠ [] := List.length_pos.mp (by omega)
    have htk : (todo.take 32).length = p.length := by
      rw [List.length_take, hpl]
      omega
    cases fuel with
    | zero => omega
    | succ fuel =>
      rw [spiLoop_step len fuel s done todo hlen hne, sendPacket_spi s todo hbuf, htk]
      have hacc := readResponse_accepts_at
        ({ s with tx := s.tx ++ requestFrame 0x21 (todo.take 32) } : HardwareSerial) f
        (fs.flatten ++ rest) noise p todo
        (by simp only [hrx, List.flatten_cons, List.append_assoc])
        (by rw [hf0]; simp [responseFrame])
        ht0 hnoise (hpay p (by simp)) (by omega) (by omega)
      rw [hacc]
      simp only [Option.bind, Bool.not_true, Bool.false_eq_true, if_false]
      have hsf : spiFrames (todo.take (32 * (ps.length + 1 + 1))) =
          requestFrame 0x21 (todo.take 32) ++
            spiFrames ((todo.drop 32).take (32 * (ps.length + 1))) := by
        have hne2 : todo.take (32 * (ps.length + 1 + 1)) ≠ [] := by
          intro h
          have := congrArg List.length h
          rw [List.length_take, List.length_nil] at this
          omega
        rw [spiFrames_cons _ hne2, List.take_take, List.drop_take,
          Nat.min_eq_left (by omega)]
        congr 3
      have hih := ih fuel
        ⟨arrive s.now f, fs.flatten ++ rest, s.tx ++ requestFrame 0x21 (todo.take 32)⟩
        (done ++ p) (todo.drop 32) fs
        (by simp only [List.length_append, List.length_drop]; omega)
        (by simp only [List.length_drop]; omega)
        rfl hfs (fun q hq => h32 q (by simp [hq]))
        (by simp only [List.length_drop]; omega) hts
        (fun q hq => hpay q (by simp [hq]))
        (fun b hb => hbuf b (List.mem_of_mem_drop hb))
        (by
          simp only [List.flatten_cons, arrive_append, hsf, List.append_assoc] at hfail ⊢
          rw [List.drop_drop]
          have e : 32 + 32 * ps.length = 32 * (ps.length + 1) := by omega
          rw [e]
          exact hfail)
      obtain ⟨s', buffer', he, htx, htake, hdrop, hl⟩ := hih
      have e1 : done ++ (p ++ todo.drop p.length) = (done ++ p) ++ todo.drop 32 := by
        simp [hpl]
      have e2 : done.length + p.length = (done ++ p).length := by simp
      rw [e1, e2, he]
      refine ⟨s', buffer', rfl, ?_, ?_, ?_, hl⟩
      · rw [htx, hsf]
        simp
      · simp only [List.length_append, hpl] at htake
        have e : done.length + 32 * (ps.length + 1) = done.length + 32 + 32 * ps.length := by
          omega
        rw [e, htake]
        simp
      · simp only [List.length_append, hpl, List.drop_drop] at hdrop
        have e : done.length + 32 * (ps.length + 1 + 1) =
            done.length + 32 + 32 * (ps.length + 1) := by omega
        have e' : 32 * (ps.length + 1 + 1) = 32 + 32 * (ps.length + 1) := by omega
        rw [e, hdrop, e']

theorem chunks32_take : ∀ (k : Nat) (l : List Nat),
    chunks32 (l.take (32 * (k + 1))) = (chunks32 l).take (k + 1) := by
  intro k
  induction k with
  | zero =>
    intro l
    by_cases hne : l = []
    · subst hne
      simp [chunks32_nil]
    · have hne2 : l.take (32 * (0 + 1)) ≠ [] := by
        intro h
        have := congrArg List.length h
        have hpos : 0 < l.length := List.length_pos.mpr hne
        rw [List.length_take, List.length_nil] at this
        omega
      rw [chunks32_cons _ hne2, chunks32_cons l hne, List.take_take, List.drop_take]
      simp [chunks32_nil]
  | succ k ih =>
    intro l
    by_cases hne : l = []
    · subst hne
      simp [chunks32_nil]
    · have hne2 : l.take (32 * (k + 1 + 1)) ≠ [] := by
        intro h
        have := congrArg List.length h
        have hpos : 0 < l.length := List.length_pos.mpr hne
        rw [List.length_take, List.length_nil] at this
        omega
      rw [chunks32_cons _ hne2, chunks32_cons l hne, List.take_take, List.drop_take,
        Nat.min_eq_left (by omega), List.take_succ_cons, ← ih (l.drop 32)]
      congr 3

/-- C15: when the first `k` chunk exchanges of `spiTransfer(buffer, len)` are answered with
valid full-size response frames and the exchange of chunk `k` reports failure, the call
returns having sent the frames of chunks `0..k` only (none for a later chunk), the buffer
regions of the chunks before `k` hold their response payloads, and the bytes of the chunks
after `k` are unchanged. -/
theorem spiTransfer_first_failure (s : HardwareSerial) (buffer : List Nat)
    (replies : List (List (Nat × Nat))) (payloads : List (List Nat)) (rest : List (Nat × Nat))
    (hrx : s.rx = replies.flatten ++ rest)
    (hshape : List.Forall₂ validReply replies payloads)
    (h32 : ∀ p ∈ payloads, p.length = 32) (hk : 32 * payloads.length < buffer.length)
    (htime : answered s.now replies)
    (hpay : ∀ p ∈ payloads, ∀ b ∈ p, b < 256) (hbuf : ∀ b ∈ buffer, b < 256)
    (hfail : (_readResponse ⟨arrive s.now replies.flatten, rest,
          s.tx ++ spiFrames (buffer.take (32 * (payloads.length + 1)))⟩
        (buffer.drop (32 * payloads.length))
        ((buffer.drop (32 * payloads.length)).take 32).length).map (·.1) = some false) :
    ∃ s' buffer', spiTransfer s buffer buffer.length = some (s', buffer') ∧
      s'.tx = s.tx ++
        (((chunks32 buffer).take (payloads.length + 1)).map (requestFrame 0x21)).flatten ∧
      buffer'.take (32 * payloads.length) = payloads.flatten ∧
      buffer'.drop (32 * (payloads.length + 1)) = buffer.drop (32 * (payloads.length + 1)) ∧
      buffer'.length = buffer.length := by
  obtain ⟨s', buffer', he, htx, htake, hdrop, hl⟩ :=
    spiLoop_fails rest buffer.length payloads buffer.length s [] buffer replies
      (by simp) (Nat.le_refl _) hrx hshape h32 hk htime hpay hbuf hfail
  simp only [List.nil_append, List.length_nil, Nat.zero_add] at he htake hdrop
  refine ⟨s', buffer', he, ?_, htake, hdrop, hl⟩
  rw [htx, spiFrames, chunks32_take]

set_option maxRecDepth 100000 in
theorem spiTransfer_first_failure_witness :
    ∃ s' buffer', spiTransfer ⟨10, ([0xAA, 32] ++ List.replicate 32 0x05 ++ [32]).map
          (fun b => (12, b)), []⟩ (List.replicate 40 0x01 ++ [0x02]) 41 = some (s', buffer') ∧
      s'.tx = requestFrame 0x21 (List.replicate 32 0x01) ++
        requestFrame 0x21 (List.replicate 8 0x01 ++ [0x02]) ∧
      buffer'.take 32 = List.replicate 32 0x05 ∧ buffer'.drop 64 = [] ∧
      buffer'.length = 41 := by
  have h := spiTransfer_first_failure ⟨10, ([0xAA, 32] ++ List.replicate 32 0x05 ++ [32]).map
      (fun b => (12, b)), []⟩ (List.replicate 40 0x01 ++ [0x02])
    [([0xAA, 32] ++ List.replicate 32 0x05 ++ [32]).map (fun b => (12, b))]
    [List.replicate 32 0x05] [] (by decide) (.cons ⟨[], by simp, by decide⟩ .nil)
    (by decide) (by decide)
    ⟨by decide, trivial⟩ (by decide) (by decide) (by decide)
  obtain ⟨s', buffer', h1, h2, h3, h4, h5⟩ := h
  refine ⟨s', buffer', ?_, ?_, ?_, ?_, ?_⟩
  · simpa using h1
  · rw [h2]
    simp [chunks32]
  · simpa using h3
  · simpa using h4
  · simpa using h5

theorem xorFold_append (l1 l2 : List Nat) : xorFold (l1 ++ l2) = xorFold l1 ^^^ xorFold l2 := by
  induction l1 with
  | nil => simp [xorFold]
  | cons b l ih => rw [List.cons_append, xorFold_cons, xorFold_cons, ih, Nat.xor_assoc]

theorem xorFold_set_ne (p : List Nat) (i v : Nat) (hi : i < p.length) (hv : v ≠ p[i]) :
    xorFold (p.set i v) ≠ xorFold p := by
  have hp : p = p.take i ++ p[i] :: p.drop (i + 1) := by
    rw [← List.drop_eq_getElem_cons hi, List.take_append_drop]
  have hs : p.set i v = p.take i ++ v :: p.drop (i + 1) := List.set_eq_take_append_cons_drop
    |>.trans (by simp [hi])
  intro h
  rw [hs] at h
  have h0 := h.trans (congrArg xorFold hp)
  rw [xorFold_append, xorFold_append, xorFold_cons, xorFold_cons] at h0
  have h1 := Nat.xor_right_injective h0
  have h2 := Nat.xor_left_injective h1
  exact hv h2

theorem readResponse_crc_at (s : HardwareSerial) (frame rest : List (Nat × Nat))
    (noise q : List Nat) (c : Nat) (buffer : List Nat)
    (hrx : s.rx = frame ++ rest)
    (hbytes : frame.map (·.2) = noise ++ [0xAA, q.length] ++ q ++ [c])
    (htime : ∀ x ∈ frame, x.1 < s.now + _timeout)
    (hnoise : ∀ b ∈ noise, b < 256 ∧ b ≠ 0xAA)
    (hq : ∀ b ∈ q, b < 256) (hc : c < 256) (hlen : q.length ≤ 255) :
    ∃ s' buffer', _readResponse s buffer q.length =
      some (decide (q.length ^^^ xorFold q = c), s', buffer') := by
  obtain ⟨now, rx, tx⟩ := s
  simp only at hrx htime ⊢
  subst hrx
  obtain ⟨fa, fc, rfl, hfa, hfc⟩ := List.map_eq_append_iff.mp hbytes
  obtain ⟨fb, fp, rfl, hfb, hfp⟩ := List.map_eq_append_iff.mp hfa
  obtain ⟨fn, fh, rfl, hfn, hfh⟩ := List.map_eq_append_iff.mp hfb
  subst hfp hfn
  match fh, hfh with
  | [(t1, _), (t2, _)], hfh =>
  match fc, hfc with
  | [(t3, _)], hfc =>
  simp only [List.map_cons, List.map_nil, List.cons.injEq, and_true] at hfh hfc
  obtain ⟨rfl, hl⟩ := hfh
  subst hl
  have hfc2 := hfc.symm
  subst hfc2
  simp only [List.length_map, _timeout] at *
  have hshape : (fn ++ [(t1, 0xAA), (t2, fp.length)] ++ fp ++ [(t3, c)]) ++ rest =
      fn ++ (t1, 0xAA) :: (t2, fp.length) :: (fp ++ (t3, c) :: rest) := by simp
  have hall : ∀ x ∈ fn ++ (t1, 0xAA) :: (t2, fp.length) :: (fp ++ [(t3, c)]),
      x.1 < now + 200 := by
    intro x hx
    exact htime x (by simpa using hx)
  have := readResponse_frame_crc now tx fn fp rest t1 t2 t3 c buffer
    (fun x hx => ⟨hall x (by simp [hx]), by
      have := hnoise x.2 (List.mem_map.mpr ⟨x, hx, rfl⟩)
      omega⟩)
    (fun x hx => ⟨hall x (by simp [hx]), hq x.2 (List.mem_map.mpr ⟨x, hx, rfl⟩)⟩)
    (hall (t1, 0xAA) (by simp)) (hall (t2, fp.length) (by simp))
    (hall (t3, c) (by simp)) hlen hc
  rw [hshape, this]
  exact ⟨_, _, rfl⟩

/-- C30: take a valid response frame `[0xAA, n, p_0 .. p_{n-1}, n XOR fold(p)]` and replace
exactly one payload byte, or the checksum byte, by a different byte value; when the corrupted
frame arrives in time, `_readResponse(buffer, n)` returns `false`. -/
theorem readResponse_detects_single_byte_corruption (s : HardwareSerial)
    (frame rest : List (Nat × Nat)) (noise p q : List Nat) (c : Nat) (buffer : List Nat)
    (hrx : s.rx = frame ++ rest)
    (hbytes : frame.map (·.2) = noise ++ [0xAA, p.length] ++ q ++ [c])
    (htime : ∀ x ∈ frame, x.1 < s.now + _timeout)
    (hnoise : ∀ b ∈ noise, b < 256 ∧ b ≠ 0xAA)
    (hp : ∀ b ∈ p, b < 256) (hlen : p.length ≤ 255)
    (hcorrupt :
      (∃ i v, ∃ hi : i < p.length, v < 256 ∧ v ≠ p[i] ∧ q = p.set i v ∧
          c = p.length ^^^ xorFold p) ∨
        (q = p ∧ c < 256 ∧ c ≠ p.length ^^^ xorFold p)) :
    ∃ s' buffer', _readResponse s buffer p.length = some (false, s', buffer') := by
  have hfp : xorFold p < 256 := xorFold_lt_256 p hp
  rcases hcorrupt with ⟨i, v, hi, hv, hne, rfl, rfl⟩ | ⟨rfl, hc, hne⟩
  · have hlq : (p.set i v).length = p.length := List.length_set ..
    have hq : ∀ b ∈ p.set i v, b < 256 := by
      intro b hb
      rcases List.mem_or_eq_of_mem_set hb with h | h
      · exact hp b h
      · rw [h]; exact hv
    obtain ⟨s', b', e⟩ := readResponse_crc_at s frame rest noise (p.set i v)
      (p.length ^^^ xorFold p) buffer hrx (by rw [hlq]; exact hbytes) htime hnoise hq
      (xor_lt_256 (by omega) hfp) (by rw [hlq]; exact hlen)
    rw [hlq] at e
    have hd : decide (p.length ^^^ xorFold (p.set i v) = p.length ^^^ xorFold p) = false := by
      rw [decide_eq_false_iff_not]
      intro h
      exact xorFold_set_ne p i v hi hne (Nat.xor_right_injective h)
    rw [hd] at e
    exact ⟨s', b', e⟩
  · obtain ⟨s', b', e⟩ := readResponse_crc_at s frame rest noise q c buffer hrx hbytes htime
      hnoise hp hc hlen
    have hd : decide (q.length ^^^ xorFold q = c) = false := by
      rw [decide_eq_false_iff_not]
      exact fun h => hne h.symm
    rw [hd] at e
    exact ⟨s', b', e⟩

theorem readResponse_detects_single_byte_corruption_witness :
    ∃ s' buffer', _readResponse
      ⟨0, [(1, 0xAA), (1, 2), (2, 0x12), (2, 0x35), (3, 0x24)], []⟩ [0, 0]
        ([0x12, 0x34] : List Nat).length = some (false, s', buffer') :=
  readResponse_detects_single_byte_corruption
    ⟨0, [(1, 0xAA), (1, 2), (2, 0x12), (2, 0x35), (3, 0x24)], []⟩
    [(1, 0xAA), (1, 2), (2, 0x12), (2, 0x35), (3, 0x24)] [] [] [0x12, 0x34] [0x12, 0x35] 0x24
    [0, 0] rfl (by decide) (by decide) (by simp) (by decide) (by decide)
    (Or.inl ⟨1, 0x35, by decide, by decide, by decide, by decide, by decide⟩)

theorem spiLoop_frames (len : Nat) :
    ∀ (fuel : Nat) (s : HardwareSerial) (done todo : List Nat),
      len = done.length + todo.length → todo.length ≤ fuel → (∀ b ∈ todo, b < 256) →
      ∃ k s' buffer', spiTransferLoop len fuel s (done ++ todo) done.length =
          some (s', buffer') ∧ k ≤ (chunks32 todo).length ∧
        s'.tx = s.tx ++ (((chunks32 todo).take k).map (requestFrame 0x21)).flatten := by
  intro fuel
  induction fuel with
  | zero =>
    intro s done todo hlen hf _
    have ht : todo = [] := List.length_eq_zero.mp (by omega)
    subst ht
    exact ⟨0, s, _, spiLoop_done _ _ _ _ _ (by simp at hlen; omega), Nat.zero_le _, by simp⟩
  | succ fuel ih =>
    intro s done todo hlen hf hbuf
    by_cases ht : todo = []
    · subst ht
      exact ⟨0, s, _, spiLoop_done _ _ _ _ _ (by simp at hlen; omega), Nat.zero_le _, by simp⟩
    · have hpos : 0 < todo.length := List.length_pos.mpr ht
      obtain ⟨ok, s1, buf1, e1, htx1, _, _, _, hl1⟩ := readResponse_returns
        ({ s with tx := s.tx ++ requestFrame 0x21 (todo.take 32) } : HardwareSerial) todo
        (todo.take 32).length
      obtain ⟨htail, _⟩ := readResponse_tail _ _ _ _ e1
      simp only at htail htx1
      rw [spiLoop_step len fuel s done todo hlen ht, sendPacket_spi s todo hbuf, e1]
      rw [chunks32_cons todo ht]
      cases ok with
      | false =>
        refine ⟨1, s1, done ++ buf1, by simp, by simp, ?_⟩
        rw [htx1]
        simp
      | true =>
        have hc : (todo.take 32).length ≤ todo.length := by simp
        have hdrop : todo.drop (todo.take 32).length = todo.drop 32 := by
          rw [List.length_take]
          by_cases h32 : 32 ≤ todo.length
          · rw [Nat.min_eq_left h32]
          · rw [Nat.min_eq_right (by omega), List.drop_length,
              List.drop_eq_nil_of_le (by omega)]
        have hsplit : buf1 = buf1.take (todo.take 32).length ++ todo.drop 32 := by
          rw [← hdrop, ← htail, List.take_append_drop]
        have hl2 : (buf1.take (todo.take 32).length).length = (todo.take 32).length := by
          rw [List.length_take, hl1]
          omega
        obtain ⟨k, s', buffer', e, hk, htx⟩ := ih s1
          (done ++ buf1.take (todo.take 32).length) (todo.drop 32)
          (by
            simp only [List.length_append, hl2, List.length_drop]
            rw [List.length_take]
            omega)
          (by simp only [List.length_drop]; omega)
          (fun b hb => hbuf b (List.mem_of_mem_drop hb))
        have e1' : done ++ buf1 =
            (done ++ buf1.take (todo.take 32).length) ++ todo.drop 32 := by
          rw [List.append_assoc, ← hsplit]
        have e2 : done.length + (todo.take 32).length =
            (done ++ buf1.take (todo.take 32).length).length := by
          simp only [List.length_append, hl2]
        refine ⟨k + 1, s', buffer', ?_, by simpa using hk, ?_⟩
        · simp only [Option.bind, Bool.not_true, Bool.false_eq_true, if_false]
          rw [e1', e2]
          exact e
        · rw [htx, htx1]
          simp

/-- C17 (amended): for every argument it accepts (at most 32 data bytes) `i2cWrite` writes one
frame whose payload is the address byte followed by the data, `len + 1` bytes, so its LEN
byte is at most 33 (33 for `len = 32`); with more than 32 data bytes it writes nothing. Every
frame written by `spiTransfer`, whatever the co-processor answers, is the `0x21` frame of one
of the first chunks of the buffer, and carries between 1 and 32 payload bytes. -/
theorem bridge_frames_payload (s : HardwareSerial) (address : Nat) (data buffer : List Nat)
    (haddr : address < 256) (hdata : ∀ b ∈ data, b < 256) (hbuf : ∀ b ∈ buffer, b < 256) :
    (data.length ≤ 32 →
        ∃ ok s', i2cWrite s address data data.length = some (ok, s') ∧
          s'.tx = s.tx ++ requestFrame 0x10 (address :: data) ∧
          (requestFrame 0x10 (address :: data))[2]? = some (data.length + 1) ∧
          data.length + 1 ≤ 33) ∧
      (32 < data.length → i2cWrite s address data data.length = some (false, s)) ∧
      (∃ k s' buffer', spiTransfer s buffer buffer.length = some (s', buffer') ∧
        k ≤ (chunks32 buffer).length ∧
        s'.tx = s.tx ++ (((chunks32 buffer).take k).map (requestFrame 0x21)).flatten) ∧
      ∀ c ∈ chunks32 buffer,
        (requestFrame 0x21 c)[2]? = some c.length ∧ 1 ≤ c.length ∧ c.length ≤ 32 := by
  refine ⟨?_, ?_, ?_, ?_⟩
  · intro hlen
    obtain ⟨ok, s2, buf, _, h, htx⟩ := i2cWrite_spec s address data hlen haddr hdata
    refine ⟨_, s2, h, ?_, by simp [requestFrame], by omega⟩
    rw [htx]
    simp [requestFrame, Nat.add_comm]
  · intro hlen
    simp [i2cWrite, hlen]
  · have := spiLoop_frames buffer.length buffer.length s [] buffer (by simp) (Nat.le_refl _) hbuf
    simpa [spiTransfer] using this
  · intro c hc
    exact ⟨by simp [requestFrame], (chunks32_facts buffer.length buffer rfl).2.1 c hc⟩

theorem bridge_frames_payload_witness :
    (∃ ok s', i2cWrite ⟨0, [], []⟩ 0x3C (List.replicate 32 0x07)
        (List.replicate 32 0x07).length = some (ok, s') ∧
      s'.tx = [] ++ requestFrame 0x10 (0x3C :: List.replicate 32 0x07) ∧
      (requestFrame 0x10 (0x3C :: List.replicate 32 0x07))[2]? =
        some ((List.replicate 32 0x07).length + 1) ∧
      (List.replicate 32 0x07).length + 1 ≤ 33) ∧
    ∃ k s' buffer', spiTransfer ⟨0, [], []⟩ (List.replicate 33 0x01)
        (List.replicate 33 0x01).length = some (s', buffer') ∧
      k ≤ (chunks32 (List.replicate 33 0x01)).length ∧
      s'.tx = [] ++
        (((chunks32 (List.replicate 33 0x01)).take k).map (requestFrame 0x21)).flatten := by
  have h := bridge_frames_payload ⟨0, [], []⟩ 0x3C (List.replicate 32 0x07)
    (List.replicate 33 0x01) (by decide) (by simp) (by simp)
  exact ⟨h.1 (by simp), h.2.2.1⟩

/-! ## Properties of the flash driver -/

theorem split_take (es : List BusEvent) (cur : Option (List BusEvent)) :
    splitTransactions (.take :: es) cur = splitTransactions es cur := by
  cases cur <;> rfl

theorem split_beginTransaction (es : List BusEvent) (cur : Option (List BusEvent)) :
    splitTransactions (.beginTransaction :: es) cur = splitTransactions es cur := by
  cases cur <;> rfl

theorem split_endTransaction (es : List BusEvent) (cur : Option (List BusEvent)) :
    splitTransactions (.endTransaction :: es) cur = splitTransactions es cur := by
  cases cur <;> rfl

theorem split_give (es : List BusEvent) (cur : Option (List BusEvent)) :
    splitTransactions (.give :: es) cur = splitTransactions es cur := by
  cases cur <;> rfl

theorem split_yield (es : List BusEvent) (cur : Option (List BusEvent)) :
    splitTransactions (.yield :: es) cur = splitTransactions es cur := by
  cases cur <;> rfl

theorem split_csLow (es : List BusEvent) (cur : Option (List BusEvent)) :
    splitTransactions (.csLow :: es) cur = splitTransactions es (some []) := by
  cases cur <;> rfl

theorem split_csHigh (es cur : List BusEvent) :
    splitTransactions (.csHigh :: es) (some cur) = cur :: splitTransactions es none := rfl

theorem split_write (b : Nat) (es cur : List BusEvent) :
    splitTransactions (.write b :: es) (some cur) =
      splitTransactions es (some (cur ++ [.write b])) := rfl

theorem split_read (b : Nat) (es cur : List BusEvent) :
    splitTransactions (.read b :: es) (some cur) =
      splitTransactions es (some (cur ++ [.read b])) := rfl

theorem split_transfers_write (bs : List Nat) :
    ∀ (rest cur : List BusEvent),
      splitTransactions (bs.map BusEvent.write ++ rest) (some cur) =
        splitTransactions rest (some (cur ++ bs.map BusEvent.write)) := by
  induction bs with
  | nil => intro rest cur; simp
  | cons b bs ih =>
    intro rest cur
    rw [List.map_cons, List.cons_append, split_write, ih]
    simp

theorem txn_append (evs rest : List BusEvent) :
    txn evs ++ rest =
      .take :: .beginTransaction :: .csLow :: (evs ++ .csHigh :: .endTransaction :: .give :: rest) := by
  simp [txn]

theorem writtenBytes_map_write (bs : List Nat) : writtenBytes (bs.map BusEvent.write) = bs := by
  induction bs with
  | nil => rfl
  | cons b bs ih => simp [writtenBytes, ih]

theorem pagePrograms_txn_writes (bs : List Nat) (rest : List BusEvent) :
    pagePrograms (txn (bs.map BusEvent.write) ++ rest) =
      (asPageProgram (bs.map BusEvent.write)).toList ++ pagePrograms rest := by
  simp only [pagePrograms, transactions]
  rw [txn_append, split_take, split_beginTransaction, split_csLow, split_transfers_write,
    split_csHigh, split_endTransaction, split_give, List.nil_append, List.filterMap_cons]
  cases h : asPageProgram (bs.map BusEvent.write) <;> simp

theorem pagePrograms_poll (r : Nat) (rest : List BusEvent) :
    pagePrograms (txn [.write 0x05, .read r] ++ rest) = pagePrograms rest := by
  simp only [pagePrograms, transactions]
  rw [txn_append, split_take, split_beginTransaction, split_csLow]
  simp only [List.cons_append, List.nil_append]
  rw [split_write, split_read, split_csHigh, split_endTransaction, split_give,
    List.filterMap_cons]
  simp [asPageProgram]

theorem pagePrograms_yield (rest : List BusEvent) :
    pagePrograms (BusEvent.yield :: rest) = pagePrograms rest := by
  simp only [pagePrograms, transactions, split_yield]

theorem pagePrograms_busyPolls (busy : List Nat) (rest : List BusEvent) :
    pagePrograms (busyPolls busy ++ rest) = pagePrograms rest := by
  induction busy with
  | nil => rfl
  | cons b busy ih =>
    simp only [busyPolls, List.append_assoc, List.singleton_append, List.cons_append]
    rw [pagePrograms_poll, pagePrograms_yield, List.nil_append, ih]

theorem isBusy_cons (r : Nat) (rest : List Nat) (tr : List BusEvent) :
    FlashHandler.isBusy ⟨r :: rest, tr⟩ =
      (decide (r % 256 % 2 ≠ 0), ⟨rest, tr ++ txn [.write 0x05, .read (r % 256)]⟩) := by
  simp [FlashHandler.isBusy, SPIBus.startTransaction, SPIBus.spiWrite, SPIBus.spiRead, SPIBus.endTransaction,
    txn, W25Q_CMD_READ_STATUS_1]

theorem waitLoop_ready (r : Nat) (rest : List Nat) (hr : r % 256 % 2 = 0) :
    ∀ (busy : List Nat) (fuel : Nat) (tr : List BusEvent),
      (∀ b ∈ busy, b % 256 % 2 = 1) → busy.length + 1 ≤ fuel →
      FlashHandler.waitLoop fuel ⟨busy ++ r :: rest, tr⟩ =
        some ⟨rest, tr ++ (busyPolls busy ++ txn [.write 0x05, .read (r % 256)])⟩ := by
  intro busy
  induction busy with
  | nil =>
    intro fuel tr _ hf
    cases fuel with
    | zero => omega
    | succ fuel => simp [FlashHandler.waitLoop, isBusy_cons, hr, busyPolls]
  | cons b busy ih =>
    intro fuel tr hb hf
    cases fuel with
    | zero => omega
    | succ fuel =>
      have hb1 : b % 256 % 2 = 1 := hb b (by simp)
      have := ih fuel (tr ++ txn [.write 0x05, .read (b % 256)] ++ [.yield])
        (fun x hx => hb x (by simp [hx])) (by simp at hf; omega)
      simp only [List.cons_append, FlashHandler.waitLoop, isBusy_cons, hb1, SPIBus.vTaskDelay, this,
        busyPolls]
      simp

theorem readyCount_split :
    ∀ (miso : List Nat), 1 ≤ readyCount miso →
      ∃ busy r rest, miso = busy ++ r :: rest ∧ (∀ b ∈ busy, b % 256 % 2 = 1) ∧
        r % 256 % 2 = 0 ∧ readyCount rest + 1 = readyCount miso := by
  intro miso
  induction miso with
  | nil => intro h; simp [readyCount] at h
  | cons x miso ih =>
    intro h
    by_cases hx : x % 256 % 2 = 0
    · exact ⟨[], x, miso, rfl, by simp, hx, by simp [readyCount, hx]⟩
    · have hc : readyCount (x :: miso) = readyCount miso := by simp [readyCount, hx]
      obtain ⟨busy, r, rest, e, hb, hr, hcnt⟩ := ih (by omega)
      refine ⟨x :: busy, r, rest, by simp [e], ?_, hr, by omega⟩
      intro b hb'
      rcases List.mem_cons.mp hb' with rfl | h'
      · omega
      · exact hb b h'

theorem waitForReady_spec (s : SPIBus) (h : 1 ≤ readyCount s.miso) :
    ∃ s' tr, FlashHandler.waitForReady s = some s' ∧ s'.trace = s.trace ++ tr ∧
      (∀ rest, pagePrograms (tr ++ rest) = pagePrograms rest) ∧
      readyCount s'.miso + 1 = readyCount s.miso := by
  obtain ⟨miso, trace⟩ := s
  obtain ⟨busy, r, rest, e, hb, hr, hcnt⟩ := readyCount_split miso h
  subst e
  refine ⟨_, _, waitLoop_ready r rest hr busy _ trace hb (by simp), rfl, ?_, hcnt⟩
  intro more
  rw [List.append_assoc, pagePrograms_busyPolls, pagePrograms_poll]
theorem and_255 (x : Nat) : x &&& 0xFF = x % 256 := by
  have := Nat.and_pow_two_sub_one_eq_mod x 8
  simpa using this

theorem addr_bytes (a : Nat) :
    ((a >>> 16) &&& 0xFF) % 256 * 65536 + ((a >>> 8) &&& 0xFF) % 256 * 256 + (a &&& 0xFF) % 256 =
      a % 16777216 := by
  simp only [and_255, Nat.shiftRight_eq_div_pow]
  omega

theorem sendData_spec (buffer : List Nat) (data_offset : Nat) :
    ∀ (n i : Nat) (s : SPIBus),
      FlashHandler.sendData buffer data_offset n i s =
        ⟨s.miso, s.trace ++ (chunkBytes buffer data_offset n i).map BusEvent.write⟩ := by
  intro n
  induction n with
  | zero => intro i s; simp [FlashHandler.sendData, chunkBytes]
  | succ n ih =>
    intro i s
    rw [FlashHandler.sendData, ih]
    simp [SPIBus.spiWrite, chunkBytes]

theorem writeEnable_spec (s : SPIBus) :
    FlashHandler._writeEnable s = ⟨s.miso, s.trace ++ txn [.write 0x06]⟩ := by
  simp [FlashHandler._writeEnable, SPIBus.startTransaction, SPIBus.spiWrite, SPIBus.endTransaction, txn,
    W25Q_CMD_WRITE_ENABLE]

theorem pageProgram_spec (s : SPIBus) (buffer : List Nat) (cur data_offset n : Nat) :
    (FlashHandler.sendData buffer data_offset n 0
        (FlashHandler._sendAddress ((s.startTransaction).spiWrite W25Q_CMD_PAGE_PROGRAM) cur)).endTransaction =
      ⟨s.miso, s.trace ++ txn (([0x02, ((cur >>> 16) &&& 0xFF) % 256, ((cur >>> 8) &&& 0xFF) % 256,
        (cur &&& 0xFF) % 256] ++ chunkBytes buffer data_offset n 0).map BusEvent.write)⟩ := by
  rw [sendData_spec]
  simp [FlashHandler._sendAddress, SPIBus.startTransaction, SPIBus.spiWrite, SPIBus.endTransaction, txn,
    W25Q_CMD_PAGE_PROGRAM]

theorem asPageProgram_frame (a2 a1 a0 : Nat) (data : List Nat) :
    asPageProgram (([0x02, a2, a1, a0] ++ data).map BusEvent.write) =
      some (a2 * 65536 + a1 * 256 + a0, data) := by
  simp [asPageProgram, writtenBytes_map_write]

theorem pageSplit_pos (cur remaining : Nat) (h : remaining > 0) :
    pageSplit cur remaining =
      (cur, min remaining (256 - cur % 256)) ::
        pageSplit (cur + min remaining (256 - cur % 256))
          (remaining - min remaining (256 - cur % 256)) := by
  rw [pageSplit, dif_pos h]

theorem pageSplit_zero (cur : Nat) : pageSplit cur 0 = [] := by
  rw [pageSplit, dif_neg (by omega)]

theorem writeLoop_spec (buffer : List Nat) :
    ∀ (fuel : Nat) (s : SPIBus) (cur ref data_offset remaining : Nat),
      remaining ≤ fuel → cur = ref % 4294967296 →
      (pageSplit ref remaining).length ≤ readyCount s.miso →
      ∃ s' tr, FlashHandler.writeLoop buffer fuel s cur data_offset remaining = some s' ∧
        s'.trace = s.trace ++ tr ∧
        pagePrograms tr = expectedPrograms buffer (pageSplit ref remaining) data_offset := by
  intro fuel
  induction fuel with
  | zero =>
    intro s cur ref data_offset remaining hf _ _
    have : remaining = 0 := by omega
    subst this
    exact ⟨s, [], by simp [FlashHandler.writeLoop], by simp, by simp [pageSplit_zero, expectedPrograms, pagePrograms, transactions, splitTransactions]⟩
  | succ fuel ih =>
    intro s cur ref data_offset remaining hf hcur hready
    by_cases hrem : remaining > 0
    · rw [pageSplit_pos ref remaining hrem] at hready ⊢
      simp only [List.length_cons] at hready
      obtain ⟨s1, trW, eW, htrW, hppW, hcntW⟩ := waitForReady_spec s (by omega)
      have hsize : (if remaining < (W25Q_PAGE_SIZE - cur % W25Q_PAGE_SIZE % 65536) % 65536
            then remaining else (W25Q_PAGE_SIZE - cur % W25Q_PAGE_SIZE % 65536) % 65536) % 65536 =
          min remaining (256 - ref % 256) := by
        simp only [W25Q_PAGE_SIZE]
        split <;> omega
      obtain ⟨s', tr, e, htr, hpp⟩ := ih
        ⟨s1.miso, s1.trace ++ txn [.write 0x06] ++
          txn (([0x02, ((cur >>> 16) &&& 0xFF) % 256, ((cur >>> 8) &&& 0xFF) % 256,
            (cur &&& 0xFF) % 256] ++
            chunkBytes buffer data_offset (min remaining (256 - ref % 256)) 0).map BusEvent.write)⟩
        ((cur + min remaining (256 - ref % 256)) % 4294967296)
        (ref + min remaining (256 - ref % 256))
        (data_offset + min remaining (256 - ref % 256))
        (remaining - min remaining (256 - ref % 256))
        (by omega) (by omega) (by simp only; omega)
      refine ⟨s', trW ++ (txn ([0x06].map BusEvent.write) ++
        (txn (([0x02, ((cur >>> 16) &&& 0xFF) % 256, ((cur >>> 8) &&& 0xFF) % 256,
            (cur &&& 0xFF) % 256] ++
            chunkBytes buffer data_offset (min remaining (256 - ref % 256)) 0).map BusEvent.write)
          ++ tr)), ?_, ?_, ?_⟩
      · rw [FlashHandler.writeLoop, if_pos hrem, eW]
        simp only [Option.bind, hsize, writeEnable_spec, pageProgram_spec]
        exact e
      · rw [htr, htrW]
        simp [List.append_assoc]
      · rw [hppW, pagePrograms_txn_writes, pagePrograms_txn_writes, asPageProgram_frame, hpp,
          addr_bytes]
        have h24 : cur % 16777216 = ref % 16777216 := by omega
        simp [asPageProgram, expectedPrograms, h24]
    · have : remaining = 0 := by omega
      subst this
      exact ⟨s, [], by simp [FlashHandler.writeLoop], by simp, by simp [pageSplit_zero, expectedPrograms, pagePrograms, transactions, splitTransactions]⟩
theorem chunkBytes_length (buffer : List Nat) (data_offset : Nat) :
    ∀ (n i : Nat), (chunkBytes buffer data_offset n i).length = n := by
  intro n
  induction n with
  | zero => intro i; rfl
  | succ n ih => intro i; simp [chunkBytes, ih]

theorem chunkBytes_eq (buffer : List Nat) (data_offset : Nat) (hb : ∀ b ∈ buffer, b < 256) :
    ∀ (n i : Nat), data_offset + i + n ≤ buffer.length →
      chunkBytes buffer data_offset n i = (buffer.drop (data_offset + i)).take n := by
  intro n
  induction n with
  | zero => intro i _; simp [chunkBytes]
  | succ n ih =>
    intro i h
    have hlt : data_offset + i < buffer.length := by omega
    rw [chunkBytes, ih (i + 1) (by omega), List.drop_eq_getElem_cons hlt, List.take_succ_cons]
    have hget : buffer.getD (data_offset + i) 0 = buffer[data_offset + i] := by
      simp [List.getD, List.getElem?_eq_getElem hlt]
    rw [hget, Nat.mod_eq_of_lt (hb _ (List.getElem_mem _))]
    rfl

theorem expectedPrograms_sizes (buffer : List Nat) :
    ∀ (cs : List (Nat × Nat)) (data_offset : Nat),
      (expectedPrograms buffer cs data_offset).map (fun c => (c.1, c.2.length)) =
        cs.map (fun c => (c.1 % 16777216, c.2)) := by
  intro cs
  induction cs with
  | nil => intro _; rfl
  | cons c cs ih =>
    intro data_offset
    obtain ⟨a, n⟩ := c
    simp [expectedPrograms, chunkBytes_length, ih]

theorem pageSplit_bounds :
    ∀ (remaining cur : Nat), ∀ c ∈ pageSplit cur remaining,
      1 ≤ c.2 ∧ c.1 % 256 + c.2 ≤ 256 ∧ cur ≤ c.1 ∧ c.1 + c.2 ≤ cur + remaining := by
  intro remaining
  induction remaining using Nat.strong_induction_on with
  | _ remaining ih =>
    intro cur c hc
    by_cases hrem : remaining > 0
    · rw [pageSplit_pos cur remaining hrem] at hc
      rcases List.mem_cons.mp hc with rfl | hc
      · simp only
        omega
      · have := ih (remaining - min remaining (256 - cur % 256)) (by omega) _ c hc
        omega
    · have : remaining = 0 := by omega
      subst this
      rw [pageSplit_zero] at hc
      simp at hc

theorem pageSplit_length_le :
    ∀ (remaining cur : Nat), (pageSplit cur remaining).length ≤ remaining := by
  intro remaining
  induction remaining using Nat.strong_induction_on with
  | _ remaining ih =>
    intro cur
    by_cases hrem : remaining > 0
    · rw [pageSplit_pos cur remaining hrem]
      have := ih (remaining - min remaining (256 - cur % 256)) (by omega)
        (cur + min remaining (256 - cur % 256))
      simp only [List.length_cons]
      omega
    · have : remaining = 0 := by omega
      subst this
      simp [pageSplit_zero]

theorem pageSplit_sizes_sum :
    ∀ (remaining cur : Nat), ((pageSplit cur remaining).map (·.2)).sum = remaining := by
  intro remaining
  induction remaining using Nat.strong_induction_on with
  | _ remaining ih =>
    intro cur
    by_cases hrem : remaining > 0
    · rw [pageSplit_pos cur remaining hrem]
      have := ih (remaining - min remaining (256 - cur % 256)) (by omega)
        (cur + min remaining (256 - cur % 256))
      simp only [List.map_cons, List.sum_cons, this]
      omega
    · have : remaining = 0 := by omega
      subst this
      simp [pageSplit_zero]

theorem pageSplit_mod_eq (cur remaining : Nat) (h : cur + remaining ≤ 16777216) :
    (pageSplit cur remaining).map (fun c => (c.1 % 16777216, c.2)) = pageSplit cur remaining := by
  have hb := pageSplit_bounds remaining cur
  have : ∀ c ∈ pageSplit cur remaining, (fun c : Nat × Nat => (c.1 % 16777216, c.2)) c = c := by
    intro c hc
    have := hb c hc
    have h1 : c.1 % 16777216 = c.1 := Nat.mod_eq_of_lt (by omega)
    simp only [h1]
  rw [List.map_congr_left this, List.map_id']

theorem expectedPrograms_chained (buffer : List Nat) (hb : ∀ b ∈ buffer, b < 256) :
    ∀ (remaining cur data_offset : Nat), data_offset + remaining = buffer.length →
      cur + remaining ≤ 16777216 →
      chained cur (expectedPrograms buffer (pageSplit cur remaining) data_offset) ∧
        ((expectedPrograms buffer (pageSplit cur remaining) data_offset).map (·.2)).flatten =
          buffer.drop data_offset := by
  intro remaining
  induction remaining using Nat.strong_induction_on with
  | _ remaining ih =>
    intro cur data_offset hlen h24
    by_cases hrem : remaining > 0
    · rw [pageSplit_pos cur remaining hrem]
      obtain ⟨h1, h2⟩ := ih (remaining - min remaining (256 - cur % 256)) (by omega)
        (cur + min remaining (256 - cur % 256)) (data_offset + min remaining (256 - cur % 256))
        (by omega) (by omega)
      have hchunk := chunkBytes_eq buffer data_offset hb (min remaining (256 - cur % 256)) 0
        (by omega)
      simp only [expectedPrograms, chained, List.map_cons, List.flatten_cons, h2,
        chunkBytes_length, Nat.add_zero] at hchunk ⊢
      refine ⟨⟨Nat.mod_eq_of_lt (by omega), h1⟩, ?_⟩
      rw [hchunk, ← List.drop_drop, List.take_append_drop]
    · have : remaining = 0 := by omega
      subst this
      simp only [pageSplit_zero, expectedPrograms, chained, List.map_nil, List.flatten_nil,
        true_and]
      rw [List.drop_eq_nil_of_le (by omega)]

theorem withAddresses_append (l1 : List Nat) :
    ∀ (a : Nat) (l2 : List Nat),
      withAddresses a (l1 ++ l2) = withAddresses a l1 ++ withAddresses (a + l1.length) l2 := by
  induction l1 with
  | nil => intro a l2; simp [withAddresses]
  | cons b l1 ih =>
    intro a l2
    have h : a + 1 + l1.length = a + (b :: l1).length := by simp; omega
    show (a, b) :: withAddresses (a + 1) (l1 ++ l2) =
      (a, b) :: withAddresses (a + 1) l1 ++ withAddresses (a + (b :: l1).length) l2
    rw [ih, h]
    rfl

theorem programmedBytes_chained :
    ∀ (cs : List (Nat × List Nat)) (a : Nat), chained a cs →
      programmedBytes cs = withAddresses a (cs.map (·.2)).flatten := by
  intro cs
  induction cs with
  | nil => intro a _; rfl
  | cons c cs ih =>
    intro a h
    obtain ⟨h1, h2⟩ := h
    have := ih _ h2
    simp only [programmedBytes, List.flatMap_cons, List.map_cons, List.flatten_cons,
      withAddresses_append] at this ⊢
    rw [this, h1]
theorem write_programs (s : SPIBus) (addr : Nat) (buffer : List Nat) (len : Nat)
    (hready : (pageSplit addr len).length ≤ readyCount s.miso) :
    ∃ s' tr, FlashHandler.write s addr buffer len = some s' ∧ s'.trace = s.trace ++ tr ∧
      pagePrograms tr = expectedPrograms buffer (pageSplit addr len) 0 :=
  writeLoop_spec buffer len s (addr % 4294967296) addr 0 len (Nat.le_refl _) rfl hready

set_option maxRecDepth 100000 in
/-- C4 (refuted as stated): `write(0x1000000, 1 byte)` issues its page program with the address
bytes `00 00 00`, that is at address 0, where the reference split has `(0x1000000, 1)`; and
`write(0xFFFFFFFF, 2 bytes)` issues page programs at `0xFFFFFF` and, the 32-bit address
having wrapped, at `0`, where the reference split has `(0xFFFFFFFF, 1)` and `(0x100000000, 1)`. -/
theorem write_split_differs_beyond_24_bits :
    (FlashHandler.write ⟨[0], []⟩ 0x1000000 [0x5A] 1).map
        (fun s => (pagePrograms s.trace).map (fun c => (c.1, c.2.length))) = some [(0, 1)] ∧
      pageSplit 0x1000000 1 = [(0x1000000, 1)] ∧
      (FlashHandler.write ⟨[0, 0], []⟩ 0xFFFFFFFF [0x5A, 0xA5] 2).map
        (fun s => (pagePrograms s.trace).map (fun c => (c.1, c.2.length))) =
          some [(0xFFFFFF, 1), (0, 1)] ∧
      pageSplit 0xFFFFFFFF 2 = [(0xFFFFFFFF, 1), (0x100000000, 1)] := by
  refine ⟨by decide, by simp [pageSplit], by decide, by simp [pageSplit]⟩

/-- C4 (amended): whenever the chip reports ready for each chunk, `write(addr, buffer, len)`
returns and the page-program commands it issued have the sizes of the reference split and,
as 24-bit bus addresses, the addresses of the reference split modulo 2^24; for
`addr + len <= 2^24` the list of (address, data size) pairs equals the reference split, and
`write(0x0000F0, 300 bytes)` issues exactly the three page programs of sizes 16, 256 and 28 at
`0x0F0`, `0x100` and `0x200`. -/
theorem write_page_split (s : SPIBus) (addr : Nat) (buffer : List Nat) (len : Nat)
    (hready : (pageSplit addr len).length ≤ readyCount s.miso) :
    ∃ s' tr, FlashHandler.write s addr buffer len = some s' ∧ s'.trace = s.trace ++ tr ∧
      (pagePrograms tr).map (fun c => (c.1, c.2.length)) =
        (pageSplit addr len).map (fun c => (c.1 % 16777216, c.2)) ∧
      (addr + len ≤ 16777216 →
        (pagePrograms tr).map (fun c => (c.1, c.2.length)) = pageSplit addr len) ∧
      (addr = 0x0000F0 → len = 300 →
        (pagePrograms tr).map (fun c => (c.1, c.2.length)) =
          [(0x0F0, 16), (0x100, 256), (0x200, 28)]) := by
  obtain ⟨s', tr, e, htr, hpp⟩ := write_programs s addr buffer len hready
  have hmap := expectedPrograms_sizes buffer (pageSplit addr len) 0
  rw [← hpp] at hmap
  refine ⟨s', tr, e, htr, hmap, ?_, ?_⟩
  · intro h24
    rw [hmap, pageSplit_mod_eq addr len h24]
  · intro ha hl
    subst ha hl
    rw [hmap]
    simp [pageSplit]

theorem write_page_split_witness :
    ∃ s' tr, FlashHandler.write ⟨[1, 0xFF, 0, 0, 3, 0], []⟩ 0x0000F0 (List.replicate 300 0xEE) 300 =
        some s' ∧ s'.trace = [] ++ tr ∧
      (pagePrograms tr).map (fun c => (c.1, c.2.length)) =
        [(0x0F0, 16), (0x100, 256), (0x200, 28)] := by
  obtain ⟨s', tr, e, htr, _, _, h⟩ :=
    write_page_split ⟨[1, 0xFF, 0, 0, 3, 0], []⟩ 0x0000F0 (List.replicate 300 0xEE) 300
      (by simp [pageSplit, readyCount])
  exact ⟨s', tr, e, htr, h rfl rfl⟩

/-- C5: whenever the chip reports ready for each chunk, `write(addr, buffer, len)` returns and
every page-program command it issued carries at least one data byte and stays inside the
256-byte page of its address: `(a mod 256) + n <= 256`. -/
theorem write_within_page (s : SPIBus) (addr : Nat) (buffer : List Nat) (len : Nat)
    (hready : (pageSplit addr len).length ≤ readyCount s.miso) :
    ∃ s' tr, FlashHandler.write s addr buffer len = some s' ∧ s'.trace = s.trace ++ tr ∧
      ∀ c ∈ pagePrograms tr, 1 ≤ c.2.length ∧ c.1 % 256 + c.2.length ≤ 256 := by
  obtain ⟨s', tr, e, htr, hpp⟩ := write_programs s addr buffer len hready
  have hmap := expectedPrograms_sizes buffer (pageSplit addr len) 0
  rw [← hpp] at hmap
  refine ⟨s', tr, e, htr, ?_⟩
  intro c hc
  have hmem : (c.1, c.2.length) ∈ (pagePrograms tr).map (fun c => (c.1, c.2.length)) :=
    List.mem_map.mpr ⟨c, hc, rfl⟩
  rw [hmap] at hmem
  obtain ⟨r, hr, heq⟩ := List.mem_map.mp hmem
  have hb := pageSplit_bounds len addr r hr
  simp only [Prod.mk.injEq] at heq
  obtain ⟨h1, h2⟩ := heq
  rw [← h1, ← h2]
  omega

theorem write_within_page_witness :
    ∃ s' tr, FlashHandler.write ⟨[1, 0, 0], []⟩ 0xFE [1, 2, 3, 4] 4 = some s' ∧
      s'.trace = [] ++ tr ∧
      ∀ c ∈ pagePrograms tr, 1 ≤ c.2.length ∧ c.1 % 256 + c.2.length ≤ 256 :=
  write_within_page ⟨[1, 0, 0], []⟩ 0xFE [1, 2, 3, 4] 4 (by simp [pageSplit, readyCount])

/-- C6: for `addr + len <= 2^24` and a chip that reports ready for each chunk,
`write(addr, buffer, len)` terminates, and its page-program chunks are contiguous starting at
`addr`, their sizes sum to `len`, their data concatenated in order is `buffer[0..len)`, and
the bytes programmed are exactly `buffer[i]` at address `addr + i`, each once and in order;
the loop makes at most `len` iterations. -/
theorem write_linear (s : SPIBus) (addr : Nat) (buffer : List Nat)
    (h24 : addr + buffer.length ≤ 16777216) (hbytes : ∀ b ∈ buffer, b < 256)
    (hready : (pageSplit addr buffer.length).length ≤ readyCount s.miso) :
    ∃ s' tr, FlashHandler.write s addr buffer buffer.length = some s' ∧
      s'.trace = s.trace ++ tr ∧
      chained addr (pagePrograms tr) ∧
      ((pagePrograms tr).map (·.2.length)).sum = buffer.length ∧
      ((pagePrograms tr).map (·.2)).flatten = buffer ∧
      programmedBytes (pagePrograms tr) = withAddresses addr buffer ∧
      (pagePrograms tr).length ≤ buffer.length := by
  obtain ⟨s', tr, e, htr, hpp⟩ := write_programs s addr buffer buffer.length hready
  have hmap := expectedPrograms_sizes buffer (pageSplit addr buffer.length) 0
  obtain ⟨hch, hflat⟩ := expectedPrograms_chained buffer hbytes buffer.length addr 0 (by omega) h24
  rw [← hpp] at hmap hch hflat
  simp only [List.drop_zero] at hflat
  refine ⟨s', tr, e, htr, hch, ?_, hflat, ?_, ?_⟩
  · have h2 : (pagePrograms tr).map (·.2.length) =
        ((pagePrograms tr).map (fun c => (c.1, c.2.length))).map (·.2) := by
      simp [List.map_map]
    rw [h2, hmap, List.map_map]
    have h3 : ((fun x : Nat × Nat => x.2) ∘ fun c : Nat × Nat => (c.1 % 16777216, c.2)) =
        (·.2) := rfl
    rw [h3, pageSplit_sizes_sum]
  · rw [programmedBytes_chained _ addr hch, hflat]
  · have hl := congrArg List.length hmap
    simp only [List.length_map] at hl
    rw [hl]
    exact pageSplit_length_le _ _

theorem write_linear_witness :
    ∃ s' tr, FlashHandler.write ⟨[1, 0, 0], []⟩ 0xFE [1, 2, 3, 4] [1, 2, 3, 4].length = some s' ∧
      s'.trace = [] ++ tr ∧
      chained 0xFE (pagePrograms tr) ∧
      ((pagePrograms tr).map (·.2.length)).sum = [1, 2, 3, 4].length ∧
      ((pagePrograms tr).map (·.2)).flatten = [1, 2, 3, 4] ∧
      programmedBytes (pagePrograms tr) = withAddresses 0xFE [1, 2, 3, 4] ∧
      (pagePrograms tr).length ≤ [1, 2, 3, 4].length :=
  write_linear ⟨[1, 0, 0], []⟩ 0xFE [1, 2, 3, 4] (by decide) (by decide)
    (by simp [pageSplit, readyCount])

theorem transactions_poll (r : Nat) (rest : List BusEvent) :
    transactions (txn [.write 0x05, .read r] ++ rest) =
      [.write 0x05, .read r] :: transactions rest := by
  simp only [transactions]
  rw [txn_append, split_take, split_beginTransaction, split_csLow]
  simp only [List.cons_append, List.nil_append]
  rw [split_write, split_read, split_csHigh, split_endTransaction, split_give]
  rfl

theorem transactions_yield (rest : List BusEvent) :
    transactions (BusEvent.yield :: rest) = transactions rest := by
  simp only [transactions, split_yield]

theorem transactions_busyPolls (busy : List Nat) (rest : List BusEvent) :
    transactions (busyPolls busy ++ rest) =
      busy.map (fun b => [BusEvent.write 0x05, BusEvent.read (b % 256)]) ++
        transactions rest := by
  induction busy with
  | nil => rfl
  | cons b busy ih =>
    simp only [busyPolls, List.append_assoc, List.singleton_append, List.cons_append]
    rw [transactions_poll, transactions_yield, List.nil_append, ih]
    rfl

theorem isBusy_nil (tr : List BusEvent) :
    FlashHandler.isBusy ⟨[], tr⟩ = (true, ⟨[], tr ++ txn [.write 0x05, .read 0xFF]⟩) := by
  simp [FlashHandler.isBusy, SPIBus.startTransaction, SPIBus.spiWrite, SPIBus.spiRead,
    SPIBus.endTransaction, txn, W25Q_CMD_READ_STATUS_1]

theorem waitLoop_all_busy :
    ∀ (fuel : Nat) (miso : List Nat) (tr : List BusEvent), (∀ b ∈ miso, b % 256 % 2 = 1) →
      FlashHandler.waitLoop fuel ⟨miso, tr⟩ = none := by
  intro fuel
  induction fuel with
  | zero => intro miso tr _; rfl
  | succ fuel ih =>
    intro miso tr hb
    cases miso with
    | nil =>
      simp only [FlashHandler.waitLoop, isBusy_nil, if_true, SPIBus.vTaskDelay]
      exact ih [] _ (by simp)
    | cons b miso =>
      have hb1 : b % 256 % 2 = 1 := hb b (by simp)
      simp only [FlashHandler.waitLoop, isBusy_cons, hb1, SPIBus.vTaskDelay]
      simp only [ne_eq, Nat.succ_ne_zero, not_false_eq_true, decide_True, if_true]
      exact ih miso _ (fun x hx => hb x (by simp [hx]))

theorem waitForReady_returns_ready (s s2 : SPIBus) (h : FlashHandler.waitForReady s = some s2) :
    ∃ busy r rest, s.miso = busy ++ r :: rest ∧ (∀ b ∈ busy, b % 256 % 2 = 1) ∧
      r % 256 % 2 = 0 ∧
      s2 = ⟨rest, s.trace ++ (busyPolls busy ++ txn [.write 0x05, .read (r % 256)])⟩ := by
  obtain ⟨miso, trace⟩ := s
  by_cases hc : 1 ≤ readyCount miso
  · obtain ⟨busy, r, rest, e, hb, hr, _⟩ := readyCount_split miso hc
    subst e
    have := waitLoop_ready r rest hr busy ((busy ++ r :: rest).length + 1) trace hb (by simp)
    simp only [FlashHandler.waitForReady] at h
    rw [this] at h
    exact ⟨busy, r, rest, rfl, hb, hr, (Option.some.inj h).symm⟩
  · have hall : ∀ b ∈ miso, b % 256 % 2 = 1 := by
      intro b hb
      by_contra hne
      have : b ∈ miso.filter (fun r => r % 256 % 2 = 0) := by
        simp only [List.mem_filter, decide_eq_true_eq]
        exact ⟨hb, by omega⟩
      have hpos := List.length_pos_of_mem this
      simp only [readyCount] at hc
      omega
    simp only [FlashHandler.waitForReady] at h
    rw [waitLoop_all_busy _ miso trace hall] at h
    exact absurd h (by simp)

theorem transactions_wait (busy : List Nat) (r : Nat) :
    transactions (busyPolls busy ++ txn [.write 0x05, .read r]) =
      busy.map (fun b => [BusEvent.write 0x05, BusEvent.read (b % 256)]) ++
        [[.write 0x05, .read r]] := by
  have := transactions_poll r []
  rw [List.append_nil] at this
  rw [transactions_busyPolls, this]
  rfl

theorem statusReads_wait (busy : List Nat) (r : Nat) :
    statusReads (busyPolls busy ++ txn [.write 0x05, .read r]) =
      busy.map (· % 256) ++ [r] := by
  simp only [statusReads, transactions_wait, List.filterMap_append, List.filterMap_map]
  congr 1
  induction busy with
  | nil => rfl
  | cons b busy ih => simp [List.filterMap_cons, asStatusRead, ih]

theorem count_yield_busyPolls (busy : List Nat) :
    (busyPolls busy).count BusEvent.yield = busy.length := by
  induction busy with
  | nil => rfl
  | cons b busy ih =>
    simp only [busyPolls, List.count_append, ih, List.length_cons]
    simp [txn]
    omega

/-- C20: when the `k`-th status reading (counted from 0) is the first with bit 0 (WIP) clear,
`waitForReady` returns after exactly the `k + 1` status polls that read the first `k + 1`
readings, with a yield after each of the `k` busy ones, and makes no other transaction.
Whenever `waitForReady` returns, the last status reading has WIP clear. A reading of `0xFF`
is busy. -/
theorem waitForReady_first_ready (miso : List Nat) (trace : List BusEvent) (k r : Nat)
    (hk : miso[k]? = some r) (hr : r % 2 = 0) (hbusy : ∀ b ∈ miso.take k, b % 2 = 1) :
    (∃ s' tr, FlashHandler.waitForReady ⟨miso, trace⟩ = some s' ∧ s'.trace = trace ++ tr ∧
        s'.miso = miso.drop (k + 1) ∧
        transactions tr =
          (miso.take (k + 1)).map (fun b => [BusEvent.write 0x05, BusEvent.read (b % 256)]) ∧
        statusReads tr = (miso.take (k + 1)).map (· % 256) ∧
        (statusReads tr).length = k + 1 ∧
        tr.count BusEvent.yield = k) ∧
      (∀ s s2, FlashHandler.waitForReady s = some s2 →
        ∃ tr2 last, s2.trace = s.trace ++ tr2 ∧ (statusReads tr2).getLast? = some last ∧
          last % 2 = 0) ∧
      ∀ rest tr0, (FlashHandler.isBusy ⟨0xFF :: rest, tr0⟩).1 = true := by
  have hlt : k < miso.length := by
    rcases Nat.lt_or_ge k miso.length with h | h
    · exact h
    · rw [List.getElem?_eq_none h] at hk
      exact absurd hk (by simp)
  have hget : miso[k] = r := by
    rw [List.getElem?_eq_getElem hlt] at hk
    exact Option.some.inj hk
  have hsplit : miso = miso.take k ++ r :: miso.drop (k + 1) := by
    rw [← hget, ← List.drop_eq_getElem_cons hlt, List.take_append_drop]
  have htake : miso.take (k + 1) = miso.take k ++ [r] := by
    rw [List.take_succ, hk]
    rfl
  have hlen : (miso.take k).length = k := by
    rw [List.length_take]
    omega
  have hb : ∀ b ∈ miso.take k, b % 256 % 2 = 1 := by
    intro b h
    have := hbusy b h
    omega
  have hr2 : r % 256 % 2 = 0 := by omega
  refine ⟨?_, ?_, ?_⟩
  · have hw := waitLoop_ready r (miso.drop (k + 1)) hr2 (miso.take k) (miso.length + 1) trace hb
      (by omega)
    rw [← hsplit] at hw
    refine ⟨_, _, hw, rfl, rfl, ?_, ?_, ?_, ?_⟩
    · rw [transactions_wait, htake]
      simp
    · rw [statusReads_wait, htake]
      simp
    · rw [statusReads_wait]
      simp [hlen]
      omega
    · rw [List.count_append, count_yield_busyPolls, hlen]
      simp [txn]
  · intro s s2 h
    obtain ⟨busy, r2, rest, _, _, hr2', rfl⟩ := waitForReady_returns_ready s s2 h
    refine ⟨_, r2 % 256, rfl, ?_, hr2'⟩
    rw [statusReads_wait]
    simp
  · intro rest tr0
    rw [isBusy_cons]
    simp

theorem waitForReady_first_ready_witness :
    (∃ s' tr, FlashHandler.waitForReady ⟨[0x03, 0xFF, 0x02, 0x01], []⟩ = some s' ∧
        s'.trace = [] ++ tr ∧
        s'.miso = ([0x03, 0xFF, 0x02, 0x01] : List Nat).drop (2 + 1) ∧
        transactions tr = (([0x03, 0xFF, 0x02, 0x01] : List Nat).take (2 + 1)).map
          (fun b => [BusEvent.write 0x05, BusEvent.read (b % 256)]) ∧
        statusReads tr = (([0x03, 0xFF, 0x02, 0x01] : List Nat).take (2 + 1)).map (· % 256) ∧
        (statusReads tr).length = 2 + 1 ∧
        tr.count BusEvent.yield = 2) ∧
      (∀ s s2, FlashHandler.waitForReady s = some s2 →
        ∃ tr2 last, s2.trace = s.trace ++ tr2 ∧ (statusReads tr2).getLast? = some last ∧
          last % 2 = 0) ∧
      ∀ rest tr0, (FlashHandler.isBusy ⟨0xFF :: rest, tr0⟩).1 = true :=
  waitForReady_first_ready [0x03, 0xFF, 0x02, 0x01] [] 2 0x02 (by decide) (by decide) (by decide)

theorem sendAddress_spec (s : SPIBus) (addr : Nat) :
    FlashHandler._sendAddress s addr =
      ⟨s.miso, s.trace ++ [.write ((addr >>> 16) &&& 0xFF), .write ((addr >>> 8) &&& 0xFF),
        .write (addr &&& 0xFF)]⟩ := by
  have h0 : (addr &&& 0xFF) % 256 = addr &&& 0xFF := by
    rw [and_255]; exact Nat.mod_mod _ _
  have h1 : ((addr >>> 8) &&& 0xFF) % 256 = (addr >>> 8) &&& 0xFF := by
    rw [and_255]; exact Nat.mod_mod _ _
  have h2 : ((addr >>> 16) &&& 0xFF) % 256 = (addr >>> 16) &&& 0xFF := by
    rw [and_255]; exact Nat.mod_mod _ _
  simp [FlashHandler._sendAddress, SPIBus.spiWrite, h0, h1, h2]

/-- C22: `_sendAddress(addr)` emits exactly three bytes, most significant first:
`(addr >> 16) & 0xFF`, `(addr >> 8) & 0xFF`, `addr & 0xFF`; they recombine to
`addr mod 2^24`, which is `addr` itself for `addr < 2^24`. -/
theorem sendAddress_three_bytes (s : SPIBus) (addr : Nat) :
    FlashHandler._sendAddress s addr =
        ⟨s.miso, s.trace ++ [.write ((addr >>> 16) &&& 0xFF), .write ((addr >>> 8) &&& 0xFF),
          .write (addr &&& 0xFF)]⟩ ∧
      (addr >>> 16) &&& 0xFF < 256 ∧ (addr >>> 8) &&& 0xFF < 256 ∧ addr &&& 0xFF < 256 ∧
      ((addr >>> 16) &&& 0xFF) * 65536 + ((addr >>> 8) &&& 0xFF) * 256 + (addr &&& 0xFF) =
        addr % 16777216 ∧
      (addr < 16777216 →
        ((addr >>> 16) &&& 0xFF) * 65536 + ((addr >>> 8) &&& 0xFF) * 256 + (addr &&& 0xFF) =
          addr) := by
  have hsum : ((addr >>> 16) &&& 0xFF) * 65536 + ((addr >>> 8) &&& 0xFF) * 256 +
      (addr &&& 0xFF) = addr % 16777216 := by
    simp only [and_255, Nat.shiftRight_eq_div_pow]
    omega
  refine ⟨sendAddress_spec s addr, ?_, ?_, ?_, hsum, ?_⟩
  · rw [and_255]; omega
  · rw [and_255]; omega
  · rw [and_255]; omega
  · intro h
    rw [hsum, Nat.mod_eq_of_lt h]

theorem sendAddress_three_bytes_witness :
    FlashHandler._sendAddress ⟨[], []⟩ 0x12ABCD =
        ⟨[], [BusEvent.write 0x12, BusEvent.write 0xAB, BusEvent.write 0xCD]⟩ ∧
      ((0x12ABCD >>> 16) &&& 0xFF) * 65536 + ((0x12ABCD >>> 8) &&& 0xFF) * 256 +
        (0x12ABCD &&& 0xFF) = 0x12ABCD := by
  have h := sendAddress_three_bytes ⟨[], []⟩ 0x12ABCD
  exact ⟨by rw [h.1]; decide, h.2.2.2.2.2 (by decide)⟩

theorem be24 (m t c : Nat) (hm : m < 256) (ht : t < 256) (hc : c < 256) :
    (((0 ||| (m <<< 16)) % 4294967296 ||| (t <<< 8)) % 4294967296 ||| c) % 4294967296 =
      m * 65536 + t * 256 + c := by
  have h1 := Nat.mul_add_lt_is_or (i := 16) (b := t * 256) (by norm_num; omega) m
  have h2 := Nat.mul_add_lt_is_or (i := 8) (b := c) (by simpa using hc) (m * 256 + t)
  have e16 : (2 : Nat) ^ 16 = 65536 := by norm_num
  have e8 : (2 : Nat) ^ 8 = 256 := by norm_num
  rw [e16] at h1
  rw [e8] at h2
  have a1 : m <<< 16 = 65536 * m := by rw [Nat.shiftLeft_eq, Nat.mul_comm, e16]
  have a2 : t <<< 8 = t * 256 := by rw [Nat.shiftLeft_eq, e8]
  have a3 : 65536 * m + t * 256 = 256 * (m * 256 + t) := by omega
  have s1 : (0 ||| (m <<< 16)) % 4294967296 = 65536 * m := by
    rw [Nat.zero_or, a1]
    exact Nat.mod_eq_of_lt (by omega)
  have s2 : (65536 * m ||| (t <<< 8)) % 4294967296 = 256 * (m * 256 + t) := by
    rw [a2, ← h1, a3]
    exact Nat.mod_eq_of_lt (by omega)
  rw [s1, s2, ← h2]
  omega

theorem answers_length : ∀ (n : Nat) (miso : List Nat), (answers n miso).length = n := by
  intro n
  induction n with
  | zero => intro miso; rfl
  | succ n ih => intro miso; cases miso <;> simp [answers, ih]

theorem answers_lt : ∀ (n : Nat) (miso : List Nat), ∀ b ∈ answers n miso, b < 256 := by
  intro n
  induction n with
  | zero => intro miso b hb; simp [answers] at hb
  | succ n ih =>
    intro miso b hb
    cases miso with
    | nil =>
      simp only [answers, List.mem_cons] at hb
      rcases hb with rfl | hb
      · norm_num
      · exact ih _ b hb
    | cons x rest =>
      simp only [answers, List.mem_cons] at hb
      rcases hb with rfl | hb
      · omega
      · exact ih _ b hb

theorem getJEDECID_spec (s : SPIBus) :
    ∃ m t c, answers 3 s.miso = [m, t, c] ∧
      FlashHandler.getJEDECID s = (m * 65536 + t * 256 + c,
        ⟨s.miso.drop 3, s.trace ++ txn [.write 0x9F, .read m, .read t, .read c]⟩) := by
  obtain ⟨miso, tr⟩ := s
  rcases miso with _ | ⟨m, _ | ⟨t, _ | ⟨c, rest⟩⟩⟩
  · refine ⟨0xFF, 0xFF, 0xFF, rfl, ?_⟩
    have := be24 0xFF 0xFF 0xFF (by omega) (by omega) (by omega)
    simp only [FlashHandler.getJEDECID, SPIBus.startTransaction, SPIBus.spiWrite,
      SPIBus.spiRead, SPIBus.endTransaction, txn, W25Q_CMD_JEDEC_ID, this]
    simp
  · refine ⟨m % 256, 0xFF, 0xFF, rfl, ?_⟩
    have := be24 (m % 256) 0xFF 0xFF (by omega) (by omega) (by omega)
    simp only [FlashHandler.getJEDECID, SPIBus.startTransaction, SPIBus.spiWrite,
      SPIBus.spiRead, SPIBus.endTransaction, txn, W25Q_CMD_JEDEC_ID, this]
    simp
  · refine ⟨m % 256, t % 256, 0xFF, rfl, ?_⟩
    have := be24 (m % 256) (t % 256) 0xFF (by omega) (by omega) (by omega)
    simp only [FlashHandler.getJEDECID, SPIBus.startTransaction, SPIBus.spiWrite,
      SPIBus.spiRead, SPIBus.endTransaction, txn, W25Q_CMD_JEDEC_ID, this]
    simp
  · refine ⟨m % 256, t % 256, c % 256, rfl, ?_⟩
    have := be24 (m % 256) (t % 256) (c % 256) (by omega) (by omega) (by omega)
    simp only [FlashHandler.getJEDECID, SPIBus.startTransaction, SPIBus.spiWrite,
      SPIBus.spiRead, SPIBus.endTransaction, txn, W25Q_CMD_JEDEC_ID, this]
    simp

/-- C24: `getJEDECID` makes one transaction that sends opcode `0x9F` and reads three bytes
`m, t, c`, and returns `m * 65536 + t * 256 + c`; the result is below 2^24 and each of the
three bytes is recoverable from it; the bytes `0xEF, 0x40, 0x15` give `0xEF4015`. -/
theorem getJEDECID_value (s : SPIBus) :
    (∃ m t c, answers 3 s.miso = [m, t, c] ∧
        (FlashHandler.getJEDECID s).2.trace =
          s.trace ++ txn [.write 0x9F, .read m, .read t, .read c] ∧
        (FlashHandler.getJEDECID s).1 = m * 65536 + t * 256 + c ∧
        (FlashHandler.getJEDECID s).1 < 16777216 ∧
        (FlashHandler.getJEDECID s).1 / 65536 = m ∧
        (FlashHandler.getJEDECID s).1 / 256 % 256 = t ∧
        (FlashHandler.getJEDECID s).1 % 256 = c) ∧
      ∀ rest tr, (FlashHandler.getJEDECID ⟨0xEF :: 0x40 :: 0x15 :: rest, tr⟩).1 = 0xEF4015 := by
  constructor
  · obtain ⟨m, t, c, ha, h⟩ := getJEDECID_spec s
    have hlt := answers_lt 3 s.miso
    rw [ha] at hlt
    have hm := hlt m (by simp)
    have ht := hlt t (by simp)
    have hc := hlt c (by simp)
    refine ⟨m, t, c, ha, ?_, ?_, ?_, ?_, ?_, ?_⟩ <;> rw [h] <;> simp only <;> omega
  · intro rest tr
    obtain ⟨m, t, c, ha, h⟩ := getJEDECID_spec ⟨0xEF :: 0x40 :: 0x15 :: rest, tr⟩
    simp only [answers, List.cons.injEq, and_true] at ha
    obtain ⟨rfl, rfl, rfl⟩ := ha
    rw [h]

theorem set_window (buffer : List Nat) (i b todo : Nat) (X : List Nat)
    (h : i + (todo + 1) ≤ buffer.length) :
    (buffer.set i b).take (i + 1) ++ X ++ (buffer.set i b).drop (i + 1 + todo) =
      buffer.take i ++ (b :: X) ++ buffer.drop (i + (todo + 1)) := by
  have hi : i < buffer.length := by omega
  have hl : (buffer.take i).length = i := by rw [List.length_take]; omega
  rw [List.drop_set_of_lt _ _ (by omega), List.set_eq_take_append_cons_drop, if_pos hi]
  have e : buffer.take i ++ b :: buffer.drop (i + 1) = (buffer.take i ++ [b]) ++ buffer.drop (i + 1) := by
    simp
  have hl2 : (buffer.take i ++ [b]).length = i + 1 := by simp [hl]
  rw [e, ← hl2, List.take_left, hl2]
  simp [Nat.add_assoc, Nat.add_comm 1 todo]

theorem readLoop_spec :
    ∀ (todo i : Nat) (s : SPIBus) (buffer : List Nat), i + todo ≤ buffer.length →
      FlashHandler.readLoop todo i s buffer =
        (⟨s.miso.drop todo, s.trace ++ (answers todo s.miso).map BusEvent.read⟩,
          buffer.take i ++ answers todo s.miso ++ buffer.drop (i + todo)) := by
  intro todo
  induction todo with
  | zero =>
    intro i s buffer _
    simp [FlashHandler.readLoop, answers]
  | succ todo ih =>
    intro i s buffer h
    obtain ⟨miso, tr⟩ := s
    cases miso with
    | nil =>
      rw [FlashHandler.readLoop]
      simp only [SPIBus.spiRead]
      rw [ih _ _ _ (by simp; omega), set_window buffer i _ todo _ h]
      simp [answers]
    | cons x rest =>
      rw [FlashHandler.readLoop]
      simp only [SPIBus.spiRead]
      rw [ih _ _ _ (by simp; omega), set_window buffer i _ todo _ h]
      simp [answers]

theorem split_transfers (evs : List BusEvent) :
    ∀ (rest cur : List BusEvent), (∀ e ∈ evs, e.isTransfer = true) →
      splitTransactions (evs ++ rest) (some cur) =
        splitTransactions rest (some (cur ++ evs)) := by
  induction evs with
  | nil => intro rest cur _; simp
  | cons e evs ih =>
    intro rest cur h
    have he := h e (by simp)
    have ht := ih rest (cur ++ [e]) (fun x hx => h x (by simp [hx]))
    cases e <;> simp [BusEvent.isTransfer] at he
    · rw [List.cons_append, split_write, ht]; simp
    · rw [List.cons_append, split_read, ht]; simp

theorem transactions_txn (evs rest : List BusEvent) (h : ∀ e ∈ evs, e.isTransfer = true) :
    transactions (txn evs ++ rest) = evs :: transactions rest := by
  simp only [transactions]
  rw [txn_append, split_take, split_beginTransaction, split_csLow, split_transfers evs _ _ h,
    split_csHigh, split_endTransaction, split_give, List.nil_append]

theorem transactions_nil : transactions [] = [] := rfl

theorem wait_ready (busy : List Nat) (r : Nat) (rest : List Nat) (tr : List BusEvent)
    (hb : ∀ b ∈ busy, b % 256 % 2 = 1) (hr : r % 256 % 2 = 0) :
    FlashHandler.waitForReady ⟨busy ++ r :: rest, tr⟩ =
      some ⟨rest, tr ++ (busyPolls busy ++ txn [.write 0x05, .read (r % 256)])⟩ :=
  waitLoop_ready r rest hr busy _ tr hb (by simp)

theorem addr_byte2 (addr : Nat) : ((addr % 4294967296) >>> 16) &&& 0xFF = addr / 65536 % 256 := by
  rw [and_255, Nat.shiftRight_eq_div_pow]
  omega

theorem addr_byte1 (addr : Nat) : ((addr % 4294967296) >>> 8) &&& 0xFF = addr / 256 % 256 := by
  rw [and_255, Nat.shiftRight_eq_div_pow]
  omega

theorem addr_byte0 (addr : Nat) : (addr % 4294967296) &&& 0xFF = addr % 256 := by
  rw [and_255]
  omega

theorem read_spec (busy : List Nat) (r : Nat) (rest : List Nat) (tr : List BusEvent)
    (addr : Nat) (buffer : List Nat) (len : Nat)
    (hb : ∀ b ∈ busy, b % 256 % 2 = 1) (hr : r % 256 % 2 = 0) (hbuf : len ≤ buffer.length) :
    FlashHandler.read ⟨busy ++ r :: rest, tr⟩ addr buffer len =
      some (⟨rest.drop len, tr ++ (busyPolls busy ++ txn [.write 0x05, .read (r % 256)] ++
          txn ([.write 0x03, .write (addr / 65536 % 256), .write (addr / 256 % 256),
            .write (addr % 256)] ++ (answers len rest).map BusEvent.read))⟩,
        answers len rest ++ buffer.drop len) := by
  rw [FlashHandler.read, wait_ready busy r rest tr hb hr]
  simp only [Option.map, sendAddress_spec, addr_byte2, addr_byte1, addr_byte0]
  rw [readLoop_spec _ _ _ _ (by simpa using hbuf)]
  simp [SPIBus.startTransaction, SPIBus.spiWrite, SPIBus.endTransaction, txn,
    W25Q_CMD_READ_DATA]

/-- C21: when the status readings are busy `k` times and then ready, `read(addr, buffer, len)`
returns having made, after the status polls, exactly one transaction: opcode `0x03`, the
three address bytes (most significant first), then `len` single-byte reads, whatever `len`
is; the `i`-th byte received is stored in `buffer[i]` for all `i < len`, and the rest of the
buffer is untouched. -/
theorem read_one_transaction (s : SPIBus) (addr : Nat) (buffer : List Nat) (len : Nat)
    (hready : 1 ≤ readyCount s.miso) (hbuf : len ≤ buffer.length) :
    ∃ busy r rest s' buffer' tr,
      s.miso = busy ++ r :: rest ∧ (∀ b ∈ busy, b % 256 % 2 = 1) ∧ r % 256 % 2 = 0 ∧
      FlashHandler.read s addr buffer len = some (s', buffer') ∧ s'.trace = s.trace ++ tr ∧
      tr = busyPolls busy ++ txn [.write 0x05, .read (r % 256)] ++
        txn ([.write 0x03, .write (addr / 65536 % 256), .write (addr / 256 % 256),
          .write (addr % 256)] ++ (answers len rest).map BusEvent.read) ∧
      transactions tr =
        (busy ++ [r]).map (fun b => [BusEvent.write 0x05, BusEvent.read (b % 256)]) ++
          [[.write 0x03, .write (addr / 65536 % 256), .write (addr / 256 % 256),
            .write (addr % 256)] ++ (answers len rest).map BusEvent.read] ∧
      (answers len rest).length = len ∧
      (∀ i, i < len → buffer'[i]? = (answers len rest)[i]?) ∧
      buffer'.drop len = buffer.drop len ∧ s'.miso = rest.drop len := by
  obtain ⟨miso, trace⟩ := s
  obtain ⟨busy, r, rest, e, hb, hr, _⟩ := readyCount_split miso hready
  subst e
  have hal := answers_length len rest
  refine ⟨busy, r, rest, _, _, _, rfl, hb, hr, read_spec busy r rest trace addr buffer len hb hr
    hbuf, rfl, rfl, ?_, hal, ?_, ?_, rfl⟩
  · rw [List.append_assoc, transactions_busyPolls, transactions_poll]
    have := transactions_txn ([.write 0x03, .write (addr / 65536 % 256),
      .write (addr / 256 % 256), .write (addr % 256)] ++ (answers len rest).map BusEvent.read) []
      (by
        intro e he
        simp only [List.mem_append, List.mem_cons, List.mem_map, List.mem_singleton,
          List.not_mem_nil, or_false] at he
        rcases he with (rfl | rfl | rfl | rfl) | ⟨b, _, rfl⟩ <;> rfl)
    rw [List.append_nil] at this
    rw [this]
    simp [transactions_nil]
  · intro i hi
    rw [List.getElem?_append_left (by omega)]
  · rw [List.drop_append_eq_append_drop, hal]
    simp [List.drop_eq_nil_of_le (Nat.le_of_eq hal)]

theorem read_one_transaction_witness :
    ∃ busy r rest s' buffer' tr,
      ([0x03, 0x00, 0x11, 0x22, 0x33] : List Nat) = busy ++ r :: rest ∧
      (∀ b ∈ busy, b % 256 % 2 = 1) ∧ r % 256 % 2 = 0 ∧
      FlashHandler.read ⟨[0x03, 0x00, 0x11, 0x22, 0x33], []⟩ 0x0000FF [0, 0, 0, 9] 3 =
        some (s', buffer') ∧ s'.trace = [] ++ tr ∧
      tr = busyPolls busy ++ txn [.write 0x05, .read (r % 256)] ++
        txn ([.write 0x03, .write (0x0000FF / 65536 % 256), .write (0x0000FF / 256 % 256),
          .write (0x0000FF % 256)] ++ (answers 3 rest).map BusEvent.read) ∧
      transactions tr =
        (busy ++ [r]).map (fun b => [BusEvent.write 0x05, BusEvent.read (b % 256)]) ++
          [[.write 0x03, .write (0x0000FF / 65536 % 256), .write (0x0000FF / 256 % 256),
            .write (0x0000FF % 256)] ++ (answers 3 rest).map BusEvent.read] ∧
      (answers 3 rest).length = 3 ∧
      (∀ i, i < 3 → buffer'[i]? = (answers 3 rest)[i]?) ∧
      buffer'.drop 3 = ([0, 0, 0, 9] : List Nat).drop 3 ∧ s'.miso = rest.drop 3 :=
  read_one_transaction ⟨[0x03, 0x00, 0x11, 0x22, 0x33], []⟩ 0x0000FF [0, 0, 0, 9] 3
    (by simp [readyCount]) (by decide)

theorem eraseSector_spec (busy : List Nat) (r : Nat) (rest : List Nat) (tr : List BusEvent)
    (addr : Nat) (hb : ∀ b ∈ busy, b % 256 % 2 = 1) (hr : r % 256 % 2 = 0) :
    FlashHandler.eraseSector ⟨busy ++ r :: rest, tr⟩ addr =
      some ⟨rest, tr ++ (busyPolls busy ++ txn [.write 0x05, .read (r % 256)] ++
        txn [.write 0x06] ++
        txn [.write 0x20, .write (addr / 65536 % 256), .write (addr / 256 % 256),
          .write (addr % 256)])⟩ := by
  rw [FlashHandler.eraseSector, wait_ready busy r rest tr hb hr]
  simp only [Option.map, writeEnable_spec, sendAddress_spec, addr_byte2, addr_byte1,
    addr_byte0]
  simp [SPIBus.startTransaction, SPIBus.spiWrite, SPIBus.endTransaction, txn,
    W25Q_CMD_SECTOR_ERASE_4K]

theorem eraseChip_spec (busy : List Nat) (r : Nat) (rest : List Nat) (tr : List BusEvent)
    (hb : ∀ b ∈ busy, b % 256 % 2 = 1) (hr : r % 256 % 2 = 0) :
    FlashHandler.eraseChip ⟨busy ++ r :: rest, tr⟩ =
      some ⟨rest, tr ++ (busyPolls busy ++ txn [.write 0x05, .read (r % 256)] ++
        txn [.write 0x06] ++ txn [.write 0xC7])⟩ := by
  rw [FlashHandler.eraseChip, wait_ready busy r rest tr hb hr]
  simp only [Option.map, writeEnable_spec]
  simp [SPIBus.startTransaction, SPIBus.spiWrite, SPIBus.endTransaction, txn,
    W25Q_CMD_CHIP_ERASE]

theorem transactions_wait_then (busy : List Nat) (r : Nat) (t1 t2 : List BusEvent)
    (h1 : ∀ e ∈ t1, e.isTransfer = true) (h2 : ∀ e ∈ t2, e.isTransfer = true) :
    transactions (busyPolls busy ++ txn [.write 0x05, .read (r % 256)] ++ txn t1 ++ txn t2) =
      (busy ++ [r]).map (fun b => [BusEvent.write 0x05, BusEvent.read (b % 256)]) ++
        [t1, t2] := by
  have e2 := transactions_txn t2 [] h2
  rw [List.append_nil] at e2
  rw [List.append_assoc, List.append_assoc, transactions_busyPolls, transactions_poll,
    transactions_txn t1 _ h1, e2]
  simp [transactions_nil]

/-- C23: when the status readings are busy `k` times and then ready, `eraseSector(addr)`
returns having made, after the status polls, the write-enable transaction `[0x06]` and then
the one transaction `[0x20, addr bits 23-16, 15-8, 7-0]`, and `eraseChip()` the transactions
`[0x06]` and `[0xC7]`; the erase transaction is the last thing on the bus, so no status read
follows it: the status reads of the call are the `k + 1` made while waiting. -/
theorem erase_not_awaited (s : SPIBus) (addr : Nat) (hready : 1 ≤ readyCount s.miso) :
    ∃ busy r rest, s.miso = busy ++ r :: rest ∧ (∀ b ∈ busy, b % 256 % 2 = 1) ∧
      r % 256 % 2 = 0 ∧
      (∃ s' tr, FlashHandler.eraseSector s addr = some s' ∧ s'.trace = s.trace ++ tr ∧
        s'.miso = rest ∧
        tr = busyPolls busy ++ txn [.write 0x05, .read (r % 256)] ++ txn [.write 0x06] ++
          txn [.write 0x20, .write (addr / 65536 % 256), .write (addr / 256 % 256),
            .write (addr % 256)] ∧
        transactions tr =
          (busy ++ [r]).map (fun b => [BusEvent.write 0x05, BusEvent.read (b % 256)]) ++
            [[.write 0x06], [.write 0x20, .write (addr / 65536 % 256),
              .write (addr / 256 % 256), .write (addr % 256)]] ∧
        statusReads tr = (busy ++ [r]).map (· % 256)) ∧
      (∃ s' tr, FlashHandler.eraseChip s = some s' ∧ s'.trace = s.trace ++ tr ∧
        s'.miso = rest ∧
        tr = busyPolls busy ++ txn [.write 0x05, .read (r % 256)] ++ txn [.write 0x06] ++
          txn [.write 0xC7] ∧
        transactions tr =
          (busy ++ [r]).map (fun b => [BusEvent.write 0x05, BusEvent.read (b % 256)]) ++
            [[.write 0x06], [.write 0xC7]] ∧
        statusReads tr = (busy ++ [r]).map (· % 256)) := by
  obtain ⟨miso, trace⟩ := s
  obtain ⟨busy, r, rest, e, hb, hr, _⟩ := readyCount_split miso hready
  subst e
  have hsr : ∀ l : List Nat,
      List.filterMap asStatusRead
        (l.map (fun b => [BusEvent.write 0x05, BusEvent.read (b % 256)])) = l.map (· % 256) := by
    intro l
    induction l with
    | nil => rfl
    | cons b l ih => simp [List.filterMap_cons, asStatusRead, ih]
  refine ⟨busy, r, rest, rfl, hb, hr, ⟨_, _, eraseSector_spec busy r rest trace addr hb hr, rfl,
    rfl, rfl, ?_, ?_⟩, ⟨_, _, eraseChip_spec busy r rest trace hb hr, rfl, rfl, rfl, ?_, ?_⟩⟩
  · exact transactions_wait_then busy r _ _ (by simp [BusEvent.isTransfer])
      (by simp [BusEvent.isTransfer])
  · rw [statusReads, transactions_wait_then busy r _ _ (by simp [BusEvent.isTransfer])
      (by simp [BusEvent.isTransfer]), List.filterMap_append, hsr]
    simp [asStatusRead]
  · exact transactions_wait_then busy r _ _ (by simp [BusEvent.isTransfer])
      (by simp [BusEvent.isTransfer])
  · rw [statusReads, transactions_wait_then busy r _ _ (by simp [BusEvent.isTransfer])
      (by simp [BusEvent.isTransfer]), List.filterMap_append, hsr]
    simp [asStatusRead]

theorem erase_not_awaited_witness :
    ∃ busy r rest, ([0x01, 0x00, 0x01] : List Nat) = busy ++ r :: rest ∧ (∀ b ∈ busy, b % 256 % 2 = 1) ∧
      r % 256 % 2 = 0 ∧
      (∃ s' tr, FlashHandler.eraseSector ⟨[0x01, 0x00, 0x01], []⟩ 0x012000 = some s' ∧ s'.trace = [] ++ tr ∧
        s'.miso = rest ∧
        tr = busyPolls busy ++ txn [.write 0x05, .read (r % 256)] ++ txn [.write 0x06] ++
          txn [.write 0x20, .write (0x012000 / 65536 % 256), .write (0x012000 / 256 % 256),
            .write (0x012000 % 256)] ∧
        transactions tr =
          (busy ++ [r]).map (fun b => [BusEvent.write 0x05, BusEvent.read (b % 256)]) ++
            [[.write 0x06], [.write 0x20, .write (0x012000 / 65536 % 256),
              .write (0x012000 / 256 % 256), .write (0x012000 % 256)]] ∧
        statusReads tr = (busy ++ [r]).map (· % 256)) ∧
      (∃ s' tr, FlashHandler.eraseChip ⟨[0x01, 0x00, 0x01], []⟩ = some s' ∧ s'.trace = [] ++ tr ∧
        s'.miso = rest ∧
        tr = busyPolls busy ++ txn [.write 0x05, .read (r % 256)] ++ txn [.write 0x06] ++
          txn [.write 0xC7] ∧
        transactions tr =
          (busy ++ [r]).map (fun b => [BusEvent.write 0x05, BusEvent.read (b % 256)]) ++
            [[.write 0x06], [.write 0xC7]] ∧
        statusReads tr = (busy ++ [r]).map (· % 256)) :=
  erase_not_awaited ⟨[0x01, 0x00, 0x01], []⟩ 0x012000 (by simp [readyCount])

/-- C25: `startTransaction` performs, in this order, take the permit, configure the bus,
drive the chip select low; `endTransaction` performs, in this order, drive the chip select
high, restore the bus configuration, give the permit back. After `startTransaction` the permit
is held and the chip select asserted, after `endTransaction` neither; and if 'chip select
asserted implies permit held' holds before one of them, it holds after each of its steps. -/
theorem transaction_order (s : SPIBus) (h : Holding)
    (hinv : h.selected = true → h.permit = true) :
    s.startTransaction = ⟨s.miso, s.trace ++ [.take, .beginTransaction, .csLow]⟩ ∧
      s.endTransaction = ⟨s.miso, s.trace ++ [.csHigh, .endTransaction, .give]⟩ ∧
      h.after [.take, .beginTransaction, .csLow] = ⟨true, true⟩ ∧
      h.after [.csHigh, .endTransaction, .give] = ⟨false, false⟩ ∧
      (∀ k, (h.after ([BusEvent.take, .beginTransaction, .csLow].take k)).selected = true →
        (h.after ([BusEvent.take, .beginTransaction, .csLow].take k)).permit = true) ∧
      (∀ k, (h.after ([BusEvent.csHigh, .endTransaction, .give].take k)).selected = true →
        (h.after ([BusEvent.csHigh, .endTransaction, .give].take k)).permit = true) := by
  obtain ⟨p, c⟩ := h
  refine ⟨rfl, rfl, rfl, rfl, ?_, ?_⟩
  · intro k
    rcases k with _ | _ | _ | k
    · simpa [Holding.after] using hinv
    · simp [Holding.after, Holding.track]
    · simp [Holding.after, Holding.track]
    · simp [Holding.after, Holding.track]
  · intro k
    rcases k with _ | _ | _ | k
    · simpa [Holding.after] using hinv
    · simp [Holding.after, Holding.track]
    · simp [Holding.after, Holding.track]
    · simp [Holding.after, Holding.track]

theorem transaction_order_witness :
    (SPIBus.startTransaction ⟨[], []⟩).trace = [.take, .beginTransaction, .csLow] ∧
      (SPIBus.endTransaction ⟨[], []⟩).trace = [.csHigh, .endTransaction, .give] ∧
      Holding.free.after [.take, .beginTransaction, .csLow] = ⟨true, true⟩ ∧
      (Holding.free.after ([BusEvent.take, .beginTransaction, .csLow].take 3)).permit = true := by
  have h := transaction_order ⟨[], []⟩ Holding.free (by decide)
  exact ⟨by rw [h.1]; rfl, by rw [h.2.1]; rfl, h.2.2.1, h.2.2.2.2.1 3 (by decide)⟩

theorem begin_keeps (p h : Nat) (g : SPIShared) (hg : g._safety_block_spi = some h) :
    (SPIHandler.begin p g)._safety_block_spi = some h ∧ (SPIHandler.begin p g).heap = g.heap := by
  simp [SPIHandler.begin, hg]

theorem begins_keep (h : Nat) :
    ∀ (pins : List Nat) (g : SPIShared), g._safety_block_spi = some h →
      (pins.foldl (fun g p => SPIHandler.begin p g) g)._safety_block_spi = some h ∧
        (pins.foldl (fun g p => SPIHandler.begin p g) g).heap = g.heap := by
  intro pins
  induction pins with
  | nil => intro g hg; exact ⟨hg, rfl⟩
  | cons p pins ih =>
    intro g hg
    obtain ⟨h1, h2⟩ := begin_keeps p h g hg
    obtain ⟨h3, h4⟩ := ih (SPIHandler.begin p g) h1
    exact ⟨h3, h4.trans h2⟩

/-- C27 (refuted as stated): when the first mutex creation fails (`xSemaphoreCreateMutex()`
returns `NULL`), the handle is still `NULL` after the first `begin()`, and the next `begin()`,
here from the instance on chip-select pin 46, changes it to the mutex it creates. -/
theorem begin_handle_null_after_failed_creation :
    (SPIHandler.begin 5 ⟨none, [none, some 8], []⟩)._safety_block_spi = none ∧
      (SPIHandler.begin 46 (SPIHandler.begin 5 ⟨none, [none, some 8], []⟩))._safety_block_spi =
        some 8 := by
  constructor <;> rfl

/-- C27 (amended): `begin()` calls `xSemaphoreCreateMutex()` only when the handle is `NULL`,
once, and stores its result `r`. When that result is a mutex `h`, every later `begin()`, from
driver instances with any chip-select pins, leaves the very same handle `h` in place and
creates no other mutex; a handle that exists is never replaced. When the creation fails
(`r` is `NULL`) the handle stays `NULL` and the next `begin()` tries again. -/
theorem begin_creates_mutex_once (g : SPIShared) (_cs_pin : Nat) (r : Option Nat)
    (later : List (Option Nat))
    (hnull : g._safety_block_spi = none) (hheap : g.heap = r :: later) :
    (SPIHandler.begin _cs_pin g)._safety_block_spi = r ∧
      (SPIHandler.begin _cs_pin g).heap = later ∧
      (∀ h, r = some h → ∀ pins : List Nat,
        (pins.foldl (fun g p => SPIHandler.begin p g)
          (SPIHandler.begin _cs_pin g))._safety_block_spi = some h ∧
        (pins.foldl (fun g p => SPIHandler.begin p g) (SPIHandler.begin _cs_pin g)).heap =
          later) ∧
      (r = none → ∀ (p : Nat) (r2 : Option Nat) (later2 : List (Option Nat)),
        later = r2 :: later2 →
        (SPIHandler.begin p (SPIHandler.begin _cs_pin g))._safety_block_spi = r2 ∧
        (SPIHandler.begin p (SPIHandler.begin _cs_pin g)).heap = later2) ∧
      ∀ (g0 : SPIShared) (h p : Nat), g0._safety_block_spi = some h →
        (SPIHandler.begin p g0)._safety_block_spi = some h ∧
        (SPIHandler.begin p g0).heap = g0.heap := by
  have h1 : (SPIHandler.begin _cs_pin g)._safety_block_spi = r := by
    simp [SPIHandler.begin, SPIHandler.xSemaphoreCreateMutex, hnull, hheap]
  have h2 : (SPIHandler.begin _cs_pin g).heap = later := by
    simp [SPIHandler.begin, SPIHandler.xSemaphoreCreateMutex, hnull, hheap]
  refine ⟨h1, h2, ?_, ?_, ?_⟩
  · intro h hr pins
    obtain ⟨h3, h4⟩ := begins_keep h pins _ (h1.trans hr)
    exact ⟨h3, h4.trans h2⟩
  · intro hr p r2 later2 hl
    rw [hr] at h1
    rw [hl] at h2
    constructor <;> simp [SPIHandler.begin, SPIHandler.xSemaphoreCreateMutex, hnull, hheap, hr, hl]
  · intro g0 h p hg0
    exact begin_keeps p h g0 hg0

theorem begin_creates_mutex_once_witness :
    (SPIHandler.begin 5 ⟨none, [some 7, some 8], []⟩)._safety_block_spi = some 7 ∧
      (SPIHandler.begin 5 ⟨none, [some 7, some 8], []⟩).heap = [some 8] ∧
      ∀ pins : List Nat,
        (pins.foldl (fun g p => SPIHandler.begin p g)
          (SPIHandler.begin 5 ⟨none, [some 7, some 8], []⟩))._safety_block_spi = some 7 ∧
        (pins.foldl (fun g p => SPIHandler.begin p g)
          (SPIHandler.begin 5 ⟨none, [some 7, some 8], []⟩)).heap = [some 8] := by
  have h := begin_creates_mutex_once ⟨none, [some 7, some 8], []⟩ 5 (some 7) [some 8] rfl rfl
  exact ⟨h.1, h.2.1, h.2.2.1 7 rfl⟩

theorem writeLoop_trace (buffer : List Nat) :
    ∀ (fuel : Nat) (s : SPIBus) (cur ref data_offset remaining : Nat),
      remaining ≤ fuel → cur = ref % 4294967296 →
      (pageSplit ref remaining).length ≤ readyCount s.miso →
      ∃ ws s', FlashHandler.writeLoop buffer fuel s cur data_offset remaining = some s' ∧
        ws.length = (pageSplit ref remaining).length ∧
        (∀ w ∈ ws, (∀ b ∈ w.1, b % 256 % 2 = 1) ∧ w.2 % 256 % 2 = 0) ∧
        s.miso = ws.flatMap (fun w => w.1 ++ [w.2]) ++ s'.miso ∧
        s'.trace = s.trace ++
          writeTrace ws (expectedPrograms buffer (pageSplit ref remaining) data_offset) := by
  intro fuel
  induction fuel with
  | zero =>
    intro s cur ref data_offset remaining hf _ _
    have : remaining = 0 := by omega
    subst this
    exact ⟨[], s, by simp [FlashHandler.writeLoop], by simp [pageSplit_zero], by simp,
      by simp, by simp [writeTrace]⟩
  | succ fuel ih =>
    intro s cur ref data_offset remaining hf hcur hready
    by_cases hrem : remaining > 0
    · rw [pageSplit_pos ref remaining hrem] at hready ⊢
      simp only [List.length_cons] at hready
      obtain ⟨miso, trace⟩ := s
      obtain ⟨busy, r, rest, e, hb, hr, hcnt⟩ := readyCount_split miso (by simp only at hready; omega)
      subst e
      have hsize : (if remaining < (W25Q_PAGE_SIZE - cur % W25Q_PAGE_SIZE % 65536) % 65536
            then remaining else (W25Q_PAGE_SIZE - cur % W25Q_PAGE_SIZE % 65536) % 65536) % 65536 =
          min remaining (256 - ref % 256) := by
        simp only [W25Q_PAGE_SIZE]
        split <;> omega
      have hb2 : ((cur >>> 16) &&& 0xFF) % 256 = ref % 16777216 / 65536 % 256 := by
        rw [and_255, Nat.shiftRight_eq_div_pow]
        omega
      have hb1 : ((cur >>> 8) &&& 0xFF) % 256 = ref % 16777216 / 256 % 256 := by
        rw [and_255, Nat.shiftRight_eq_div_pow]
        omega
      have hb0 : (cur &&& 0xFF) % 256 = ref % 16777216 % 256 := by
        rw [and_255]
        omega
      obtain ⟨ws, s', e, hlen, hws, hmiso, htr⟩ := ih
        ⟨rest, trace ++ (busyPolls busy ++ txn [.write 0x05, .read (r % 256)]) ++
          txn [.write 0x06] ++
          txn (([0x02, ((cur >>> 16) &&& 0xFF) % 256, ((cur >>> 8) &&& 0xFF) % 256,
            (cur &&& 0xFF) % 256] ++
            chunkBytes buffer data_offset (min remaining (256 - ref % 256)) 0).map BusEvent.write)⟩
        ((cur + min remaining (256 - ref % 256)) % 4294967296)
        (ref + min remaining (256 - ref % 256))
        (data_offset + min remaining (256 - ref % 256))
        (remaining - min remaining (256 - ref % 256))
        (by omega) (by omega) (by simp only at hready ⊢; omega)
      refine ⟨(busy, r) :: ws, s', ?_, by simp [hlen], ?_, ?_, ?_⟩
      · rw [FlashHandler.writeLoop, if_pos hrem, wait_ready busy r rest trace hb hr]
        simp only [Option.bind, hsize, writeEnable_spec, pageProgram_spec]
        exact e
      · intro w hw
        rcases List.mem_cons.mp hw with rfl | hw
        · exact ⟨hb, hr⟩
        · exact hws w hw
      · simp only at hmiso ⊢
        rw [List.flatMap_cons, hmiso]
        simp
      · rw [htr]
        simp only [expectedPrograms, writeTrace, chunkTrace, programTransfers, hb2, hb1, hb0,
          List.append_assoc]
    · have : remaining = 0 := by omega
      subst this
      exact ⟨[], s, by simp [FlashHandler.writeLoop], by simp [pageSplit_zero], by simp,
        by simp, by simp [writeTrace]⟩

theorem programTransfers_transfer (c : Nat × List Nat) :
    ∀ e ∈ programTransfers c, e.isTransfer = true := by
  intro e he
  obtain ⟨b, _, rfl⟩ := List.mem_map.mp he
  rfl

theorem transactions_chunkTrace (w : List Nat × Nat) (c : Nat × List Nat)
    (rest : List BusEvent) :
    transactions (chunkTrace w c ++ rest) = chunkTransactions w c ++ transactions rest := by
  simp only [chunkTrace, List.append_assoc]
  rw [transactions_busyPolls, transactions_poll,
    transactions_txn [.write 0x06] _ (by simp [BusEvent.isTransfer]),
    transactions_txn _ _ (programTransfers_transfer c)]
  simp [chunkTransactions]

theorem transactions_writeTrace :
    ∀ (ws : List (List Nat × Nat)) (cs : List (Nat × List Nat)),
      transactions (writeTrace ws cs) = (List.zipWith chunkTransactions ws cs).flatten := by
  intro ws
  induction ws with
  | nil => intro cs; simp [writeTrace, transactions_nil]
  | cons w ws ih =>
    intro cs
    cases cs with
    | nil => simp [writeTrace, transactions_nil]
    | cons c cs =>
      rw [writeTrace, transactions_chunkTrace, ih]
      simp

theorem enabledPrograms_polls (rest : List (List BusEvent))
    (h : ∀ prev, enabledPrograms prev rest = true) :
    ∀ (l : List Nat) (prev : Option (List BusEvent)),
      enabledPrograms prev
        (l.map (fun b => [BusEvent.write 0x05, BusEvent.read (b % 256)]) ++ rest) = true := by
  intro l
  induction l with
  | nil => intro prev; simpa using h prev
  | cons b l ih =>
    intro prev
    simp only [List.map_cons, List.cons_append, enabledPrograms]
    simp [ih]

theorem enabledPrograms_chunks :
    ∀ (ws : List (List Nat × Nat)) (cs : List (Nat × List Nat)) (prev : Option (List BusEvent)),
      enabledPrograms prev (List.zipWith chunkTransactions ws cs).flatten = true := by
  intro ws
  induction ws with
  | nil => intro cs prev; simp [enabledPrograms]
  | cons w ws ih =>
    intro cs prev
    cases cs with
    | nil => simp [enabledPrograms]
    | cons c cs =>
      simp only [List.zipWith_cons_cons, List.flatten_cons, chunkTransactions,
        List.append_assoc]
      apply enabledPrograms_polls
      intro prev2
      simp only [List.cons_append, List.nil_append, enabledPrograms]
      simp [ih]

/-- C28: when the chip reports ready for each chunk, `write(addr, buffer, len)` returns and
its bus trace is, chunk after chunk of the page split: the status polls, each busy one
followed by a yield, up to the first that reads WIP = 0, then a separate write-enable
transaction `[0x06]`, then the one page-program transaction `[0x02, three address bytes, the
chunk's data]`; every page-program transaction comes right after its own write-enable; and
for `len = 0` nothing is done on the bus. -/
theorem write_chunk_sequence (s : SPIBus) (addr : Nat) (buffer : List Nat) (len : Nat)
    (hready : (pageSplit addr len).length ≤ readyCount s.miso) :
    (∃ ws s', FlashHandler.write s addr buffer len = some s' ∧
        ws.length = (pageSplit addr len).length ∧
        (∀ w ∈ ws, (∀ b ∈ w.1, b % 256 % 2 = 1) ∧ w.2 % 256 % 2 = 0) ∧
        s.miso = ws.flatMap (fun w => w.1 ++ [w.2]) ++ s'.miso ∧
        s'.trace = s.trace ++
          writeTrace ws (expectedPrograms buffer (pageSplit addr len) 0) ∧
        transactions (writeTrace ws (expectedPrograms buffer (pageSplit addr len) 0)) =
          (List.zipWith chunkTransactions ws
            (expectedPrograms buffer (pageSplit addr len) 0)).flatten ∧
        enabledPrograms none
          (transactions (writeTrace ws (expectedPrograms buffer (pageSplit addr len) 0))) =
            true) ∧
      ∀ (s0 : SPIBus) (a : Nat), FlashHandler.write s0 a buffer 0 = some s0 := by
  constructor
  · obtain ⟨ws, s', e, hlen, hws, hmiso, htr⟩ :=
      writeLoop_trace buffer len s (addr % 4294967296) addr 0 len (Nat.le_refl _) rfl hready
    refine ⟨ws, s', e, hlen, hws, hmiso, htr, transactions_writeTrace _ _, ?_⟩
    rw [transactions_writeTrace]
    exact enabledPrograms_chunks _ _ _
  · intro s0 a
    simp [FlashHandler.write, FlashHandler.writeLoop]

theorem write_chunk_sequence_witness :
    ∃ ws s', FlashHandler.write ⟨[0x03, 0x02, 0x00], []⟩ 0x0001FF [0xA1, 0xB2] 2 = some s' ∧
      ws.length = (pageSplit 0x0001FF 2).length ∧
      (∀ w ∈ ws, (∀ b ∈ w.1, b % 256 % 2 = 1) ∧ w.2 % 256 % 2 = 0) ∧
      ([0x03, 0x02, 0x00] : List Nat) = ws.flatMap (fun w => w.1 ++ [w.2]) ++ s'.miso ∧
      s'.trace = [] ++
        writeTrace ws (expectedPrograms [0xA1, 0xB2] (pageSplit 0x0001FF 2) 0) ∧
      transactions (writeTrace ws (expectedPrograms [0xA1, 0xB2] (pageSplit 0x0001FF 2) 0)) =
        (List.zipWith chunkTransactions ws
          (expectedPrograms [0xA1, 0xB2] (pageSplit 0x0001FF 2) 0)).flatten ∧
      enabledPrograms none
        (transactions (writeTrace ws (expectedPrograms [0xA1, 0xB2] (pageSplit 0x0001FF 2) 0))) =
          true :=
  (write_chunk_sequence ⟨[0x03, 0x02, 0x00], []⟩ 0x0001FF [0xA1, 0xB2] 2
    (by simp [pageSplit, readyCount])).1

theorem disciplined_append (a : List BusEvent) :
    ∀ (h : Holding) (b : List BusEvent),
      disciplined h (a ++ b) = (disciplined h a).bind fun h' => disciplined h' b := by
  induction a with
  | nil => intro h b; rfl
  | cons e a ih =>
    intro h b
    simp only [List.cons_append, disciplined]
    split
    · exact ih _ _
    · rfl

theorem disciplined_transfers (evs : List BusEvent) (h : ∀ e ∈ evs, e.isTransfer = true) :
    disciplined ⟨true, true⟩ evs = some ⟨true, true⟩ := by
  induction evs with
  | nil => rfl
  | cons e evs ih =>
    have he := h e (by simp)
    have := ih (fun x hx => h x (by simp [hx]))
    cases e <;> simp [BusEvent.isTransfer] at he <;>
      simpa [disciplined, Holding.allows, Holding.track] using this

theorem disciplined_txn (evs : List BusEvent) (h : ∀ e ∈ evs, e.isTransfer = true) :
    disciplined Holding.free (txn evs) = some Holding.free := by
  have e : txn evs = [.take, .beginTransaction, .csLow] ++
      (evs ++ [.csHigh, .endTransaction, .give]) := by simp [txn]
  rw [e, disciplined_append]
  have h1 : disciplined Holding.free [.take, .beginTransaction, .csLow] = some ⟨true, true⟩ :=
    rfl
  rw [h1]
  simp only [Option.bind]
  rw [disciplined_append, disciplined_transfers evs h]
  rfl

theorem disciplined_then (a b : List BusEvent)
    (ha : disciplined Holding.free a = some Holding.free)
    (hb : disciplined Holding.free b = some Holding.free) :
    disciplined Holding.free (a ++ b) = some Holding.free := by
  rw [disciplined_append, ha]
  exact hb

theorem disciplined_poll (r : Nat) :
    disciplined Holding.free (txn [.write 0x05, .read r]) = some Holding.free :=
  disciplined_txn _ (by simp [BusEvent.isTransfer])

theorem disciplined_busyPolls (busy : List Nat) :
    disciplined Holding.free (busyPolls busy) = some Holding.free := by
  induction busy with
  | nil => rfl
  | cons b busy ih =>
    simp only [busyPolls]
    exact disciplined_then _ _ (disciplined_then _ _ (disciplined_poll _) rfl) ih

theorem disciplined_wait (busy : List Nat) (r : Nat) :
    disciplined Holding.free (busyPolls busy ++ txn [.write 0x05, .read r]) =
      some Holding.free :=
  disciplined_then _ _ (disciplined_busyPolls busy) (disciplined_poll r)

theorem disciplined_writeTrace :
    ∀ (ws : List (List Nat × Nat)) (cs : List (Nat × List Nat)),
      disciplined Holding.free (writeTrace ws cs) = some Holding.free := by
  intro ws
  induction ws with
  | nil => intro cs; rfl
  | cons w ws ih =>
    intro cs
    cases cs with
    | nil => rfl
    | cons c cs =>
      simp only [writeTrace, chunkTrace]
      exact disciplined_then _ _
        (disciplined_then _ _
          (disciplined_then _ _ (disciplined_wait _ _)
            (disciplined_txn _ (by simp [BusEvent.isTransfer])))
          (disciplined_txn _ (programTransfers_transfer c)))
        (ih cs)

theorem isBusy_trace (s : SPIBus) :
    ∃ r, (FlashHandler.isBusy s).2.trace = s.trace ++ txn [.write 0x05, .read r] := by
  obtain ⟨miso, tr⟩ := s
  cases miso with
  | nil => exact ⟨0xFF, by rw [isBusy_nil]⟩
  | cons b rest => exact ⟨b % 256, by rw [isBusy_cons]⟩

theorem powerDown_spec (s : SPIBus) :
    FlashHandler.powerDown s = ⟨s.miso, s.trace ++ txn [.write 0xB9]⟩ := by
  simp [FlashHandler.powerDown, SPIBus.startTransaction, SPIBus.spiWrite, SPIBus.endTransaction,
    txn, W25Q_CMD_POWER_DOWN]

theorem wakeUp_spec (s : SPIBus) :
    FlashHandler.wakeUp s = ⟨s.miso, s.trace ++ txn [.write 0xAB]⟩ := by
  simp [FlashHandler.wakeUp, SPIBus.startTransaction, SPIBus.spiWrite, SPIBus.endTransaction,
    txn, W25Q_CMD_RELEASE_PD]

/-- C29: every public operation of the flash driver, started with the permit free and the
chip select high, keeps the transaction discipline: each byte is transferred under the permit
with the chip select low, the permit is never taken while held, every yield happens with the
permit released, and the operation returns with the permit free and the chip select high.
`getJEDECID`, `isBusy`, `powerDown` and `wakeUp` always do; `waitForReady`, `read`,
`eraseSector`, `eraseChip` and `write` return and do whenever the chip reports ready (once
per chunk for `write`); the trace of `waitForReady` is one complete transaction per status
poll, with a yield after each busy one. -/
theorem flash_operations_disciplined (s : SPIBus) (addr : Nat) (buffer : List Nat) (len : Nat) :
    (∃ tr, (FlashHandler.getJEDECID s).2.trace = s.trace ++ tr ∧
        disciplined Holding.free tr = some Holding.free) ∧
      (∃ tr, (FlashHandler.isBusy s).2.trace = s.trace ++ tr ∧
        disciplined Holding.free tr = some Holding.free) ∧
      (∃ tr, (FlashHandler.powerDown s).trace = s.trace ++ tr ∧
        disciplined Holding.free tr = some Holding.free) ∧
      (∃ tr, (FlashHandler.wakeUp s).trace = s.trace ++ tr ∧
        disciplined Holding.free tr = some Holding.free) ∧
      (1 ≤ readyCount s.miso →
        (∃ s' busy r, FlashHandler.waitForReady s = some s' ∧
          s'.trace = s.trace ++ (busyPolls busy ++ txn [.write 0x05, .read r]) ∧
          disciplined Holding.free (busyPolls busy ++ txn [.write 0x05, .read r]) =
            some Holding.free) ∧
        (∃ s' tr, FlashHandler.eraseSector s addr = some s' ∧ s'.trace = s.trace ++ tr ∧
          disciplined Holding.free tr = some Holding.free) ∧
        (∃ s' tr, FlashHandler.eraseChip s = some s' ∧ s'.trace = s.trace ++ tr ∧
          disciplined Holding.free tr = some Holding.free) ∧
        (len ≤ buffer.length →
          ∃ s' buffer' tr, FlashHandler.read s addr buffer len = some (s', buffer') ∧
            s'.trace = s.trace ++ tr ∧ disciplined Holding.free tr = some Holding.free)) ∧
      ((pageSplit addr len).length ≤ readyCount s.miso →
        ∃ s' tr, FlashHandler.write s addr buffer len = some s' ∧ s'.trace = s.trace ++ tr ∧
          disciplined Holding.free tr = some Holding.free) := by
  refine ⟨?_, ?_, ?_, ?_, ?_, ?_⟩
  · obtain ⟨m, t, c, _, h⟩ := getJEDECID_spec s
    exact ⟨_, by rw [h], disciplined_txn _ (by simp [BusEvent.isTransfer])⟩
  · obtain ⟨r, h⟩ := isBusy_trace s
    exact ⟨_, h, disciplined_poll r⟩
  · exact ⟨_, by rw [powerDown_spec], disciplined_txn _ (by simp [BusEvent.isTransfer])⟩
  · exact ⟨_, by rw [wakeUp_spec], disciplined_txn _ (by simp [BusEvent.isTransfer])⟩
  · intro hready
    obtain ⟨miso, trace⟩ := s
    obtain ⟨busy, r, rest, e, hb, hr, _⟩ := readyCount_split miso hready
    subst e
    refine ⟨⟨_, busy, r % 256, wait_ready busy r rest trace hb hr, rfl, disciplined_wait _ _⟩,
      ⟨_, _, eraseSector_spec busy r rest trace addr hb hr, rfl, ?_⟩,
      ⟨_, _, eraseChip_spec busy r rest trace hb hr, rfl, ?_⟩, ?_⟩
    · exact disciplined_then _ _ (disciplined_then _ _ (disciplined_wait _ _)
        (disciplined_txn _ (by simp [BusEvent.isTransfer])))
        (disciplined_txn _ (by simp [BusEvent.isTransfer]))
    · exact disciplined_then _ _ (disciplined_then _ _ (disciplined_wait _ _)
        (disciplined_txn _ (by simp [BusEvent.isTransfer])))
        (disciplined_txn _ (by simp [BusEvent.isTransfer]))
    · intro hbuf
      refine ⟨_, _, _, read_spec busy r rest trace addr buffer len hb hr hbuf, rfl, ?_⟩
      refine disciplined_then _ _ (disciplined_wait _ _) (disciplined_txn _ ?_)
      intro e he
      simp only [List.mem_append, List.mem_cons, List.mem_map, List.mem_singleton,
        List.not_mem_nil, or_false] at he
      rcases he with (rfl | rfl | rfl | rfl) | ⟨b, _, rfl⟩ <;> rfl
  · intro hready
    obtain ⟨ws, s', e, _, _, _, htr⟩ :=
      writeLoop_trace buffer len s (addr % 4294967296) addr 0 len (Nat.le_refl _) rfl hready
    exact ⟨s', _, e, htr, disciplined_writeTrace _ _⟩

theorem flash_operations_disciplined_witness :
    (∃ s' buffer' tr,
        FlashHandler.read ⟨[0x01, 0x00, 0x00, 0x5A], []⟩ 0xFE [1, 2, 3, 4] 4 =
          some (s', buffer') ∧
        s'.trace = [] ++ tr ∧ disciplined Holding.free tr = some Holding.free) ∧
      ∃ s' tr, FlashHandler.write ⟨[0x01, 0x00, 0x00, 0x5A], []⟩ 0xFE [1, 2, 3, 4] 4 = some s' ∧
        s'.trace = [] ++ tr ∧ disciplined Holding.free tr = some Holding.free := by
  have h := flash_operations_disciplined ⟨[0x01, 0x00, 0x00, 0x5A], []⟩ 0xFE [1, 2, 3, 4] 4
  exact ⟨(h.2.2.2.2.1 (by simp [readyCount])).2.2.2 (by decide),
    h.2.2.2.2.2 (by simp [pageSplit, readyCount])⟩

theorem holderAfter_append (l : List (Nat × BusEvent)) :
    ∀ (o : Option Nat) (l2 : List (Nat × BusEvent)),
      holderAfter o (l ++ l2) = (holderAfter o l).bind fun o' => holderAfter o' l2 := by
  induction l with
  | nil => intro o l2; rfl
  | cons x l ih =>
    intro o l2
    obtain ⟨i, e⟩ := x
    cases e <;> simp only [List.cons_append, holderAfter] <;>
      first
      | exact ih _ _
      | (split
         · exact ih _ _
         · rfl)

theorem guarded_inside (ops : List BusEvent)
    (h : ∀ e ∈ ops, e ≠ BusEvent.take ∧ e ≠ BusEvent.give) (rest : List BusEvent) :
    guarded true (ops ++ rest) = guarded true rest := by
  induction ops with
  | nil => rfl
  | cons e ops ih =>
    have he := h e (by simp)
    have := ih (fun x hx => h x (by simp [hx]))
    cases e <;> simp_all [guarded]

theorem guarded_take (es : List BusEvent) :
    guarded false (.take :: es) = guarded true es := by
  simp [guarded]

theorem guarded_give (es : List BusEvent) :
    guarded true (.give :: es) = guarded false es := by
  simp [guarded]

theorem guarded_call (c : BusCall) (hc : c.wellFormed = true) (rest : List BusEvent) :
    guarded false (c.events ++ rest) = guarded false rest := by
  cases c with
  | transaction transfers =>
    have e : (BusCall.transaction transfers).events ++ rest =
        .take :: (([.beginTransaction, .csLow] ++ transfers ++ [.csHigh, .endTransaction]) ++
          .give :: rest) := by
      simp [BusCall.events, SPIBus.startTransaction, SPIBus.endTransaction]
    rw [e, guarded_take, guarded_inside, guarded_give]
    · intro x hx
      simp only [List.mem_append, List.mem_cons, List.mem_singleton, List.not_mem_nil,
        or_false] at hx
      simp only [BusCall.wellFormed, List.all_eq_true] at hc
      rcases hx with ((rfl | rfl) | hx) | (rfl | rfl)
      · simp
      · simp
      · have := hc x hx
        cases x <;> simp [BusEvent.isTransfer] at this ⊢
      · simp
      · simp
  | draw drawCallback =>
    have e : (BusCall.draw drawCallback).events ++ rest =
        .take :: (drawCallback ++ .give :: rest) := by
      simp [BusCall.events, DisplayHandler.draw]
    rw [e, guarded_take, guarded_inside, guarded_give]
    · intro x hx
      simp only [BusCall.wellFormed, List.all_eq_true] at hc
      simpa using hc x hx
  | pause =>
    simp [BusCall.events, SPIBus.vTaskDelay, guarded]

theorem guarded_program (p : List BusCall) (hp : ∀ c ∈ p, c.wellFormed = true) :
    guarded false (p.flatMap BusCall.events) = true := by
  induction p with
  | nil => rfl
  | cons c p ih =>
    rw [List.flatMap_cons, guarded_call c (hp c (by simp))]
    exact ih (fun x hx => hp x (by simp [hx]))

theorem set_lookup (todo : List (List BusEvent)) (i j : Nat) (rest q : List BusEvent)
    (h : (todo.set i rest)[j]? = some q) :
    (j = i ∧ q = rest) ∨ (j ≠ i ∧ todo[j]? = some q) := by
  by_cases hji : j = i
  · subst hji
    left
    rw [List.getElem?_set] at h
    simp only [if_true] at h
    split at h
    · exact ⟨rfl, (Option.some.inj h).symm⟩
    · exact absurd h (by simp)
  · right
    rw [List.getElem?_set_ne (fun h' => hji h'.symm)] at h
    exact ⟨hji, h⟩

theorem step_keeps (σ σ' : Sched) (i : Nat) (hstep : σ.step i = some σ')
    (hlog : holderAfter none σ.log = some σ.owner)
    (hg : ∀ j p, σ.todo[j]? = some p → guarded (decide (σ.owner = some j)) p = true) :
    holderAfter none σ'.log = some σ'.owner ∧
      ∀ j p, σ'.todo[j]? = some p → guarded (decide (σ'.owner = some j)) p = true := by
  obtain ⟨owner, todo, log⟩ := σ
  simp only at hlog hg
  unfold Sched.step at hstep
  simp only at hstep
  cases htodo : todo[i]? with
  | none => simp [htodo] at hstep
  | some p =>
    cases p with
    | nil => simp [htodo] at hstep
    | cons e rest =>
      have hgi := hg i _ htodo
      rw [htodo] at hstep
      cases e with
      | take =>
        simp only at hstep
        split at hstep
        · rename_i hnone
          subst hnone
          have hs := (Option.some.inj hstep).symm
          subst hs
          simp only [guarded, Bool.and_eq_true] at hgi
          refine ⟨by rw [holderAfter_append, hlog]; simp [holderAfter], ?_⟩
          intro j q hq
          rcases set_lookup todo i j rest q hq with ⟨rfl, rfl⟩ | ⟨hne, hq'⟩
          · simpa using hgi.2
          · have hij : ¬ i = j := fun h => hne h.symm
            have := hg j q hq'
            simp only [Option.some.injEq, hij, decide_False]
            simpa using this
        · exact absurd hstep (by simp)
      | give =>
        simp only at hstep
        have hs := (Option.some.inj hstep).symm
        subst hs
        simp only [guarded, Bool.and_eq_true, decide_eq_true_eq] at hgi
        obtain ⟨hown, hrest⟩ := hgi
        subst hown
        refine ⟨by rw [holderAfter_append, hlog]; simp [holderAfter], ?_⟩
        intro j q hq
        rcases set_lookup todo i j rest q hq with ⟨rfl, rfl⟩ | ⟨hne, hq'⟩
        · simpa using hrest
        · have hij : ¬ i = j := fun h => hne h.symm
          have := hg j q hq'
          simp only [Option.some.injEq, hij, decide_False] at this
          simpa using this
      | yield =>
        simp only at hstep
        have hs := (Option.some.inj hstep).symm
        subst hs
        simp only [guarded] at hgi
        refine ⟨by rw [holderAfter_append, hlog]; simp [holderAfter], ?_⟩
        intro j q hq
        rcases set_lookup todo i j rest q hq with ⟨rfl, rfl⟩ | ⟨hne, hq'⟩
        · exact hgi
        · exact hg j q hq'
      | _ =>
        simp only at hstep
        have hs := (Option.some.inj hstep).symm
        subst hs
        simp only [guarded, Bool.and_eq_true, decide_eq_true_eq] at hgi
        obtain ⟨hown, hrest⟩ := hgi
        subst hown
        refine ⟨by rw [holderAfter_append, hlog]; simp [holderAfter], ?_⟩
        intro j q hq
        rcases set_lookup todo i j rest q hq with ⟨rfl, rfl⟩ | ⟨hne, hq'⟩
        · simpa using hrest
        · exact hg j q hq'

theorem run_keeps :
    ∀ (schedule : List Nat) (σ : Sched),
      holderAfter none σ.log = some σ.owner →
      (∀ j p, σ.todo[j]? = some p → guarded (decide (σ.owner = some j)) p = true) →
      holderAfter none (σ.run schedule).log = some (σ.run schedule).owner := by
  intro schedule
  induction schedule with
  | nil => intro σ h _; exact h
  | cons i schedule ih =>
    intro σ h hg
    rw [Sched.run]
    cases hs : σ.step i with
    | none => exact ih σ h hg
    | some σ' =>
      obtain ⟨h', hg'⟩ := step_keeps σ σ' i hs h hg
      exact ih σ' h' hg'

/-- C26: for any number of concurrent callers, each making any sequence of flash-driver
transactions (`startTransaction`, transfers, `endTransaction`), display draws (`draw`, the
callback not using the permit itself) and pauses, and for every interleaving the scheduler may
choose, the observed trace is a sequence of permit sections that never interleave: the permit
is taken only when it is free, given back only by its holder, and every bus operation between
a take and the matching give is made by the caller that holds the permit. -/
theorem bus_mutual_exclusion (programs : List (List BusCall))
    (hwf : ∀ p ∈ programs, ∀ c ∈ p, c.wellFormed = true) (schedule : List Nat) :
    exclusive ((Sched.start programs).run schedule).log = true ∧
      holderAfter none ((Sched.start programs).run schedule).log =
        some ((Sched.start programs).run schedule).owner := by
  have h := run_keeps schedule (Sched.start programs) rfl (by
    intro j p hp
    simp only [Sched.start, List.getElem?_map] at hp
    cases hj : programs[j]? with
    | none => simp [hj] at hp
    | some q =>
      rw [hj] at hp
      simp only [Option.map_some', Option.some.injEq] at hp
      subst hp
      simpa using guarded_program q (hwf q (List.mem_iff_getElem?.mpr ⟨j, hj⟩)))
  exact ⟨by rw [exclusive, h]; rfl, h⟩

set_option maxRecDepth 100000 in
theorem bus_mutual_exclusion_witness :
    exclusive ((Sched.start [[.transaction [.write 0x05, .read 0x00], .pause,
        .transaction [.write 0x06]], [.draw [.csLow, .write 0x2C, .csHigh]]]).run
      [0, 1, 0, 0, 1, 0, 0, 0, 1, 1, 0, 1, 1, 0, 1, 0, 0, 0, 0, 0, 0]).log = true ∧
    holderAfter none ((Sched.start [[.transaction [.write 0x05, .read 0x00], .pause,
        .transaction [.write 0x06]], [.draw [.csLow, .write 0x2C, .csHigh]]]).run
      [0, 1, 0, 0, 1, 0, 0, 0, 1, 1, 0, 1, 1, 0, 1, 0, 0, 0, 0, 0, 0]).log =
      some ((Sched.start [[.transaction [.write 0x05, .read 0x00], .pause,
        .transaction [.write 0x06]], [.draw [.csLow, .write 0x2C, .csHigh]]]).run
      [0, 1, 0, 0, 1, 0, 0, 0, 1, 1, 0, 1, 1, 0, 1, 0, 0, 0, 0, 0, 0]).owner :=
  bus_mutual_exclusion [[.transaction [.write 0x05, .read 0x00], .pause,
    .transaction [.write 0x06]], [.draw [.csLow, .write 0x2C, .csHigh]]] (by decide)
    [0, 1, 0, 0, 1, 0, 0, 0, 1, 1, 0, 1, 1, 0, 1, 0, 0, 0, 0, 0, 0]

theorem exclusive_rejects_interleaving :
    exclusive [(0, .take), (0, .csLow), (1, .write 0x2C), (0, .csHigh), (0, .give)] = false ∧
      exclusive [(0, .take), (1, .take), (0, .give), (1, .give)] = false := by
  constructor <;> rfl

end Orbito
